import Mathlib

/-!
# Authenticated trie of go-pbfcoin: embedding and verification

The repository ships the tests of package `trie` (`trie/iterator_test.go`,
`trie/secure_trie_test.go`) but not the package's implementation files.  The
trie engine, its node encoding, the secure wrapper and the iterator are therefore
modelled from the specification text; every such definition says so in its doc
comment.  Definitions that embed code present in the repository (the test fixture
of `TestSecureDelete`) are translated from the source.

Conventions of the embedding:
* bytes are `Fin 256`, nibbles are `Fin 16`;
* a branch node's sixteen child slots are a function `Fin 16 → Node`;
* the digest function (`crypto.Sha3` in the tests) is a parameter `digest`;
* operations that resolve hash references through the backing store recurse on
  an explicit fuel argument and return `Except TrieError _`.

The packages `rpc/api`, `rpc/shared`, `miner`, `core/vm/runtime` and the command
`blocktest` of `cmd/gpbf` are present in the repository and are translated from their
source, after the trie definitions, each under a namespace of its own.
-/

namespace trie

/-! ## Nibble codec -/

/-- Modelled from the spec: one byte of a key, value, digest or encoding. -/
abbrev Byte := Fin 256

/-- Modelled from the spec: a nibble, the 4-bit half-byte that is the trie's
path alphabet. -/
abbrev Nibble := Fin 16

/-- Modelled from the spec: a byte sequence (key, value, digest, encoding). -/
abbrev Bytes := List Byte

/-- Modelled from the spec: a nibble sequence (a path in the trie). -/
abbrev Nibbles := List Nibble

/-- Modelled from the spec: the most significant nibble of a byte. -/
def hiNibble (b : Byte) : Nibble := ⟨b.val / 16, by omega⟩

/-- Modelled from the spec: the least significant nibble of a byte. -/
def loNibble (b : Byte) : Nibble := ⟨b.val % 16, by omega⟩

/-- Modelled from the spec: packing of two nibbles to the byte whose high
nibble is `a` and whose low nibble is `b`. -/
def packByte (a b : Nibble) : Byte := ⟨a.val * 16 + b.val, by omega⟩

/-- Modelled from the spec: the nibble codec of package trie (not under src/).
`toNibbles(bytes) -> nibbles`: each byte expands to two nibbles, most
significant first. -/
def toNibbles : Bytes → Nibbles
  | [] => []
  | b :: bs => hiNibble b :: loNibble b :: toNibbles bs

/-- Modelled from the spec: the nibble codec of package trie (not under src/).
Packs an even-length nibble sequence back to bytes; an odd length is a
malformed input length and yields `none` (never silently truncates). -/
def fromNibbles : Nibbles → Option Bytes
  | [] => some []
  | [_] => none
  | a :: b :: rest => (fromNibbles rest).map (fun bs => packByte a b :: bs)

/-- Modelled from the spec: hex-prefix encoding of package trie (not under src/).
Prepends a flag nibble encoding (a) leaf versus extension and (b) odd/even
length, and a zero padding nibble whenever the flag-prefixed sequence would
otherwise have an odd number of nibbles, then packs the nibbles to bytes. Flag
nibble: `2` is added for a leaf, `1` for a path of odd length. -/
def hexPrefixEncode (path : Nibbles) (isLeaf : Bool) : Bytes :=
  let flag : Nibble := if isLeaf then 2 else 0
  if path.length % 2 = 1 then
    match path with
    | [] => []
    | a :: rest => packByte (flag + 1) a :: (fromNibbles rest).getD []
  else
    packByte flag 0 :: (fromNibbles path).getD []

/-- Modelled from the spec: hex-prefix decoding of package trie (not under src/).
Inverts `hexPrefixEncode`; an empty input, a flag nibble above `3`, or a non-zero
padding nibble is a decoding error (`none`). -/
def hexPrefixDecode : Bytes → Option (Nibbles × Bool)
  | [] => none
  | b :: bs =>
    let flag := hiNibble b
    if 4 ≤ flag.val then none
    else if flag.val % 2 = 1 then some (loNibble b :: toNibbles bs, decide (2 ≤ flag.val))
    else if (loNibble b).val ≠ 0 then none
    else some (toNibbles bs, decide (2 ≤ flag.val))

/-- Modelled from the spec: byte-level framing of a node's canonical structured
encoding (an ordered list of elements); the spec fixes no framing, so a
self-delimiting one is used: every data byte is preceded by the marker byte `1`
and every element is closed by the marker byte `0`. -/
def frameElem (e : Bytes) : Bytes :=
  match e with
  | [] => [0]
  | b :: bs => 1 :: b :: frameElem bs

/-- Modelled from the spec: serialization of an ordered list of elements. -/
def frame : List Bytes → Bytes
  | [] => []
  | e :: es => frameElem e ++ frame es

/-- Modelled from the spec: the parser of `unframe` with its state; `cur` is the
element being read, reversed. -/
def unframeAux : Bytes → Bytes → Option (List Bytes)
  | [], cur => if cur = [] then some [] else none
  | [m], cur => if m.val = 0 then some [cur.reverse] else none
  | m :: b :: rest, cur =>
    if m.val = 0 then (unframeAux (b :: rest) []).map (fun es => cur.reverse :: es)
    else if m.val = 1 then unframeAux rest (b :: cur)
    else none

/-- Modelled from the spec: parser inverting `frame`; a byte blob that is not a
framed element list is a decoding error (`none`). -/
def unframe (bs : Bytes) : Option (List Bytes) := unframeAux bs []

/-! ## Node model -/

/-- Modelled from the spec: the node model of package trie (not under src/).
The tagged union of section 3: blank, leaf `(remainingNibbles, value)`,
extension `(sharedNibbles, child)`, branch `(children[16], value?)`, and the
hash reference standing for a node kept in the backing store. -/
inductive Node where
  | blank : Node
  | leaf (path : Nibbles) (value : Bytes) : Node
  | ext (path : Nibbles) (child : Node) : Node
  | branch (children : Nibble → Node) (value : Option Bytes) : Node
  | hashRef (digest : Bytes) : Node

namespace Node

/-- Modelled from the spec: whether the node is the blank variant. -/
def isBlank : Node → Bool
  | blank => true
  | _ => false

/-- Modelled from the spec: whether the node is a hash reference. -/
def isHashRef : Node → Bool
  | hashRef _ => true
  | _ => false

/-- Modelled from the spec: whether the node is a branch. -/
def isBranch : Node → Bool
  | branch _ _ => true
  | _ => false

instance : Inhabited Node := ⟨blank⟩

end Node

/-- Modelled from the spec: the child slots of a fresh branch, all blank. -/
def noChildren : Nibble → Node := fun _ => Node.blank

/-- Modelled from the spec: the nibbles whose child slot is populated (not
blank), ascending. -/
def populated (cs : Nibble → Node) : List Nibble :=
  (List.finRange 16).filter (fun i => !(cs i).isBlank)

/-! ## Backing store -/

/-- Modelled from the spec: the backing store adapter (package pbfdb is not under
src/).  A content-addressed map `digest -> canonical node encoding`, plus the
secure trie's namespaced preimage map `digest -> original key bytes`.  Both are
association lists, newest entry first. -/
structure Store where
  nodes : List (Bytes × Bytes)
  preimages : List (Bytes × Bytes)

/-- Modelled from the spec: lookup in the store's map (first binding of `k`). -/
def assocGet (k : Bytes) : List (Bytes × Bytes) → Option Bytes
  | [] => none
  | (k', v) :: rest => if k' = k then some v else assocGet k rest

namespace Store

/-- Modelled from the spec: the store of a fresh in-memory database
(`pbfdb.NewMemDatabase()` in the tests; package pbfdb is not under src/). -/
def empty : Store := ⟨[], []⟩

/-- Modelled from the spec: `get(digest) -> bytes`; `none` when absent. -/
def get (db : Store) (h : Bytes) : Option Bytes := assocGet h db.nodes

/-- Modelled from the spec: `put(digest, bytes)`. -/
def put (db : Store) (h enc : Bytes) : Store := { db with nodes := (h, enc) :: db.nodes }

/-- Modelled from the spec: preimage namespace, lookup of the original key of a
digest key. -/
def getPreimage (db : Store) (h : Bytes) : Option Bytes := assocGet h db.preimages

/-- Modelled from the spec: preimage namespace, recording `digestKey -> key`. -/
def putPreimage (db : Store) (h key : Bytes) : Store :=
  { db with preimages := (h, key) :: db.preimages }

end Store

/-! ## Canonical encoding and hashing -/

/-- Modelled from the spec: a child reference embedded in a parent's encoding.
The simplest conformant choice of section 4.2: the literal empty marker for a
blank child, the child's digest otherwise (`d` is the digest of the child's own
encoding, used when the child is still in memory). -/
def refBytes (c : Node) (d : Bytes) : Bytes :=
  match c with
  | .blank => []
  | .hashRef h => h
  | _ => d

/-- Modelled from the spec: canonical encoding of package trie (not under src/).
A branch serializes its 16 child slots and its value slot, a leaf its
hex-prefixed path and value, an extension its hex-prefixed path and child
reference.  A hash reference is never serialized as a node (only referenced), so
its encoding is left empty. -/
def encodeNode (digest : Bytes → Bytes) : Node → Bytes
  | .blank => frame []
  | .leaf p v => frame [hexPrefixEncode p true, v]
  | .ext p c => frame [hexPrefixEncode p false, refBytes c (digest (encodeNode digest c))]
  | .branch cs v =>
    frame (List.ofFn (fun i => refBytes (cs i) (digest (encodeNode digest (cs i)))) ++ [v.getD []])
  | .hashRef _ => []

/-- Modelled from the spec: `hash(node) = digest(canonicalEncoding(node))`; a hash
reference already is the digest of the node it stands for. -/
def nodeHash (digest : Bytes → Bytes) (n : Node) : Bytes :=
  match n with
  | .hashRef h => h
  | _ => digest (encodeNode digest n)

/-- Modelled from the spec: decoding of a child reference: the empty marker is a
blank child, anything else a hash reference. -/
def decodeRef (b : Bytes) : Node := if b = [] then .blank else .hashRef b

/-- Modelled from the spec: decoding of a value slot: the empty marker is no
value. -/
def decodeValue (b : Bytes) : Option Bytes := if b = [] then none else some b

/-- Modelled from the spec: decoding of a stored blob into a concrete node whose
children are blank or hash references; `none` is a `DecodeError`. -/
def decodeNode (enc : Bytes) : Option Node :=
  match unframe enc with
  | none => none
  | some es =>
    match es with
    | [pathEnc, second] =>
      match hexPrefixDecode pathEnc with
      | none => none
      | some (p, true) => some (.leaf p second)
      | some (p, false) => some (.ext p (decodeRef second))
    | _ =>
      if es.length = 17 then
        some (.branch (fun i => decodeRef (es.getD i.val [])) (decodeValue (es.getD 16 [])))
      else none

/-- Modelled from the spec: the error taxonomy of section 7, plus the exhaustion
of the embedding's recursion fuel. -/
inductive TrieError where
  | missingNode (digest : Bytes) : TrieError
  | decodeError (digest : Bytes) : TrieError
  | outOfFuel : TrieError
  deriving DecidableEq

/-- Modelled from the spec: resolving a `HashRef`: look up bytes in the backing
store by digest, decode into a concrete node; a missing key is a
`MissingNodeError`. -/
def resolveHash (db : Store) (h : Bytes) : Except TrieError Node :=
  match db.get h with
  | none => .error (.missingNode h)
  | some enc =>
    match decodeNode enc with
    | none => .error (.decodeError h)
    | some n => .ok n

/-! ## Trie engine -/

/-- Modelled from the spec: the divergence point of two nibble paths: the shared
segment and the two remaining suffixes. -/
def splitShared : Nibbles → Nibbles → Nibbles × Nibbles × Nibbles
  | a :: p, b :: k =>
    if a = b then
      let r := splitShared p k
      (a :: r.1, r.2.1, r.2.2)
    else ([], a :: p, b :: k)
  | p, k => ([], p, k)

/-- Modelled from the spec: a key suffix and its value put into a branch under
construction: the value slot if the key terminates exactly there, otherwise a
fresh leaf in the child slot of the next nibble. -/
def placeLeaf (cs : Nibble → Node) (val : Option Bytes) (suffix : Nibbles) (v : Bytes) : Node :=
  match suffix with
  | [] => .branch cs (some v)
  | a :: rest => .branch (Function.update cs a (.leaf rest v)) val

/-- Modelled from the spec: a node preceded by an extension for the remaining
common path, if any. -/
def wrapExt (shared : Nibbles) (n : Node) : Node :=
  if shared = [] then n else .ext shared n

/-- Modelled from the spec: splitting a leaf on insert (package trie is not
under src/).  The same key replaces the value; otherwise a branch at the
divergence nibble holds the two suffixes (old continuation and the new leaf),
preceded by an extension for any remaining common path. -/
def splitLeaf (p : Nibbles) (w : Bytes) (k : Nibbles) (v : Bytes) : Node :=
  match splitShared p k with
  | (_, [], []) => .leaf p v
  | (shared, [], kRest) => wrapExt shared (placeLeaf noChildren (some w) kRest v)
  | (shared, a :: pRest, kRest) =>
    wrapExt shared (placeLeaf (Function.update noChildren a (.leaf pRest w)) none kRest v)

/-- Modelled from the spec: splitting an extension whose shared path diverges
from the key at nibble `a` (package trie is not under src/): a branch at the
divergence nibble holds the old continuation and the new leaf, preceded by an
extension for any remaining common path. -/
def splitExt (shared : Nibbles) (a : Nibble) (pRest : Nibbles) (c : Node)
    (kRest : Nibbles) (v : Bytes) : Node :=
  wrapExt shared (placeLeaf (Function.update noChildren a (wrapExt pRest c)) none kRest v)

/-- Modelled from the spec: `Get(key)` of the trie engine (package trie is not
under src/).  Descends matching shared nibble paths against extension/leaf
nodes and indexing into branch nodes by successive nibbles; returns the stored
value or absent (`none`).  A `HashRef` met mid-descent is resolved through the
store. -/
def get (db : Store) : Nat → Node → Nibbles → Except TrieError (Option Bytes)
  | 0, _, _ => .error .outOfFuel
  | _ + 1, .blank, _ => .ok none
  | _ + 1, .leaf p v, k => .ok (if p = k then some v else none)
  | f + 1, .ext p c, k =>
    if p.isPrefixOf k then get db f c (k.drop p.length) else .ok none
  | _ + 1, .branch _ val, [] => .ok val
  | f + 1, .branch cs _, a :: k => get db f (cs a) k
  | f + 1, .hashRef h, k =>
    match resolveHash db h with
    | .error e => .error e
    | .ok n => get db f n k

/-- Modelled from the spec: `Insert(key, value)` of the trie engine for a
non-empty value (package trie is not under src/).  Descends as `get`; splits a
leaf or extension at a divergence point; at a branch sets the child slot or the
branch's own value slot. Touched ancestors are rebuilt, never mutated. -/
def insert (db : Store) : Nat → Node → Nibbles → Bytes → Except TrieError Node
  | 0, _, _, _ => .error .outOfFuel
  | _ + 1, .blank, k, v => .ok (.leaf k v)
  | _ + 1, .leaf p w, k, v => .ok (splitLeaf p w k v)
  | f + 1, .ext p c, k, v =>
    match splitShared p k with
    | (_, [], kRest) =>
      match insert db f c kRest v with
      | .error e => .error e
      | .ok c' => .ok (.ext p c')
    | (shared, a :: pRest, kRest) => .ok (splitExt shared a pRest c kRest v)
  | _ + 1, .branch cs _, [], v => .ok (.branch cs (some v))
  | f + 1, .branch cs val, a :: k, v =>
    match insert db f (cs a) k v with
    | .error e => .error e
    | .ok c' => .ok (.branch (Function.update cs a c') val)
  | f + 1, .hashRef h, k, v =>
    match resolveHash db h with
    | .error e => .error e
    | .ok n => insert db f n k v

/-- Modelled from the spec: a node as the delete algorithm has to see it: a hash
reference is resolved, anything else is itself. -/
def resolveNode (db : Store) (n : Node) : Except TrieError Node :=
  match n with
  | .hashRef h => resolveHash db h
  | _ => .ok n

/-- Modelled from the spec: the single remaining child `c` of a branch, reached
by nibble `i`, merged into one path: a leaf or extension child absorbs the nibble, another child is
put under a one-nibble extension (`orig` is the child as the branch held it). -/
def absorbNibble (i : Nibble) (orig c : Node) : Node :=
  match c with
  | .leaf p v => .leaf (i :: p) v
  | .ext p c' => .ext (i :: p) c'
  | _ => .ext [i] orig

/-- Modelled from the spec: collapsing of a branch after a deletion below it or
of its value (package trie is not under src/).  A branch left with exactly one
child and no value is replaced by an extension encoding that single remaining
path (merged with the child when that is a leaf or extension); a branch left
with zero children and no value becomes blank; a branch left with zero children
and a value is a single remaining path too, the one that ends there, and becomes
the leaf of that value (the root digest is a function of the mapping alone, and
a branch has two children or more, or a value and a child); any other branch
stays. -/
def collapseBranch (db : Store) (cs : Nibble → Node) (val : Option Bytes) :
    Except TrieError Node :=
  match val, populated cs with
  | none, [] => .ok .blank
  | some v, [] => .ok (.leaf [] v)
  | none, [i] =>
    match resolveNode db (cs i) with
    | .error e => .error e
    | .ok c => .ok (absorbNibble i (cs i) c)
  | _, _ => .ok (.branch cs val)

/-- Modelled from the spec: an extension whose child changed by a deletion:
merged into the child when that became a leaf or extension, blank when the
child became blank (no extension has a blank child). -/
def mergeExt (p : Nibbles) (c : Node) : Node :=
  match c with
  | .blank => .blank
  | .leaf q v => .leaf (p ++ q) v
  | .ext q c' => .ext (p ++ q) c'
  | _ => .ext p c

/-- Modelled from the spec: `Delete(key)` of the trie engine (package trie is not
under src/).  Descends to the target, removes the value/leaf, then collapses
upward.  The second component is `wasPresent`; deleting a nonexistent key is a
no-op returning `false`, not an error. -/
def delete (db : Store) : Nat → Node → Nibbles → Except TrieError (Node × Bool)
  | 0, _, _ => .error .outOfFuel
  | _ + 1, .blank, _ => .ok (.blank, false)
  | _ + 1, .leaf p w, k => .ok (if p = k then (.blank, true) else (.leaf p w, false))
  | f + 1, .ext p c, k =>
    if p.isPrefixOf k then
      match delete db f c (k.drop p.length) with
      | .error e => .error e
      | .ok (c', found) => .ok (if found then (mergeExt p c', true) else (.ext p c, false))
    else .ok (.ext p c, false)
  | _ + 1, .branch cs val, [] =>
    match val with
    | none => .ok (.branch cs none, false)
    | some _ =>
      match collapseBranch db cs none with
      | .error e => .error e
      | .ok n => .ok (n, true)
  | f + 1, .branch cs val, a :: k =>
    match delete db f (cs a) k with
    | .error e => .error e
    | .ok (c', found) =>
      if found then
        match collapseBranch db (Function.update cs a c') val with
        | .error e => .error e
        | .ok n => .ok (n, true)
      else .ok (.branch cs val, false)
  | f + 1, .hashRef h, k =>
    match resolveHash db h with
    | .error e => .error e
    | .ok n =>
      match delete db f n k with
      | .error e => .error e
      | .ok (n', found) => .ok (if found then (n', true) else (.hashRef h, false))

/-- Modelled from the spec: one step of `Commit()`: serializes a node whose
children are already committed, hashes it, writes
`(hash -> encoding)` to the store and yields the hash reference replacing it. -/
def storeNode (digest : Bytes → Bytes) (n : Node) (db : Store) : Node × Store :=
  let enc := encodeNode digest n
  (.hashRef (digest enc), db.put (digest enc) enc)

/-- Modelled from the spec: the bottom-up walk of `Commit()` (package trie is not
under src/).  For each dirty (in-memory) node: commit the children first,
serialize, hash, write to the backing store, then replace the node by a
`HashRef`.  Blank markers and hash references are not dirty. -/
def commitNode (digest : Bytes → Bytes) : Node → Store → Node × Store
  | .blank, db => (.blank, db)
  | .hashRef h, db => (.hashRef h, db)
  | .leaf p v, db => storeNode digest (.leaf p v) db
  | .ext p c, db =>
    let r := commitNode digest c db
    storeNode digest (.ext p r.1) r.2
  | .branch cs v, db =>
    let r := (List.finRange 16).foldl
      (fun (acc : (Nibble → Node) × Store) i =>
        let r := commitNode digest (cs i) acc.2
        (Function.update acc.1 i r.1, r.2))
      (cs, db)
    storeNode digest (.branch r.1 v) r.2

/-- Modelled from the spec: a trie instance of package trie (not under src/):
the current root reference and the backing store it resolves through. -/
structure Trie where
  root : Node
  db : Store

/-- Modelled from the spec: `open()` with no root: the empty trie over `db`
(`New(common.Hash{}, db)`). -/
def New (db : Store) : Trie := ⟨.blank, db⟩

/-- Modelled from the spec: the helper `newEmpty()` of the tests (its file is
not under src/): the empty trie over a fresh in-memory database. -/
abbrev newEmpty : Trie := New Store.empty

namespace Trie

/-- Modelled from the spec: `get(key) -> value | absent`. -/
def Get (fuel : Nat) (t : Trie) (key : Bytes) : Except TrieError (Option Bytes) :=
  get t.db fuel t.root (toNibbles key)

/-- Modelled from the spec: `delete(key) -> wasPresent`. -/
def Delete (fuel : Nat) (t : Trie) (key : Bytes) : Except TrieError (Trie × Bool) :=
  match delete t.db fuel t.root (toNibbles key) with
  | .error e => .error e
  | .ok (n, found) => .ok (⟨n, t.db⟩, found)

/-- Modelled from the spec: `insert(key, value)`; inserting an empty value is
equivalent to a delete. On error the trie is unchanged (no new state). -/
def Update (fuel : Nat) (t : Trie) (key value : Bytes) : Except TrieError Trie :=
  if value = [] then
    match Delete fuel t key with
    | .error e => .error e
    | .ok (t', _) => .ok t'
  else
    match insert t.db fuel t.root (toNibbles key) value with
    | .error e => .error e
    | .ok n => .ok ⟨n, t.db⟩

/-- Modelled from the spec: `root() -> digest`: the current root node's digest,
hashing uncommitted nodes without flushing them (a dry hash). -/
def Hash (digest : Bytes → Bytes) (t : Trie) : Bytes := nodeHash digest t.root

/-- Modelled from the spec: `commit() -> digest`: flushes the dirty nodes and
returns the new root digest; the trie stays usable against the committed root. -/
def Commit (digest : Bytes → Bytes) (t : Trie) : Bytes × Trie :=
  let r := commitNode digest t.root t.db
  (nodeHash digest r.1, ⟨r.1, r.2⟩)

end Trie

/-! ## Reference semantics on in-memory trees

The functions below are the engine's algorithms restricted to trees without hash
references, as structural recursions.  They are proof devices: the engine
functions above are related to them by the representation relation `Rep`. -/

/-- Lookup in a tree without hash references. -/
def pget : Node → Nibbles → Option Bytes
  | .blank, _ => none
  | .leaf p v, k => if p = k then some v else none
  | .ext p c, k => if p.isPrefixOf k then pget c (k.drop p.length) else none
  | .branch _ val, [] => val
  | .branch cs _, a :: k => pget (cs a) k
  | .hashRef _, _ => none

/-- Insertion into a tree without hash references. -/
def pinsert : Node → Nibbles → Bytes → Node
  | .blank, k, v => .leaf k v
  | .leaf p w, k, v => splitLeaf p w k v
  | .ext p c, k, v =>
    match splitShared p k with
    | (_, [], kRest) => .ext p (pinsert c kRest v)
    | (shared, a :: pRest, kRest) => splitExt shared a pRest c kRest v
  | .branch cs _, [], v => .branch cs (some v)
  | .branch cs val, a :: k, v => .branch (Function.update cs a (pinsert (cs a) k v)) val
  | .hashRef h, _, _ => .hashRef h

/-- Collapsing of a branch whose children are in memory. -/
def pcollapse (cs : Nibble → Node) (val : Option Bytes) : Node :=
  match val, populated cs with
  | none, [] => .blank
  | some v, [] => .leaf [] v
  | none, [i] => absorbNibble i (cs i) (cs i)
  | _, _ => .branch cs val

/-- Deletion from a tree without hash references; the flag is `wasPresent`. -/
def pdelete : Node → Nibbles → Node × Bool
  | .blank, _ => (.blank, false)
  | .leaf p w, k => if p = k then (.blank, true) else (.leaf p w, false)
  | .ext p c, k =>
    if p.isPrefixOf k then
      let r := pdelete c (k.drop p.length)
      if r.2 then (mergeExt p r.1, true) else (.ext p c, false)
    else (.ext p c, false)
  | .branch cs val, [] =>
    match val with
    | none => (.branch cs none, false)
    | some _ => (pcollapse cs none, true)
  | .branch cs val, a :: k =>
    let r := pdelete (cs a) k
    if r.2 then (pcollapse (Function.update cs a r.1) val, true) else (.branch cs val, false)
  | .hashRef h, _ => (.hashRef h, false)

/-- Structural invariant of in-memory trees.  With `canon = false` it is the
invariant of section 3: values are non-empty, an extension has a non-empty path
and a branch child, and no branch has fewer than two populated children plus no
value.  With `canon = true` a branch holding a value must in addition have a
populated child, which makes the tree the unique representation of its mapping. -/
def Shaped (canon : Bool) : Node → Prop
  | .blank => True
  | .leaf _ v => v ≠ []
  | .ext p c => p ≠ [] ∧ c.isBranch = true ∧ Shaped canon c
  | .branch cs val =>
    (∀ i, Shaped canon (cs i)) ∧ val ≠ some [] ∧
      ((val.isSome = true ∧ (canon = true → 1 ≤ (populated cs).length))
        ∨ 2 ≤ (populated cs).length)
  | .hashRef _ => False

/-- The invariant of section 3 of the specification. -/
abbrev WF (n : Node) : Prop := Shaped false n

/-- The canonical form: the invariant that determines the tree from its mapping. -/
abbrev Canon (n : Node) : Prop := Shaped true n

/-- A tree without hash references (entirely in memory). -/
def NoRef : Node → Prop
  | .blank => True
  | .leaf _ _ => True
  | .ext _ c => NoRef c
  | .branch cs _ => ∀ i, NoRef (cs i)
  | .hashRef _ => False

/-- The subtree of the keys that start with nibble `a`, with that nibble
stripped (proof device for the uniqueness of the canonical form). -/
def step (m : Node) (a : Nibble) : Node :=
  match m with
  | .leaf (b :: p) v => if a = b then .leaf p v else .blank
  | .ext (b :: p) c => if a = b then wrapExt p c else .blank
  | .branch cs _ => cs a
  | _ => .blank

/-- The canonical node of a value slot and sixteen canonical subtrees (proof
device for the uniqueness of the canonical form). -/
def rebuild (val : Option Bytes) (st : Nibble → Node) : Node :=
  match val, populated st with
  | none, [] => .blank
  | some v, [] => .leaf [] v
  | none, [i] => absorbNibble i (st i) (st i)
  | _, _ => .branch st val

/-- Size measure of a tree: nodes plus path nibbles. -/
def weight : Node → Nat
  | .blank => 0
  | .leaf p _ => 1 + p.length
  | .ext p c => 1 + p.length + weight c
  | .branch cs _ => 1 + ((List.finRange 16).map (fun i => weight (cs i))).sum
  | .hashRef _ => 0

/-- In-order listing of the mapping of a tree without hash references: a
branch's value precedes its children, children are listed by ascending nibble;
`pre` is the path from the root. -/
def entries : Node → Nibbles → List (Nibbles × Bytes)
  | .blank, _ => []
  | .leaf p v, pre => [(pre ++ p, v)]
  | .ext p c, pre => entries c (pre ++ p)
  | .branch cs val, pre =>
    (match val with
      | none => []
      | some v => [(pre, v)]) ++
    (List.finRange 16).flatMap (fun i => entries (cs i) (pre ++ [i]))
  | .hashRef _, _ => []

/-! ## Representation of a tree by a partly committed node graph -/

/-- The node `n`, whose hash references resolve through `db`, represents the
in-memory tree `m`: same structure, every hash reference standing for the
subtree whose digest it is. -/
inductive Rep (digest : Bytes → Bytes) (db : Store) : Node → Node → Prop where
  | blank : Rep digest db .blank .blank
  | leaf (p : Nibbles) (v : Bytes) : Rep digest db (.leaf p v) (.leaf p v)
  | ext (p : Nibbles) {c m : Node} : Rep digest db c m → Rep digest db (.ext p c) (.ext p m)
  | branch {cs ms : Nibble → Node} (val : Option Bytes) :
    (∀ i, Rep digest db (cs i) (ms i)) → Rep digest db (.branch cs val) (.branch ms val)
  | hashRef {h : Bytes} {n m : Node} :
    resolveHash db h = .ok n → Rep digest db n m → nodeHash digest m = h →
    Rep digest db (.hashRef h) m

/-- The store is content-addressed: every node blob is filed under its digest. -/
def StoreOK (digest : Bytes → Bytes) (db : Store) : Prop :=
  ∀ h enc, db.get h = some enc → h = digest enc

/-- Keys of the tree all come from byte strings (even nibble count). -/
def ByteKeys (m : Node) : Prop :=
  ∀ k v, pget m k = some v → ∃ kb : Bytes, k = toNibbles kb

/-! ## Iterator -/

/-- Modelled from the spec: a frame of the iterator's explicit stack (package
trie is not under src/): a node, the nibble path leading to it, and the next
child index to visit (`0` stands for the node's own value, `i + 1` for child
slot `i`). -/
structure Frame where
  node : Node
  path : Nibbles
  next : Nat

/-- Modelled from the spec: one move of the iterator's traversal (package trie
is not under src/).  Pops or advances the top frame, descending into the
smallest unvisited child first; a branch's own value is yielded before its
children, a leaf's value when the leaf is visited; a `HashRef` frame is resolved
on first visit.  Returns the pair yielded by the move, if any, and the new stack. -/
def advance (db : Store) : List Frame → Except TrieError (Option (Nibbles × Bytes) × List Frame)
  | [] => .ok (none, [])
  | f :: rest =>
    match f.node with
    | .blank => .ok (none, rest)
    | .leaf p v => .ok (some (f.path ++ p, v), rest)
    | .ext p c => .ok (none, ⟨c, f.path ++ p, 0⟩ :: rest)
    | .hashRef h =>
      match resolveHash db h with
      | .error e => .error e
      | .ok n => .ok (none, ⟨n, f.path, 0⟩ :: rest)
    | .branch cs val =>
      match f.next with
      | 0 => .ok (val.map (fun v => (f.path, v)), ⟨f.node, f.path, 1⟩ :: rest)
      | i + 1 =>
        if h : i < 16 then
          .ok (none, ⟨cs ⟨i, h⟩, f.path ++ [⟨i, h⟩], 0⟩ :: ⟨f.node, f.path, i + 2⟩ :: rest)
        else .ok (none, rest)

/-- Modelled from the spec: the iterator of package trie (not under src/): the
store it resolves through, its stack, and the current `Key` and `Value`. -/
structure Iterator where
  db : Store
  stack : List Frame
  Key : Bytes
  Value : Bytes

/-- Modelled from the spec: `NewIterator(trie)`: a forward-only, single-pass
iterator positioned before the first pair. -/
def NewIterator (t : Trie) : Iterator := ⟨t.db, [⟨t.root, [], 0⟩], [], []⟩

namespace Iterator

/-- Modelled from the spec: `Next()`: moves to the next `(key, value)` pair;
`true` when there is one (then `Key` and `Value` hold it), `false` when the
traversal is exhausted.  A key of odd nibble count cannot be packed to bytes
and is a decoding error. -/
def Next : Nat → Iterator → Except TrieError (Bool × Iterator)
  | 0, _ => .error .outOfFuel
  | fuel + 1, it =>
    match it.stack with
    | [] => .ok (false, it)
    | f :: rest =>
      match advance it.db (f :: rest) with
      | .error e => .error e
      | .ok (none, st) => Next fuel { it with stack := st }
      | .ok (some (k, v), st) =>
        match fromNibbles k with
        | none => .error (.decodeError [])
        | some kb => .ok (true, ⟨it.db, st, kb, v⟩)

/-- The loop `for it.Next() { ... it.Key ... }` of `TestIterator`
(trie/iterator_test.go): the pairs produced by
successive `Next` calls, at most `n` calls, until `Next` returns `false`. -/
def collect (fuel : Nat) : Nat → Iterator → Except TrieError (List (Bytes × Bytes))
  | 0, _ => .error .outOfFuel
  | n + 1, it =>
    match Next fuel it with
    | .error e => .error e
    | .ok (false, _) => .ok []
    | .ok (true, it') =>
      match collect fuel n it' with
      | .error e => .error e
      | .ok l => .ok ((it'.Key, it'.Value) :: l)

end Iterator

/-! ## Secure trie -/

/-- Modelled from the spec: the secure trie wrapper (package trie is not under
src/): a trie engine instance keyed by the digest of the original key; the
preimage store lives in the same backing store. -/
structure SecureTrie where
  trie : Trie

/-- Modelled from the spec: the empty secure trie over `db`
(`NewSecure(common.Hash{}, db)` in the tests). -/
def NewSecure (db : Store) : SecureTrie := ⟨New db⟩

/-- The helper `newEmptySecure()` of trie/secure_trie_test.go: the empty secure
trie over a fresh in-memory database. -/
abbrev newEmptySecure : SecureTrie := NewSecure Store.empty

namespace SecureTrie

/-- Modelled from the spec: `Get(key)`: delegates with `digest(key)` as the
effective key. -/
def Get (digest : Bytes → Bytes) (fuel : Nat) (s : SecureTrie) (key : Bytes) :
    Except TrieError (Option Bytes) :=
  s.trie.Get fuel (digest key)

/-- Modelled from the spec: `Insert(key, value)`: delegates with `digest(key)`,
and additionally records `digestKey -> key` in the preimage store. -/
def Update (digest : Bytes → Bytes) (fuel : Nat) (s : SecureTrie) (key value : Bytes) :
    Except TrieError SecureTrie :=
  match s.trie.Update fuel (digest key) value with
  | .error e => .error e
  | .ok t => .ok ⟨⟨t.root, t.db.putPreimage (digest key) key⟩⟩

/-- Modelled from the spec: `Delete(key)`: delegates with `digest(key)`. -/
def Delete (digest : Bytes → Bytes) (fuel : Nat) (s : SecureTrie) (key : Bytes) :
    Except TrieError (SecureTrie × Bool) :=
  match s.trie.Delete fuel (digest key) with
  | .error e => .error e
  | .ok (t, found) => .ok (⟨t⟩, found)

/-- Modelled from the spec: `GetKey(digestKey)`: the original key recorded for a
digest key, `none` ("unknown") if never recorded. -/
def GetKey (s : SecureTrie) (digestKey : Bytes) : Option Bytes :=
  s.trie.db.getPreimage digestKey

/-- Modelled from the spec: root digest of the inner trie. -/
def Hash (digest : Bytes → Bytes) (s : SecureTrie) : Bytes := s.trie.Hash digest

end SecureTrie

/-! ## Operation sequences -/

/-- A mutation of a trie: the two calls the loop of `TestSecureDelete` makes,
`trie.Update(k, v)` and `trie.Delete(k)`. -/
inductive Op where
  | update (key value : Bytes) : Op
  | delete (key : Bytes) : Op

namespace Op

/-- The key an operation addresses. -/
def key : Op → Bytes
  | update k _ => k
  | delete k => k

end Op

/-- Applies one operation to a plain trie. -/
def applyOp (fuel : Nat) (t : Trie) : Op → Except TrieError Trie
  | .update k v => t.Update fuel k v
  | .delete k =>
    match t.Delete fuel k with
    | .error e => .error e
    | .ok (t', _) => .ok t'

/-- Applies a sequence of operations to a plain trie, first to last. -/
def applyOps (fuel : Nat) : Trie → List Op → Except TrieError Trie
  | t, [] => .ok t
  | t, op :: ops =>
    match applyOp fuel t op with
    | .error e => .error e
    | .ok t' => applyOps fuel t' ops

/-- Applies one operation to a secure trie. -/
def applyOpSecure (digest : Bytes → Bytes) (fuel : Nat) (s : SecureTrie) :
    Op → Except TrieError SecureTrie
  | .update k v => s.Update digest fuel k v
  | .delete k =>
    match s.Delete digest fuel k with
    | .error e => .error e
    | .ok (s', _) => .ok s'

/-- Applies a sequence of operations to a secure trie, first to last. -/
def applyOpsSecure (digest : Bytes → Bytes) (fuel : Nat) :
    SecureTrie → List Op → Except TrieError SecureTrie
  | s, [] => .ok s
  | s, op :: ops =>
    match applyOpSecure digest fuel s op with
    | .error e => .error e
    | .ok s' => applyOpsSecure digest fuel s' ops

/-- The mapping a sequence of operations leaves behind, starting from the
mapping `base`: the value of the most recent `update` of the key with a
non-empty value if no `delete` (or `update` with an empty value) of it followed. -/
def written (base : Bytes → Option Bytes) : List Op → Bytes → Option Bytes
  | [], k => base k
  | .update k' v :: ops, k =>
    written (fun x => if x = k' then (if v = [] then none else some v) else base x) ops k
  | .delete k' :: ops, k => written (fun x => if x = k' then none else base x) ops k

/-- The trie states the tests can reach: from the empty trie over a fresh store
by `Update`, `Delete` and `Commit`. -/
inductive Reachable (digest : Bytes → Bytes) : Trie → Prop where
  | new : Reachable digest newEmpty
  | update {t t' : Trie} (fuel : Nat) (key value : Bytes) :
    Reachable digest t → t.Update fuel key value = .ok t' → Reachable digest t'
  | delete {t t' : Trie} (fuel : Nat) (key : Bytes) (found : Bool) :
    Reachable digest t → t.Delete fuel key = .ok (t', found) → Reachable digest t'
  | commit {t : Trie} : Reachable digest t → Reachable digest (t.Commit digest).2

/-- A child as a committed node holds it: blank, or a reference by a non-empty
digest. -/
def Committed (n : Node) : Prop := n = .blank ∨ ∃ h, n = .hashRef h ∧ h ≠ []

/-- The store `db'` holds every node blob of `db` under the same digest. -/
def Store.le (db db' : Store) : Prop := ∀ h enc, db.get h = some enc → db'.get h = some enc

/-- The digest has no collision among the node encodings that the store holds:
two blobs of the store with the same digest are the same blob.  Every digest
that is collision-free on the encodings a run writes meets this, a digest of
fixed length included. -/
def CollisionFree (digest : Bytes → Bytes) (db : Store) : Prop :=
  ∀ e1 ∈ db.nodes, ∀ e2 ∈ db.nodes, digest e1.2 = digest e2.2 → e1.2 = e2.2

instance (digest : Bytes → Bytes) (db : Store) : Decidable (CollisionFree digest db) :=
  inferInstanceAs (Decidable (∀ e1 ∈ db.nodes, ∀ e2 ∈ db.nodes,
    digest e1.2 = digest e2.2 → e1.2 = e2.2))

/-- What `commitNode` guarantees: the store stays content-addressed and only
grows, its preimage namespace is untouched, and the returned reference is a
committed node representing the same tree. -/
def CommitOK (digest : Bytes → Bytes) (db : Store) (m : Node) (r : Node × Store) : Prop :=
  StoreOK digest r.2 ∧ Store.le db r.2 ∧ Rep digest r.2 r.1 m ∧ Committed r.1 ∧
    r.2.preimages = db.preimages

/-- The trie state `t` holds the in-memory tree `m`: the store is
content-addressed, the root represents `m`, `m` meets the invariant of section 3
and its keys are byte strings. -/
def Denotes (digest : Bytes → Bytes) (t : Trie) (m : Node) : Prop :=
  StoreOK digest t.db ∧ Rep digest t.db t.root m ∧ WF m ∧ ByteKeys m

/-- Reference semantics of `Update`: an empty value deletes. -/
def pupdate (m : Node) (k : Nibbles) (v : Bytes) : Node :=
  if v = [] then (pdelete m k).1 else pinsert m k v

/-- Reference semantics of an operation sequence on a tree. -/
def papplyOps : Node → List Op → Node
  | m, [] => m
  | m, .update k v :: ops => papplyOps (pupdate m (toNibbles k) v) ops
  | m, .delete k :: ops => papplyOps (pdelete m (toNibbles k)).1 ops

/-- The operation as the secure trie passes it to the inner engine: keyed by the
digest of the original key. -/
def secureOp (digest : Bytes → Bytes) : Op → Op
  | .update k v => .update (digest k) v
  | .delete k => .delete (digest k)

/-- The loop of `TestIterator`: `trie.Update(k, v)` for every pair of the table,
in table order. -/
def insertions (kvs : List (Bytes × Bytes)) : List Op := kvs.map (fun kv => .update kv.1 kv.2)

/-- The value the most recent operation on `k` leaves: the value of the most
recent `update` of `k` if that value is non-empty and no `delete` of `k`
followed it; absent (`none`) otherwise. -/
def lastWrite (ops : List Op) (k : Bytes) : Option Bytes :=
  match ops.reverse.find? (fun op => decide (op.key = k)) with
  | some (.update _ v) => if v = [] then none else some v
  | _ => none

/-- A stand-in for the digest function that has no collision at all, used to
instantiate theorems that hold for every digest. -/
def tagDigest : Bytes → Bytes := fun x => 0 :: x

/-- The `n` low bytes of a number, least significant first. -/
def lowBytes : Nat → Nat → Bytes
  | 0, _ => []
  | n + 1, x => Fin.ofNat x :: lowBytes n (x / 256)

/-- The polynomial checksum of a byte sequence in base 257 modulo 2 ^ 256,
continued from `acc`. -/
def checksum : Nat → Bytes → Nat
  | acc, [] => acc
  | 0, b :: bs => checksum (b.val + 1) bs
  | acc + 1, b :: bs => checksum (((acc + 1) * 257 + b.val + 1) % 2 ^ 256) bs

/-- A digest of fixed length, 32 bytes as `crypto.Sha3` has, used to instantiate
the theorems at concrete tries: the 32 bytes of the polynomial checksum of the
input.  Like every digest of fixed length it has collisions. -/
def polyDigest (x : Bytes) : Bytes := lowBytes 32 (checksum 0 x)

/-- The bytes of an ASCII string literal of the tests (`[]byte("...")`). -/
def bytesOf (s : String) : Bytes := s.toList.map (fun c => ⟨c.toNat % 256, Nat.mod_lt _ (by decide)⟩)

/-- The table `vals` of `TestSecureDelete` (trie/secure_trie_test.go). -/
def secureDeleteVals : List (String × String) :=
  [("do", "verb"), ("pbfer", "wookiedoo"), ("horse", "stallion"), ("shaman", "horse"),
   ("doge", "coin"), ("pbfer", ""), ("dog", "puppy"), ("shaman", "")]

/-- The loop of `TestSecureDelete`: a non-empty value is passed to `Update`, an
empty one makes the test call `Delete`. -/
def testOps (vals : List (String × String)) : List Op :=
  vals.map (fun kv => if kv.2 ≠ "" then .update (bytesOf kv.1) (bytesOf kv.2)
    else .delete (bytesOf kv.1))

/-- The table `vals` of `TestIterator` (trie/iterator_test.go). -/
def iteratorVals : List (String × String) :=
  [("do", "verb"), ("pbfer", "wookiedoo"), ("horse", "stallion"), ("shaman", "horse"),
   ("doge", "coin"), ("dog", "puppy"), ("sompbfingveryoddindeedthis is", "myothernodedata")]

/-- The literal passed to `common.HexToHash` as the expected root in
`TestSecureDelete` (trie/secure_trie_test.go, line 54). -/
def secureDeleteExpected : String :=
  "29b235a58c3c25ab83010c327d5932bcf05324b7d6b1185e650798034783ca9d"

/-- Big-step graph of the iterator's traversal: running `advance` from the
stack until it is empty yields the pairs `out`, in `cost` moves. -/
inductive Emits (db : Store) : List Frame → List (Nibbles × Bytes) → Nat → Prop where
  | done : Emits db [] [] 0
  | move {f : Frame} {rest st : List Frame} {e : Option (Nibbles × Bytes)}
      {out : List (Nibbles × Bytes)} {cost : Nat} :
    advance db (f :: rest) = .ok (e, st) → Emits db st out cost →
    Emits db (f :: rest) (e.toList ++ out) (cost + 1)

/-- The pair as the iterator exposes it: the nibble key packed to bytes. -/
def packEntry (e : Nibbles × Bytes) : Bytes × Bytes := ((fromNibbles e.1).getD [], e.2)

/-- Three pairs of the tables of the tests: `do` is a proper beginning of `dog`,
and `horse` shares no nibble with them beyond the first. -/
def sampleVals : List (Bytes × Bytes) :=
  [(bytesOf "do", bytesOf "verb"), (bytesOf "dog", bytesOf "puppy"),
   (bytesOf "horse", bytesOf "stallion")]

/-- The committed trie of `sampleVals`: the three pairs inserted with `Update`
into the empty trie, then `Commit` with the digest of fixed length. -/
def sampleTrie : Trie :=
  match applyOps 200 newEmpty (insertions sampleVals) with
  | .ok t => (t.Commit polyDigest).2
  | .error _ => newEmpty

end trie

/-! # Package rpc: the merged API and the API-string parser

Go maps are embedded as association lists without duplicate keys; the order in which a
`range` statement visits a map is not fixed by the language, so a function that ranges over a
map takes the visiting order as an argument. -/

namespace gomap

/-- A Go `map[string]V`: the entries in insertion order, every key at most once. -/
structure Map (V : Type) where
  entries : List (String × V)

variable {V : Type}

/-- The Go expression `make(map[string]V)`: the empty map. -/
def Map.make : Map V := ⟨[]⟩

/-- The Go expression `m[k]` in its two-result form: the value stored under `k`, if any. -/
def Map.get (m : Map V) (k : String) : Option V := m.entries.lookup k

/-- The Go statement `m[k] = v`: replaces the value of an existing key, or adds the key. -/
def Map.set (m : Map V) (k : String) (v : V) : Map V :=
  if (m.entries.lookup k).isSome then
    ⟨m.entries.map (fun e => if e.1 = k then (k, v) else e)⟩
  else ⟨m.entries ++ [(k, v)]⟩

/-- The keys of the map. -/
def Map.keys (m : Map V) : List String := m.entries.map Prod.fst

/-- The Go expression `len(m)`. -/
def Map.len (m : Map V) : Nat := m.entries.length

end gomap

namespace shared

/-- rpc/shared/utils.go, line 22. -/
def AdminApiName : String := "admin"
/-- rpc/shared/utils.go, line 23. -/
def pbfApiName : String := "pbf"
/-- rpc/shared/utils.go, line 24. -/
def DbApiName : String := "db"
/-- rpc/shared/utils.go, line 25. -/
def DebugApiName : String := "debug"
/-- rpc/shared/utils.go, line 26. -/
def MergedApiName : String := "merged"
/-- rpc/shared/utils.go, line 27. -/
def MinerApiName : String := "miner"
/-- rpc/shared/utils.go, line 28. -/
def NetApiName : String := "net"
/-- rpc/shared/utils.go, line 29. -/
def ShhApiName : String := "shh"
/-- rpc/shared/utils.go, line 30. -/
def TxPoolApiName : String := "txpool"
/-- rpc/shared/utils.go, line 31. -/
def PersonalApiName : String := "personal"
/-- rpc/shared/utils.go, line 32. -/
def Web3ApiName : String := "web3"

/-- rpc/shared/utils.go, lines 39-42: `strings.Join` of the ten API names with a comma. -/
def AllApis : String :=
  String.intercalate ","
    [AdminApiName, DbApiName, pbfApiName, DebugApiName, MinerApiName, NetApiName,
     ShhApiName, TxPoolApiName, PersonalApiName, Web3ApiName]

/-- The request type `shared.Request`. Its declaration (rpc/shared/types.go) is not among the
sources; the embedding keeps the two fields the embedded code reads, `method` and `Params`
(the raw JSON text of the parameters). -/
structure Request where
  method : String
  Params : String
deriving DecidableEq

/-- A Go `error` value as the RPC layer produces it: `shared.NewNotImplementedError(method)`
or any other error, of a type `E` chosen by the APIs. -/
inductive Error (E : Type) where
  | NotImplementedError (method : String)
  | other (e : E)
deriving DecidableEq

/-- A Go `interface{}` result of an `Execute` call: `nil`, the name-to-version map that the
merged API answers `modules` with, or any other value, of a type `V` chosen by the APIs. -/
inductive Result (V : Type) where
  | nil
  | apis (m : List (String × String))
  | value (v : V)
deriving DecidableEq

/-- The interface `shared.pbfcoinApi` (declared in rpc/shared/types.go, not among the sources)
as the embedded code uses it: `Name()`, `ApiVersion()`, `methods()` and `Execute(req)`. An
implementation is a record of what the four methods return; `Execute` returns the pair
(result, error) with `none` for a nil error. -/
structure pbfcoinApi (V E : Type) where
  Name : String
  ApiVersion : String
  methods : List String
  Execute : Request → Result V × Option (Error E)

end shared

namespace api

open gomap shared

variable {V E : Type}

/-- rpc/api/mergedapi.go, line 26. -/
def MergedApiVersion : String := "1.0"

/-- rpc/api/mergedapi.go, lines 30-33. The source names the second field `methods`; it is
`methodsMap` here because `MergedApi.methods` is the method of lines 51-57. -/
structure MergedApi (V E : Type) where
  apis : Map String
  methodsMap : Map (pbfcoinApi V E)

/-- rpc/api/mergedapi.go, lines 36-48: every API is entered under its name with its version,
and every method it lists is mapped to it, a later API replacing an earlier one. -/
def newMergedApi (apis : List (pbfcoinApi V E)) : MergedApi V E :=
  apis.foldl
    (fun mergedApi api =>
      { apis := mergedApi.apis.set api.Name api.ApiVersion
        methodsMap := api.methods.foldl (fun ms method => ms.set method api) mergedApi.methodsMap })
    { apis := Map.make, methodsMap := Map.make }

/-- rpc/api/mergedapi.go, lines 51-57. `make([]string, len(self.methods))` is a slice of
`len(self.methods)` empty strings, and the loop appends every key to it. `order` is the order
in which the `range` statement visits the keys of `self.methods`. -/
def MergedApi.methods (self : MergedApi V E) (order : List String) : List String :=
  order.foldl (fun all method => all ++ [method]) (List.replicate self.methodsMap.len "")

/-- rpc/api/mergedapi.go, lines 80-86: the answer to `modules` is the map `self.apis`; any
other method gives a nil result. The error is nil on both paths. -/
def MergedApi.handle (self : MergedApi V E) (req : Request) : Result V × Option (Error E) :=
  if req.method = "modules" then (Result.apis self.apis.entries, none)
  else (Result.nil, none)

/-- rpc/api/mergedapi.go, lines 60-70 (the logging call of line 61 has no effect on the
result and is left out). -/
def MergedApi.Execute (self : MergedApi V E) (req : Request) : Result V × Option (Error E) :=
  match (self.handle req).1 with
  | Result.nil =>
    match self.methodsMap.get req.method with
    | some api => api.Execute req
    | none => (Result.nil, some (Error.NotImplementedError req.method))
  | res => (res, none)

/-- rpc/api/mergedapi.go, lines 72-74. -/
def MergedApi.Name (_self : MergedApi V E) : String := MergedApiName

/-- rpc/api/mergedapi.go, lines 76-78. -/
def MergedApi.ApiVersion (_self : MergedApi V E) : String := MergedApiVersion

/-- An API with the name and version of the db API that lists one method and answers every
request with a nil result and a nil error. -/
def sampleDb : pbfcoinApi Unit Unit :=
  { Name := "db", ApiVersion := "1.0", methods := ["db_getString"],
    Execute := fun _ => (Result.nil, none) }

/-- An API named `net` that lists `net_peerCount` and `db_getString` and answers every request
with the value `()`. -/
def sampleNet : pbfcoinApi Unit Unit :=
  { Name := "net", ApiVersion := "1.0", methods := ["net_peerCount", "db_getString"],
    Execute := fun _ => (Result.value (), none) }

end api

/-! ## The Go library functions that `ParseApiString` calls

A Go string is embedded as a Lean `String`, a sequence of Unicode code points: the embedding
covers the strings that are valid UTF-8. The two Unicode tables of package `unicode` that
the functions consult outside the ASCII and Latin-1 ranges are parameters. -/

namespace unicode

/-- The tables of package `unicode` that the embedded functions consult: the `White_Space`
property beyond Latin-1 and the lower-case mapping beyond ASCII. -/
structure Tables where
  White_Space : Char → Bool
  LowerCase : Char → Char

/-- The function `unicode.IsSpace`: in the Latin-1 range the white space characters are tab,
line feed, vertical tab, form feed, carriage return, space, U+0085 and U+00A0; beyond it the
`White_Space` table decides. -/
def IsSpace (u : Tables) (r : Char) : Bool :=
  if r.toNat ≤ 0xFF then
    decide (r.toNat ∈ [0x09, 0x0A, 0x0B, 0x0C, 0x0D, 0x20, 0x85, 0xA0])
  else u.White_Space r

/-- The function `unicode.ToLower`: an ASCII capital letter is moved to the small letter,
any other ASCII character is unchanged, and beyond ASCII the `LowerCase` table decides. -/
def ToLower (u : Tables) (r : Char) : Char :=
  if r.toNat ≤ 0x7F then
    if 0x41 ≤ r.toNat ∧ r.toNat ≤ 0x5A then Char.ofNat (r.toNat + 0x20) else r
  else u.LowerCase r

/-- Tables that classify no character beyond Latin-1 as white space and map every character
beyond ASCII to itself. -/
def asciiTables : Tables := { White_Space := fun _ => false, LowerCase := fun r => r }

end unicode

namespace strings

/-- The function `strings.TrimSpace`: the string without its leading and trailing white
space. -/
def TrimSpace (u : unicode.Tables) (s : String) : String :=
  ⟨((s.data.dropWhile (unicode.IsSpace u)).reverse.dropWhile (unicode.IsSpace u)).reverse⟩

/-- The function `strings.ToLower`: every character mapped by `unicode.ToLower`. -/
def ToLower (u : unicode.Tables) (s : String) : String :=
  ⟨s.data.map (unicode.ToLower u)⟩

/-- Splitting a sequence of characters at every occurrence of `sep`. -/
def splitChars (sep : Char) : List Char → List (List Char)
  | [] => [[]]
  | c :: cs =>
    if c = sep then [] :: splitChars sep cs
    else
      match splitChars sep cs with
      | [] => [[c]]
      | w :: ws => (c :: w) :: ws

/-- The function `strings.Split` for a separator of one character: the substrings between
the occurrences of the separator, one more than there are occurrences. -/
def Split (s : String) (sep : Char) : List String :=
  (splitChars sep s.data).map String.mk

end strings

namespace api

open shared

/-- The values that the ten constructors called by `ParseApiString` return, one for each
concrete API type; the handles `xpbf`, `pbf` and `codec` that the constructors store are not
read by the embedded code and are left out. -/
inductive Api where
  | NewAdminApi
  | NewDebugApi
  | NewDbApi
  | NewethApi
  | NewMinerApi
  | NewNetApi
  | NewShhApi
  | NewTxPoolApi
  | NewPersonalApi
  | NewWeb3Api
deriving DecidableEq

/-- The method `Name()` of the API types: rpc/api/db.go lines 81-83, pbf.go lines 133-135,
miner.go lines 85-87, net.go lines 80-82, txpool.go lines 78-80 and web3.go lines 78-80.
The admin, debug, shh and personal APIs are declared in files that are not among the
sources; what their `Name()` returns is the parameter `other`. -/
def Api.Name (other : Api → String) : Api → String
  | Api.NewDbApi => DbApiName
  | Api.NewethApi => pbfApiName
  | Api.NewMinerApi => MinerApiName
  | Api.NewNetApi => NetApiName
  | Api.NewTxPoolApi => TxPoolApiName
  | Api.NewWeb3Api => Web3ApiName
  | a => other a

/-- rpc/api/utils.go, lines 166-189: the `switch` of `ParseApiString` on the trimmed and
lower-cased element; `none` is the `default` case. -/
def ParseApiString.switch (name : String) : Option Api :=
  if name = AdminApiName then some Api.NewAdminApi
  else if name = DebugApiName then some Api.NewDebugApi
  else if name = DbApiName then some Api.NewDbApi
  else if name = pbfApiName then some Api.NewethApi
  else if name = MinerApiName then some Api.NewMinerApi
  else if name = NetApiName then some Api.NewNetApi
  else if name = ShhApiName then some Api.NewShhApi
  else if name = TxPoolApiName then some Api.NewTxPoolApi
  else if name = PersonalApiName then some Api.NewPersonalApi
  else if name = Web3ApiName then some Api.NewWeb3Api
  else none

/-- rpc/api/utils.go, lines 165-190: the loop of `ParseApiString` over the elements. It
fills one slot for each element in order and returns the error for the first element that
the `switch` does not know. -/
def ParseApiString.loop (u : unicode.Tables) : List String → Except String (List Api)
  | [] => Except.ok []
  | name :: names =>
    match ParseApiString.switch (strings.ToLower u (strings.TrimSpace u name)) with
    | none => Except.error ("Unknown API \x27" ++ name ++ "\x27")
    | some a =>
      match ParseApiString.loop u names with
      | Except.error e => Except.error e
      | Except.ok apis => Except.ok (a :: apis)

/-- rpc/api/utils.go, lines 157-193. An error result carries no API list. -/
def ParseApiString (u : unicode.Tables) (apistr : String) : Except String (List Api) :=
  if (strings.TrimSpace u apistr).length = 0 then Except.error "Empty apistr provided"
  else ParseApiString.loop u (strings.Split apistr ',')

end api

/-! # Package miner

The fields of `Miner` and the calls on its worker are embedded as explicit state. The bodies
of the worker's methods are not among the sources (miner/worker.go); the embedding records
which of them were called, in order. A call of `Start`, `Stop` or `SetExtra` and the handling
of one downloader event are taken as single steps. -/

namespace miner

/-- A byte. -/
abbrev Byte := Fin 256

/-- The type `common.Address`: a sequence of bytes. -/
abbrev Address := List Byte

/-- The calls that `Miner` makes on its worker. `register i` is the call
`self.worker.register(NewCpuAgent(i, self.pow))`. -/
inductive workerCall where
  | register (i : Nat)
  | start
  | stop
  | commitNewWork
deriving DecidableEq

/-- The worker as `Miner` uses it: the fields `coinbase` and `extra` that `Miner` assigns,
and the record of the method calls made on it. -/
structure worker where
  coinbase : Address
  extra : List Byte
  calls : List workerCall
deriving DecidableEq

/-- miner/miner.go, lines 37-52: the fields that the embedded methods read or write. The
`int32` fields hold 0 or 1 and are embedded as integers. -/
structure Miner where
  worker : worker
  threads : Int
  coinbase : Address
  mining : Int
  canStart : Int
  shouldStart : Int
deriving DecidableEq

/-- The events of package downloader that `update` subscribes to. -/
inductive Event where
  | StartEvent
  | DoneEvent
  | FailedEvent
deriving DecidableEq

/-- miner/miner.go, lines 54-59: a new miner may start (`canStart` is 1); the worker is
created for the zero address. The goroutine that runs `update` is embedded by `Miner.update`
applied to the events that the downloader posts. -/
def New (newWorker : Address → worker) : Miner :=
  { worker := newWorker (List.replicate 20 0), threads := 0, coinbase := List.replicate 20 0,
    mining := 0, canStart := 1, shouldStart := 0 }

/-- miner/miner.go, lines 143-145. -/
def Miner.Mining (self : Miner) : Bool := decide (self.mining > 0)

/-- miner/miner.go, lines 126-130. -/
def Miner.Stop (self : Miner) : Miner :=
  { self with
    worker := { self.worker with calls := self.worker.calls ++ [workerCall.stop] }
    mining := 0
    shouldStart := 0 }

/-- miner/miner.go, lines 115-117: the loop that registers one CPU agent for each thread. -/
def Miner.registerAgents (self : Miner) (threads : Int) : Miner :=
  (List.range threads.toNat).foldl
    (fun m i =>
      { m with worker := { m.worker with calls := m.worker.calls ++ [workerCall.register i] } })
    self

/-- miner/miner.go, lines 102-124 (the two logging calls are left out). -/
def Miner.Start (self : Miner) (coinbase : Address) (threads : Int) : Miner :=
  let self1 : Miner :=
    { self with
      shouldStart := 1
      threads := threads
      worker := { self.worker with coinbase := coinbase }
      coinbase := coinbase }
  if self1.canStart = 0 then self1
  else
    let self2 : Miner := { self1 with mining := 1 }
    let self3 : Miner := self2.registerAgents threads
    { self3 with
      worker :=
        { self3.worker with
          calls := self3.worker.calls ++ [workerCall.start, workerCall.commitNewWork] } }

/-- miner/miner.go, lines 65-91: the loop of `update` over the events that arrive on the
subscription, in order. A `StartEvent` clears `canStart` and stops a running mining
operation; the first `DoneEvent` or `FailedEvent` is handled and ends the loop, so the
events after it are not read. -/
def Miner.update : List Event → Miner → Miner
  | [], self => self
  | Event.StartEvent :: events, self =>
    let self1 : Miner := { self with canStart := 0 }
    let self2 : Miner :=
      if self1.Mining then { self1.Stop with shouldStart := 1 } else self1
    Miner.update events self2
  | _ :: _, self =>
    let shouldStart : Bool := decide (self.shouldStart = 1)
    let self1 : Miner := { self with canStart := 1, shouldStart := 0 }
    if shouldStart then self1.Start self1.coinbase self1.threads else self1

/-- The value of `params.MaximumExtraDataSize.Uint64()`: the low 64 bits of the absolute
value of the big integer. The constant itself (package params) is not among the sources and
is a parameter of `SetExtra`. -/
def Uint64 (x : Int) : Nat := x.natAbs % 2 ^ 64

/-- The error that `SetExtra` returns, with the two numbers of its message. -/
structure ExtraError where
  len : Nat
  max : Int
deriving DecidableEq

/-- miner/miner.go, lines 158-165. The conversion `uint64(len(extra))` is the length modulo
2 ^ 64. -/
def Miner.SetExtra (MaximumExtraDataSize : Int) (self : Miner) (extra : List Byte) :
    Miner × Option ExtraError :=
  if extra.length % 2 ^ 64 > Uint64 MaximumExtraDataSize then
    (self, some { len := extra.length, max := MaximumExtraDataSize })
  else ({ self with worker := { self.worker with extra := extra } }, none)

/-- A worker without extra data on which no method has been called. -/
def idleWorker (coinbase : Address) : worker := { coinbase := coinbase, extra := [], calls := [] }

end miner

/-! # Package core/vm/runtime

The three package-level variables `vm.Debug`, `vm.ForceJit` and `vm.EnableJit` are embedded
as a record that `Execute` receives and returns. The virtual machine itself is not among the
sources: the part of `Execute` from the creation of the database to the return of
`vmenv.Call` is a parameter that receives the current values of the three variables and may
change them. -/

namespace vm

/-- The package-level variables `vm.Debug`, `vm.ForceJit` and `vm.EnableJit`. -/
structure Switches where
  Debug : Bool
  ForceJit : Bool
  EnableJit : Bool
deriving DecidableEq

end vm

namespace runtime

/-- A byte. -/
abbrev Byte := Fin 256

/-- core/vm/runtime/runtime.go, lines 32-45. A nil `*big.Int` or a nil function is `none`;
addresses and hashes are sequences of bytes. -/
structure Config where
  Difficulty : Option Int
  Origin : List Byte
  Coinbase : List Byte
  BlockNumber : Option Int
  Time : Option Int
  GasLimit : Option Int
  GasPrice : Option Int
  Value : Option Int
  DisableJit : Bool
  Debug : Bool
  GpbfashFn : Option (Nat → List Byte)

/-- The Go expression `new(Config)`: every field has its zero value. -/
def zeroConfig : Config :=
  { Difficulty := none, Origin := List.replicate 20 0, Coinbase := List.replicate 20 0,
    BlockNumber := none, Time := none, GasLimit := none, GasPrice := none, Value := none,
    DisableJit := false, Debug := false, GpbfashFn := none }

/-- What `Execute` takes from outside the sources. `now` is `time.Now().Unix()`, `MaxBig` is
`common.MaxBig`, `hashOfNumber` is the function that `setDefaults` installs as `GpbfashFn`,
and `Call` stands for lines 97-115: given the three variables as they are at that point, the
configuration, the code and the input, it gives the return value, the state, the error of
`vmenv.Call` (`none` for nil) and the three variables as the call leaves them. -/
structure Machine (S : Type) where
  now : Int
  MaxBig : Int
  hashOfNumber : Nat → List Byte
  Call : vm.Switches → Config → List Byte → List Byte →
    (List Byte × S × Option String) × vm.Switches

/-- core/vm/runtime/runtime.go, lines 48-72. -/
def setDefaults {S : Type} (m : Machine S) (cfg : Config) : Config :=
  let cfg1 : Config := if cfg.Difficulty.isNone then { cfg with Difficulty := some 0 } else cfg
  let cfg2 : Config := if cfg1.Time.isNone then { cfg1 with Time := some m.now } else cfg1
  let cfg3 : Config :=
    if cfg2.GasLimit.isNone then { cfg2 with GasLimit := some m.MaxBig } else cfg2
  let cfg4 : Config := if cfg3.GasPrice.isNone then { cfg3 with GasPrice := some 0 } else cfg3
  let cfg5 : Config := if cfg4.Value.isNone then { cfg4 with Value := some 0 } else cfg4
  let cfg6 : Config :=
    if cfg5.BlockNumber.isNone then { cfg5 with BlockNumber := some 0 } else cfg5
  if cfg6.GpbfashFn.isNone then { cfg6 with GpbfashFn := some m.hashOfNumber } else cfg6

/-- core/vm/runtime/runtime.go, lines 80-121. The arguments of the deferred function are
evaluated at the `defer` statement, before the three assignments; the deferred function runs
when `Execute` returns. Printing the logs (lines 117-119) changes no variable and is left
out. The result is ((return value, state, error), the three variables after the return). -/
def Execute {S : Type} (m : Machine S) (code input : List Byte) (cfg : Option Config)
    (globals : vm.Switches) : (List Byte × S × Option String) × vm.Switches :=
  let cfg1 : Config :=
    match cfg with
    | none => zeroConfig
    | some c => c
  let cfg2 : Config := setDefaults m cfg1
  let debug := globals.Debug
  let forceJit := globals.ForceJit
  let enableJit := globals.EnableJit
  let g1 : vm.Switches := { globals with ForceJit := !cfg2.DisableJit }
  let g2 : vm.Switches := { g1 with EnableJit := !cfg2.DisableJit }
  let g3 : vm.Switches := { g2 with Debug := cfg2.Debug }
  let r := m.Call g3 cfg2 code input
  let g4 : vm.Switches := { r.2 with Debug := debug }
  let g5 : vm.Switches := { g4 with ForceJit := forceJit }
  let g6 : vm.Switches := { g5 with EnableJit := enableJit }
  (r.1, g6)

/-- A machine whose call fails with an error and inverts the three variables. -/
def failingMachine : Machine Unit :=
  { now := 0, MaxBig := 2 ^ 256 - 1, hashOfNumber := fun _ => [],
    Call := fun g _ _ _ =>
      (([], (), some "out of gas"),
        { Debug := !g.Debug, ForceJit := !g.ForceJit, EnableJit := !g.EnableJit }) }

end runtime

/-! # Command blocktest of cmd/gpbf

What the command does to the outside is embedded as the list of the calls it makes, in
order, each with the text it writes. -/

namespace gpbf

/-- The calls of `runBlockTest` that act on the outside. `Print` carries the text written to
the standard output, the newline included. `Fatalf` (package cmd/utils, not among the
sources) carries its message, the format applied to the arguments; it prints the message and
ends the process. -/
inductive Effect where
  | Fatalf (msg : String)
  | Print (msg : String)
  | Stop
  | WaitForShutdown
  | Exit (code : Int)
  | startpbf
  | StartRPC
deriving DecidableEq

/-- A block test, as `runOneBlockTest` sees it: the error, `none` for nil, of each call of
lines 109-134 that can fail, were the call reached. The packages that decide them (pbf,
tests) are not among the sources. -/
structure BlockTest where
  New : Option String
  InsertPreState : Option String
  TryBlocksInsert : Option String
  State : Option String
  ValidatePostState : Option String
  ValidateImportedHeaders : Option String
deriving DecidableEq

/-- cmd/gpbf/blocktestcmd.go, lines 102-135. The result is (whether the returned node is
not nil, the returned error). -/
def runOneBlockTest (test : BlockTest) : Bool × Option String :=
  match test.New with
  | some err => (false, some err)
  | none =>
    match test.InsertPreState with
    | some err => (true, some ("InsertPreState: " ++ err))
    | none =>
      match test.TryBlocksInsert with
      | some err => (true, some ("Block Test load error: " ++ err))
      | none =>
        match test.State with
        | some err => (true, some ("Block Test get state error: " ++ err))
        | none =>
          match test.ValidatePostState with
          | some err => (true, some ("post state validation failed: " ++ err))
          | none => (true, test.ValidateImportedHeaders)

/-- cmd/gpbf/blocktestcmd.go, lines 69-81: the loop that runs every test of the file, with
the exit code so far. `quote` is the verb `%q` of package fmt on a string, the function
`strconv.Quote`; `fmt.Println` writes its argument and a newline. -/
def runAll (quote : String → String) : List (String × BlockTest) → Int → List Effect × Int
  | [], ecode => ([], ecode)
  | (name, test) :: rest, ecode =>
    let r := runOneBlockTest test
    let failed : List Effect :=
      match r.2 with
      | some err => [Effect.Print (err ++ "\n"), Effect.Print "FAIL\n"]
      | none => []
    let ecode1 : Int := if r.2.isSome then 1 else ecode
    let stopped : List Effect := if r.1 then [Effect.Stop, Effect.WaitForShutdown] else []
    let tail := runAll quote rest ecode1
    (Effect.Print ("----------------- Running Block Test " ++ quote name ++ "\n") :: failed ++
      stopped ++ tail.1, tail.2)

/-- cmd/gpbf/blocktestcmd.go, lines 49-60: the file, the test name and the flag `rpc` for
the accepted numbers of arguments; `none` is the `default` case. -/
def parseArgs : List String → Option (String × String × Bool)
  | [file] => some (file, "", false)
  | [file, testname] => some (file, testname, false)
  | [file, testname, _] => some (file, testname, true)
  | _ => none

/-- cmd/gpbf/blocktestcmd.go, lines 44-100. `quote` is the verb `%q` of package fmt on a
string, the function `strconv.Quote`; `LoadBlockTests` is `tests.LoadBlockTests`, the tests
of the file by name or an error. -/
def runBlockTest (quote : String → String)
    (LoadBlockTests : String → Except String (List (String × BlockTest)))
    (args : List String) : List Effect :=
  match parseArgs args with
  | none =>
    [Effect.Fatalf
      "Usage: pbfcoin blocktest <path-to-test-file> [ <test-name> [ \x22rpc\x22 ] ]"]
  | some (file, testname, rpc) =>
    match LoadBlockTests file with
    | Except.error err => [Effect.Fatalf err]
    | Except.ok bt =>
      if testname = "" then
        (runAll quote bt 0).1 ++ [Effect.Exit (runAll quote bt 0).2]
      else
        match bt.lookup testname with
        | none =>
          [Effect.Fatalf ("Test file does not contain test named " ++ quote testname)]
        | some test =>
          match (runOneBlockTest test).2 with
          | some err => [Effect.Fatalf err]
          | none =>
            if rpc then
              [Effect.Print "Block Test post state validated, starting RPC interface.\n",
                Effect.startpbf, Effect.StartRPC, Effect.WaitForShutdown]
            else []

/-- The function `strconv.Quote` on a string of printable ASCII characters without a double
quote or a backslash: the string between double quotes. -/
def quoteAscii (s : String) : String := "\x22" ++ s ++ "\x22"

/-- A block test on which every call succeeds. -/
def passingTest : BlockTest :=
  { New := none, InsertPreState := none, TryBlocksInsert := none, State := none,
    ValidatePostState := none, ValidateImportedHeaders := none }

/-- A loader that finds the one test `t`, which passes, in every file. -/
def sampleLoader (_file : String) : Except String (List (String × BlockTest)) :=
  Except.ok [("t", passingTest)]

end gpbf

namespace trie

/-! ## Nibble paths -/

theorem splitShared_append (p k : Nibbles) :
    p = (splitShared p k).1 ++ (splitShared p k).2.1 ∧
    k = (splitShared p k).1 ++ (splitShared p k).2.2 := by
  induction p generalizing k with
  | nil => simp [splitShared]
  | cons a p ih =>
    cases k with
    | nil => simp [splitShared]
    | cons b k =>
      by_cases h : a = b
      · subst h
        have := ih k
        simp only [splitShared, if_true, List.cons_append]
        exact ⟨by rw [← this.1], by rw [← this.2]⟩
      · simp [splitShared, h]

theorem splitShared_heads (p k : Nibbles) (a b : Nibble) (pr kr : Nibbles)
    (hp : (splitShared p k).2.1 = a :: pr) (hk : (splitShared p k).2.2 = b :: kr) : a ≠ b := by
  induction p generalizing k with
  | nil => simp [splitShared] at hp
  | cons a' p ih =>
    cases k with
    | nil => simp [splitShared] at hk
    | cons b' k =>
      by_cases h : a' = b'
      · subst h
        simp only [splitShared, if_true] at hp hk
        exact ih k hp hk
      · simp only [splitShared, h, if_false] at hp hk
        simp only [List.cons.injEq] at hp hk
        rw [← hp.1, ← hk.1]; exact h

theorem isPrefixOf_append_self (s r : Nibbles) : s.isPrefixOf (s ++ r) = true := by
  induction s with
  | nil => simp
  | cons a s ih => simp [List.isPrefixOf, ih]

theorem isPrefixOf_eq_true_iff (s k : Nibbles) :
    s.isPrefixOf k = true ↔ ∃ r, k = s ++ r := by
  induction s generalizing k with
  | nil => simp
  | cons a s ih =>
    cases k with
    | nil => simp
    | cons b k =>
      simp only [List.isPrefixOf, Bool.and_eq_true, beq_iff_eq, ih, List.cons_append,
        List.cons.injEq]
      constructor
      · rintro ⟨h, r, hr⟩; exact ⟨r, h.symm, hr⟩
      · rintro ⟨r, h, hr⟩; exact ⟨h.symm, r, hr⟩

theorem pget_wrapExt (s : Nibbles) (n : Node) (r : Nibbles) :
    pget (wrapExt s n) (s ++ r) = pget n r := by
  unfold wrapExt
  split
  · next h => subst h; simp
  · simp [pget, isPrefixOf_append_self]

theorem pget_wrapExt_of_not (s : Nibbles) (n : Node) (k : Nibbles)
    (h : s.isPrefixOf k = false) : pget (wrapExt s n) k = none := by
  unfold wrapExt
  split
  · next hs => subst hs; simp at h
  · simp [pget, h]

theorem pget_placeLeaf (cs : Nibble → Node) (val : Option Bytes) (suffix : Nibbles) (v : Bytes)
    (k : Nibbles) (hblank : ∀ a r, suffix = a :: r → cs a = .blank) :
    pget (placeLeaf cs val suffix v) k = if k = suffix then some v else pget (.branch cs val) k := by
  cases suffix with
  | nil =>
    cases k with
    | nil => simp [placeLeaf, pget]
    | cons b k => simp [placeLeaf, pget]
  | cons a rest =>
    cases k with
    | nil => simp [placeLeaf, pget]
    | cons b k =>
      simp only [placeLeaf, pget, List.cons.injEq]
      by_cases hb : b = a
      · subst hb
        simp only [Function.update_same, pget, true_and, hblank b rest rfl]
        by_cases hk : rest = k
        · simp [hk]
        · have : ¬ k = rest := fun h => hk h.symm
          simp [hk, this]
      · simp [Function.update_noteq hb, hb]

theorem pget_noChildren_update (a : Nibble) (n : Node) (val : Option Bytes) (k : Nibbles) :
    pget (.branch (Function.update noChildren a n) val) k =
      match k with
      | [] => val
      | c :: r => if c = a then pget n r else none := by
  cases k with
  | nil => simp [pget]
  | cons c r =>
    by_cases h : c = a
    · subst h; simp [pget]
    · simp [pget, Function.update_noteq h, h, noChildren]

theorem pget_splitLeaf (p : Nibbles) (w : Bytes) (k : Nibbles) (v : Bytes) (k' : Nibbles) :
    pget (splitLeaf p w k v) k' = if k' = k then some v else pget (.leaf p w) k' := by
  obtain ⟨hp, hk⟩ := splitShared_append p k
  have hh := splitShared_heads p k
  unfold splitLeaf
  generalize splitShared p k = t at hp hk hh
  obtain ⟨s, pr, kr⟩ := t
  simp only at hp hk hh
  subst hp hk
  by_cases hpre : s.isPrefixOf k' = true
  · obtain ⟨r', rfl⟩ := (isPrefixOf_eq_true_iff s k').1 hpre
    cases pr with
    | nil =>
      cases kr with
      | nil => simp [pget]; split <;> simp_all
      | cons b r =>
        simp only [pget_wrapExt]
        rw [pget_placeLeaf _ _ _ _ _ (by intro a r h; rfl)]
        simp only [List.append_cancel_left_eq, List.append_nil, pget]
        cases r' with
        | nil => simp [pget]
        | cons c r'' => simp [pget, noChildren]
    | cons a pr' =>
      simp only [pget_wrapExt]
      rw [pget_placeLeaf]
      · simp only [List.append_cancel_left_eq, pget]
        rw [pget_noChildren_update]
        cases r' with
        | nil => simp
        | cons c r'' =>
          simp only [pget, List.cons.injEq]
          by_cases hc : c = a
          · subst hc; simp
          · have : ¬ a = c := fun h => hc h.symm
            simp [hc, this]
      · intro b r hkr
        have := hh a b pr' r rfl hkr
        simp [Function.update_noteq (Ne.symm this), noChildren]
  · simp only [Bool.not_eq_true] at hpre
    have h1 : k' ≠ s ++ kr := by
      intro h; rw [h, isPrefixOf_append_self] at hpre; simp at hpre
    have h2 : s ++ pr ≠ k' := by
      intro h; rw [← h, isPrefixOf_append_self] at hpre; simp at hpre
    have h3 : pget (Node.leaf (s ++ pr) v) k' = none := by simp [pget, h2]
    cases pr with
    | nil =>
      cases kr with
      | nil => simp_all [pget]
      | cons b r =>
        have h2' : ¬ s = k' := by simpa using h2
        simp [pget_wrapExt_of_not _ _ _ hpre, h1, pget, h2']
    | cons a pr' => simp [pget_wrapExt_of_not _ _ _ hpre, h1, pget, h2]

theorem pget_wrapExt_eq (s : Nibbles) (n : Node) (k : Nibbles) :
    pget (wrapExt s n) k = pget (.ext s n) k := by
  unfold wrapExt
  split
  · next h => subst h; simp [pget]
  · rfl

theorem pget_splitExt (s : Nibbles) (a : Nibble) (pr : Nibbles) (c : Node) (kr : Nibbles)
    (v : Bytes) (k' : Nibbles) (hh : ∀ b r, kr = b :: r → a ≠ b) :
    pget (splitExt s a pr c kr v) k' =
      if k' = s ++ kr then some v else pget (.ext (s ++ a :: pr) c) k' := by
  unfold splitExt
  by_cases hpre : s.isPrefixOf k' = true
  · obtain ⟨r', rfl⟩ := (isPrefixOf_eq_true_iff s k').1 hpre
    simp only [pget_wrapExt]
    rw [pget_placeLeaf]
    · simp only [List.append_cancel_left_eq]
      rw [pget_noChildren_update]
      have hext : pget (.ext (s ++ a :: pr) c) (s ++ r') = pget (.ext (a :: pr) c) r' := by
        simp only [pget, List.length_append, List.length_cons]
        have e1 : (s ++ a :: pr).isPrefixOf (s ++ r') = (a :: pr).isPrefixOf r' := by
          induction s with
          | nil => rfl
          | cons x s ih => simp [List.isPrefixOf, ih]
        have e2 : List.drop (s.length + (pr.length + 1)) (s ++ r') = List.drop (pr.length + 1) r' := by
          rw [List.drop_append]
        rw [e1, e2]
      rw [hext]
      cases r' with
      | nil => simp [pget]
      | cons x r'' =>
        simp only [pget_wrapExt_eq]
        by_cases hx : x = a
        · subst hx; simp [pget, List.isPrefixOf]
        · have : ¬ a = x := fun h => hx h.symm
          simp [pget, List.isPrefixOf, hx, this]
    · intro b r hkr
      have := hh b r hkr
      simp [Function.update_noteq (Ne.symm this), noChildren]
  · simp only [Bool.not_eq_true] at hpre
    have h1 : k' ≠ s ++ kr := by
      intro h; rw [h, isPrefixOf_append_self] at hpre; simp at hpre
    have h2 : (s ++ a :: pr).isPrefixOf k' = false := by
      cases h : (s ++ a :: pr).isPrefixOf k' with
      | false => rfl
      | true =>
        obtain ⟨r, hr⟩ := (isPrefixOf_eq_true_iff _ _).1 h
        rw [hr, List.append_assoc, isPrefixOf_append_self] at hpre
        simp at hpre
    simp [pget_wrapExt_of_not _ _ _ hpre, h1, pget, h2]

/-- A tree without hash references. -/
theorem pget_pinsert (m : Node) (k : Nibbles) (v : Bytes) (k' : Nibbles) (hm : NoRef m) :
    pget (pinsert m k v) k' = if k' = k then some v else pget m k' := by
  induction m generalizing k k' with
  | blank => simp only [pinsert, pget]; by_cases h : k = k' <;> simp [h, eq_comm]
  | leaf p w => simp only [pinsert]; exact pget_splitLeaf p w k v k'
  | ext p c ih =>
    obtain ⟨hp, hk⟩ := splitShared_append p k
    have hh := splitShared_heads p k
    simp only [pinsert]
    generalize splitShared p k = t at hp hk hh
    obtain ⟨s, pr, kr⟩ := t
    simp only at hp hk hh
    subst hp hk
    cases pr with
    | nil =>
      simp only [List.append_nil, pget]
      by_cases hpre : s.isPrefixOf k' = true
      · obtain ⟨r', rfl⟩ := (isPrefixOf_eq_true_iff s k').1 hpre
        simp only [isPrefixOf_append_self, if_true, List.drop_left, List.append_cancel_left_eq]
        exact ih kr r' hm
      · simp only [Bool.not_eq_true] at hpre
        have h1 : k' ≠ s ++ kr := by
          intro h; rw [h, isPrefixOf_append_self] at hpre; simp at hpre
        simp [hpre, h1]
    | cons a pr' =>
      simp only
      exact pget_splitExt s a pr' c kr v k' (fun b r h => hh a b pr' r rfl h)
  | branch cs val ih =>
    cases k with
    | nil =>
      cases k' with
      | nil => simp [pinsert, pget]
      | cons b r => simp [pinsert, pget]
    | cons a k =>
      cases k' with
      | nil => simp [pinsert, pget]
      | cons b r =>
        simp only [pinsert, pget, List.cons.injEq]
        by_cases hb : b = a
        · subst hb
          simp only [Function.update_same, true_and]
          exact ih b k r (hm b)
        · simp [Function.update_noteq hb, hb]
  | hashRef h => exact absurd hm (by simp [NoRef])

/-! ## Populated child slots and collapsing -/

theorem mem_populated (cs : Nibble → Node) (i : Nibble) :
    i ∈ populated cs ↔ (cs i).isBlank = false := by
  simp [populated, List.mem_filter]

theorem isBlank_eq_true_iff (n : Node) : n.isBlank = true ↔ n = .blank := by
  cases n <;> simp [Node.isBlank]

theorem isBlank_eq_false_iff (n : Node) : n.isBlank = false ↔ n ≠ .blank := by
  cases n <;> simp [Node.isBlank]

theorem populated_nodup (cs : Nibble → Node) : (populated cs).Nodup :=
  (List.nodup_finRange 16).filter _

theorem pget_absorbNibble (i : Nibble) (c : Node) (k : Nibbles) :
    pget (absorbNibble i c c) k = match k with
      | [] => none
      | j :: r => if j = i then pget c r else none := by
  cases c with
  | blank => cases k <;> simp [absorbNibble, pget, List.isPrefixOf]
  | leaf p v =>
    cases k with
    | nil => simp [absorbNibble, pget]
    | cons j r =>
      by_cases h : j = i
      · subst h; simp [absorbNibble, pget]
      · have : ¬ i = j := fun e => h e.symm
        simp [absorbNibble, pget, h, this]
  | ext p c' =>
    cases k with
    | nil => simp [absorbNibble, pget, List.isPrefixOf]
    | cons j r =>
      by_cases h : j = i
      · subst h; simp [absorbNibble, pget, List.isPrefixOf]
      · have : ¬ i = j := fun e => h e.symm
        simp [absorbNibble, pget, List.isPrefixOf, h, this]
  | branch cs val =>
    cases k with
    | nil => simp [absorbNibble, pget, List.isPrefixOf]
    | cons j r =>
      by_cases h : j = i
      · subst h; simp [absorbNibble, pget, List.isPrefixOf]
      · have : ¬ i = j := fun e => h e.symm
        simp [absorbNibble, pget, List.isPrefixOf, h, this]
  | hashRef h' =>
    cases k with
    | nil => simp [absorbNibble, pget, List.isPrefixOf]
    | cons j r =>
      by_cases h : j = i
      · subst h; simp [absorbNibble, pget, List.isPrefixOf]
      · have : ¬ i = j := fun e => h e.symm
        simp [absorbNibble, pget, List.isPrefixOf, h, this]

theorem pget_pcollapse (cs : Nibble → Node) (val : Option Bytes) (k : Nibbles) :
    pget (pcollapse cs val) k = pget (.branch cs val) k := by
  unfold pcollapse
  split
  · next hpop =>
    cases k with
    | nil => simp [pget]
    | cons j r =>
      have : ¬ j ∈ populated cs := by rw [hpop]; simp
      rw [mem_populated] at this
      simp only [Bool.not_eq_false, isBlank_eq_true_iff] at this
      simp [pget, this]
  · next v hpop =>
    cases k with
    | nil => simp [pget]
    | cons j r =>
      have : ¬ j ∈ populated cs := by rw [hpop]; simp
      rw [mem_populated] at this
      simp only [Bool.not_eq_false, isBlank_eq_true_iff] at this
      simp [pget, this]
  · next i hpop =>
    rw [pget_absorbNibble]
    cases k with
    | nil => simp [pget]
    | cons j r =>
      by_cases h : j = i
      · subst h; simp [pget]
      · have : ¬ j ∈ populated cs := by rw [hpop]; simpa using h
        rw [mem_populated] at this
        simp only [Bool.not_eq_false, isBlank_eq_true_iff] at this
        simp [pget, this, h]
  · rfl

theorem isPrefixOf_append_left (p q k : Nibbles) :
    (p ++ q).isPrefixOf k = (p.isPrefixOf k && q.isPrefixOf (k.drop p.length)) := by
  induction p generalizing k with
  | nil => simp
  | cons a p ih =>
    cases k with
    | nil => simp
    | cons b k => simp [List.isPrefixOf, ih, Bool.and_assoc]

theorem pget_mergeExt (p : Nibbles) (c : Node) (k : Nibbles) :
    pget (mergeExt p c) k = pget (.ext p c) k := by
  cases c with
  | blank => simp [mergeExt, pget]
  | leaf q v =>
    simp only [mergeExt, pget]
    by_cases hpre : p.isPrefixOf k = true
    · obtain ⟨r, rfl⟩ := (isPrefixOf_eq_true_iff p k).1 hpre
      simp [isPrefixOf_append_self]
    · simp only [Bool.not_eq_true] at hpre
      have : p ++ q ≠ k := by
        intro h; rw [← h, isPrefixOf_append_self] at hpre; simp at hpre
      simp [hpre, this]
  | ext q c' =>
    simp only [mergeExt, pget, isPrefixOf_append_left, List.length_append]
    by_cases hpre : p.isPrefixOf k = true
    · simp [hpre, List.drop_drop, Nat.add_comm]
    · simp only [Bool.not_eq_true] at hpre
      simp [hpre]
  | branch cs val => rfl
  | hashRef h => rfl

theorem pdelete_spec (m : Node) (k : Nibbles) :
    (pdelete m k).2 = (pget m k).isSome ∧
    ((pdelete m k).2 = false → (pdelete m k).1 = m) ∧
    ∀ k', pget (pdelete m k).1 k' = if k' = k then none else pget m k' := by
  induction m generalizing k with
  | blank => simp [pdelete, pget]
  | leaf p w =>
    by_cases h : p = k
    · subst h
      simp only [pdelete, pget, if_true, Option.isSome_some, true_and]
      refine ⟨by simp, ?_⟩
      intro k'
      by_cases h' : k' = p
      · simp [h']
      · have : ¬ p = k' := fun e => h' e.symm
        simp [h', this]
    · simp only [pdelete, h, if_false, pget, Option.isSome_none, true_and, implies_true]
      intro k'
      by_cases h' : k' = k
      · subst h'; simp [h]
      · simp [h']
  | ext p c ih =>
    by_cases hpre : p.isPrefixOf k = true
    · obtain ⟨r, rfl⟩ := (isPrefixOf_eq_true_iff p k).1 hpre
      obtain ⟨h1, h2, h3⟩ := ih r
      simp only [pdelete, isPrefixOf_append_self, if_true, List.drop_left, pget]
      cases hf : (pdelete c r).2 with
      | false =>
        rw [hf] at h1
        simp only [Bool.false_eq_true, if_false, true_and]
        refine ⟨h1, fun _ => trivial, ?_⟩
        intro k'
        by_cases h' : k' = p ++ r
        · subst h'
          have hg : pget c r = none := by
            cases hg : pget c r with
            | none => rfl
            | some x => rw [hg] at h1; simp at h1
          simp [pget, hg]
        · simp [h', pget]
      | true =>
        rw [hf] at h1
        simp only [if_true, true_and]
        refine ⟨h1, by simp, ?_⟩
        intro k'
        rw [pget_mergeExt]
        simp only [pget]
        by_cases hpre' : p.isPrefixOf k' = true
        · obtain ⟨r', rfl⟩ := (isPrefixOf_eq_true_iff p k').1 hpre'
          simp only [isPrefixOf_append_self, if_true, List.drop_left, h3,
            List.append_cancel_left_eq]
        · simp only [Bool.not_eq_true] at hpre'
          have : k' ≠ p ++ r := by
            intro h; rw [h, isPrefixOf_append_self] at hpre'; simp at hpre'
          simp [hpre', this]
    · simp only [Bool.not_eq_true] at hpre
      simp only [pdelete, hpre, Bool.false_eq_true, if_false, pget, Option.isSome_none, true_and,
        implies_true]
      intro k'
      by_cases h' : k' = k
      · subst h'; simp [hpre]
      · simp [h']
  | branch cs val ih =>
    cases k with
    | nil =>
      cases val with
      | none =>
        simp only [pdelete, pget, Option.isSome_none, true_and, implies_true]
        intro k'
        cases k' <;> simp [pget]
      | some x =>
        simp only [pdelete, pget, Option.isSome_some, true_and]
        refine ⟨by simp, ?_⟩
        intro k'
        rw [pget_pcollapse]
        cases k' <;> simp [pget]
    | cons a k =>
      obtain ⟨h1, h2, h3⟩ := ih a k
      simp only [pdelete, pget]
      cases hf : (pdelete (cs a) k).2 with
      | false =>
        rw [hf] at h1
        simp only [Bool.false_eq_true, if_false, true_and]
        refine ⟨h1, fun _ => trivial, ?_⟩
        intro k'
        by_cases h' : k' = a :: k
        · subst h'
          have hg : pget (cs a) k = none := by
            cases hg : pget (cs a) k with
            | none => rfl
            | some x => rw [hg] at h1; simp at h1
          simp [pget, hg]
        · simp [h', pget]
      | true =>
        rw [hf] at h1
        simp only [if_true, true_and]
        refine ⟨h1, by simp, ?_⟩
        intro k'
        rw [pget_pcollapse]
        cases k' with
        | nil => simp [pget]
        | cons b r =>
          simp only [pget, List.cons.injEq]
          by_cases hb : b = a
          · subst hb; simp [h3]
          · simp [Function.update_noteq hb, hb]
  | hashRef h =>
    simp only [pdelete, pget, Option.isSome_none, true_and, implies_true]
    intro k'; simp

/-! ## Preservation of the structural invariants -/

theorem Shaped.noRef {canon : Bool} {m : Node} (h : Shaped canon m) : NoRef m := by
  induction m with
  | blank => trivial
  | leaf p v => trivial
  | ext p c ih => exact ih h.2.2
  | branch cs val ih => exact fun i => ih i (h.1 i)
  | hashRef d => exact h

theorem Canon.wf {m : Node} (h : Canon m) : WF m := by
  induction m with
  | blank => trivial
  | leaf p v => exact h
  | ext p c ih => exact ⟨h.1, h.2.1, ih h.2.2⟩
  | branch cs val ih =>
    refine ⟨fun i => ih i (h.1 i), h.2.1, ?_⟩
    rcases h.2.2 with h1 | h1
    · exact Or.inl ⟨h1.1, by simp⟩
    · exact Or.inr h1
  | hashRef d => exact h

theorem one_le_populated (cs : Nibble → Node) (i : Nibble) (hi : (cs i).isBlank = false) :
    1 ≤ (populated cs).length := by
  have : i ∈ populated cs := (mem_populated cs i).2 hi
  exact List.length_pos_of_mem this

theorem two_le_populated (cs : Nibble → Node) (i j : Nibble) (hij : i ≠ j)
    (hi : (cs i).isBlank = false) (hj : (cs j).isBlank = false) :
    2 ≤ (populated cs).length := by
  have hsub : [i, j] ⊆ populated cs := by
    intro x hx
    simp only [List.mem_cons, List.mem_singleton, List.not_mem_nil, or_false] at hx
    rcases hx with rfl | rfl
    · exact (mem_populated cs _).2 hi
    · exact (mem_populated cs _).2 hj
  have hnd : [i, j].Nodup := by simp [hij]
  exact (List.subperm_of_subset hnd hsub).length_le

theorem populated_update_le (cs : Nibble → Node) (a : Nibble) (c : Node)
    (hc : c.isBlank = false) :
    (populated cs).length ≤ (populated (Function.update cs a c)).length := by
  have hsub : populated cs ⊆ populated (Function.update cs a c) := by
    intro x hx
    rw [mem_populated] at hx ⊢
    by_cases h : x = a
    · subst h; simpa using hc
    · simpa [Function.update_noteq h] using hx
  exact (List.subperm_of_subset (populated_nodup cs) hsub).length_le

theorem exists_two_of_two_le (cs : Nibble → Node) (h : 2 ≤ (populated cs).length) :
    ∃ i j, i ≠ j ∧ (cs i).isBlank = false ∧ (cs j).isBlank = false := by
  have hnd := populated_nodup cs
  match hp : populated cs, h, hnd with
  | i :: j :: rest, _, hnd =>
    refine ⟨i, j, ?_, ?_, ?_⟩
    · intro e; subst e; simp at hnd
    · exact (mem_populated cs i).1 (by rw [hp]; simp)
    · exact (mem_populated cs j).1 (by rw [hp]; simp)

theorem pinsert_not_blank (m : Node) (k : Nibbles) (v : Bytes) :
    (pinsert m k v).isBlank = false := by
  cases m with
  | blank => rfl
  | leaf p w =>
    simp only [pinsert, splitLeaf]
    split <;> (try rfl) <;> (unfold wrapExt placeLeaf; split <;> split <;> rfl)
  | ext p c =>
    simp only [pinsert]
    split
    · rfl
    · unfold splitExt wrapExt placeLeaf; split <;> split <;> rfl
  | branch cs val => cases k <;> rfl
  | hashRef h => rfl

theorem pinsert_isBranch (m : Node) (k : Nibbles) (v : Bytes) (h : m.isBranch = true) :
    (pinsert m k v).isBranch = true := by
  cases m with
  | branch cs val => cases k <;> rfl
  | _ => simp [Node.isBranch] at h

theorem shaped_wrapExt {canon : Bool} (s : Nibbles) (n : Node) (hb : n.isBranch = true)
    (hn : Shaped canon n) : Shaped canon (wrapExt s n) := by
  unfold wrapExt
  split
  · exact hn
  · next h => exact ⟨h, hb, hn⟩

theorem wrapExt_not_blank (s : Nibbles) (n : Node) (hb : n.isBlank = false) :
    (wrapExt s n).isBlank = false := by
  unfold wrapExt
  split
  · exact hb
  · rfl

theorem placeLeaf_isBranch (cs : Nibble → Node) (val : Option Bytes) (suffix : Nibbles)
    (v : Bytes) : (placeLeaf cs val suffix v).isBranch = true := by
  cases suffix <;> rfl

/-- Placing a new key into a branch under construction that already holds one
occupant (a populated child `a` or a value) yields a well-shaped branch. -/
theorem shaped_placeLeaf_child {canon : Bool} (a : Nibble) (n : Node) (suffix : Nibbles)
    (v : Bytes) (hv : v ≠ []) (hn : Shaped canon n) (hnb : n.isBlank = false)
    (hh : ∀ b r, suffix = b :: r → a ≠ b) :
    Shaped canon (placeLeaf (Function.update noChildren a n) none suffix v) := by
  have hkids : ∀ i, Shaped canon (Function.update noChildren a n i) := by
    intro i
    by_cases h : i = a
    · subst h; simpa using hn
    · simp [Function.update_noteq h, noChildren, Shaped]
  cases suffix with
  | nil =>
    refine ⟨hkids, by simpa using hv, Or.inl ⟨rfl, fun _ => ?_⟩⟩
    exact one_le_populated _ a (by simpa using hnb)
  | cons b r =>
    have hab := hh b r rfl
    refine ⟨?_, by simp, Or.inr ?_⟩
    · intro i
      by_cases h : i = b
      · subst h; simpa [Shaped] using hv
      · simpa [Function.update_noteq h] using hkids i
    · refine two_le_populated _ a b hab ?_ ?_
      · simpa [Function.update_noteq hab] using hnb
      · simp [Node.isBlank]

theorem shaped_placeLeaf_value {canon : Bool} (w : Bytes) (b : Nibble) (r : Nibbles)
    (v : Bytes) (hv : v ≠ []) (hw : w ≠ []) :
    Shaped canon (placeLeaf noChildren (some w) (b :: r) v) := by
  refine ⟨?_, by simpa using hw, Or.inl ⟨rfl, fun _ => ?_⟩⟩
  · intro i
    by_cases h : i = b
    · subst h; simpa [Shaped] using hv
    · simp [Function.update_noteq h, noChildren, Shaped]
  · exact one_le_populated _ b (by simp [Node.isBlank])

theorem shaped_splitLeaf (canon : Bool) (p : Nibbles) (w : Bytes) (k : Nibbles) (v : Bytes)
    (hw : w ≠ []) (hv : v ≠ []) : Shaped canon (splitLeaf p w k v) := by
  have hh := splitShared_heads p k
  unfold splitLeaf
  generalize splitShared p k = t at hh
  obtain ⟨s, pr, kr⟩ := t
  simp only at hh
  cases pr with
  | nil =>
    cases kr with
    | nil => exact hv
    | cons b r =>
      exact shaped_wrapExt _ _ (placeLeaf_isBranch _ _ _ _) (shaped_placeLeaf_value w b r v hv hw)
  | cons a pr' =>
    refine shaped_wrapExt _ _ (placeLeaf_isBranch _ _ _ _) ?_
    exact shaped_placeLeaf_child a _ kr v hv hw rfl (fun b r h => hh a b pr' r rfl h)

theorem isBlank_of_isBranch {n : Node} (h : n.isBranch = true) : n.isBlank = false := by
  cases n <;> simp_all [Node.isBranch, Node.isBlank]

theorem shaped_pinsert {canon : Bool} (m : Node) (k : Nibbles) (v : Bytes) (hv : v ≠ [])
    (hm : Shaped canon m) : Shaped canon (pinsert m k v) := by
  induction m generalizing k with
  | blank => exact hv
  | leaf p w => exact shaped_splitLeaf canon p w k v hm hv
  | ext p c ih =>
    have hh := splitShared_heads p k
    simp only [pinsert]
    generalize splitShared p k = t at hh
    obtain ⟨s, pr, kr⟩ := t
    simp only at hh
    cases pr with
    | nil => exact ⟨hm.1, pinsert_isBranch _ _ _ hm.2.1, ih kr hm.2.2⟩
    | cons a pr' =>
      refine shaped_wrapExt _ _ (placeLeaf_isBranch _ _ _ _) ?_
      exact shaped_placeLeaf_child a _ kr v hv (shaped_wrapExt _ _ hm.2.1 hm.2.2)
        (wrapExt_not_blank _ _ (isBlank_of_isBranch hm.2.1)) (fun b r h => hh a b pr' r rfl h)
  | branch cs val ih =>
    cases k with
    | nil =>
      refine ⟨hm.1, by simpa using hv, ?_⟩
      rcases hm.2.2 with h | h
      · exact Or.inl ⟨rfl, h.2⟩
      · exact Or.inr h
    | cons a k =>
      have hle := populated_update_le cs a (pinsert (cs a) k v) (pinsert_not_blank _ _ _)
      refine ⟨?_, hm.2.1, ?_⟩
      · intro i
        by_cases h : i = a
        · subst h; simpa using ih i k (hm.1 i)
        · simpa [Function.update_noteq h] using hm.1 i
      · rcases hm.2.2 with h | h
        · exact Or.inl ⟨h.1, fun hc => le_trans (h.2 hc) hle⟩
        · exact Or.inr (le_trans h hle)
  | hashRef h => exact hm

theorem shaped_absorbNibble {canon : Bool} (i : Nibble) (c : Node) (hc : Shaped canon c)
    (hb : c.isBlank = false) : Shaped canon (absorbNibble i c c) := by
  cases c with
  | blank => simp [Node.isBlank] at hb
  | leaf p v => exact hc
  | ext p c' => exact ⟨by simp, hc.2.1, hc.2.2⟩
  | branch cs val => exact ⟨by simp, rfl, hc⟩
  | hashRef h => exact (hc : False).elim

/-- Collapsing a branch yields a tree of the same shape class, the canonical one
included: a branch that stays has two children, or a value and a child. -/
theorem shaped_pcollapse {canon : Bool} (cs : Nibble → Node) (val : Option Bytes)
    (hcs : ∀ i, Shaped canon (cs i)) (hval : val ≠ some []) :
    Shaped canon (pcollapse cs val) := by
  unfold pcollapse
  match hp : populated cs, val, hval with
  | [], none, _ => trivial
  | [], some v, hval => exact fun e => hval (by rw [e])
  | [i], none, _ =>
    exact shaped_absorbNibble i (cs i) (hcs i) ((mem_populated cs i).1 (by rw [hp]; simp))
  | [i], some v, hval =>
    exact ⟨hcs, hval, Or.inl ⟨rfl, fun _ => by rw [hp]; simp⟩⟩
  | _ :: _ :: _, none, hval =>
    refine ⟨hcs, hval, Or.inr ?_⟩
    rw [hp]; simp
  | _ :: _ :: _, some v, hval =>
    refine ⟨hcs, hval, Or.inr ?_⟩
    rw [hp]; simp

theorem shaped_mergeExt {canon : Bool} (p : Nibbles) (c : Node) (hp : p ≠ [])
    (hc : Shaped canon c) : Shaped canon (mergeExt p c) := by
  cases c with
  | blank => trivial
  | leaf q v => exact hc
  | ext q c' => exact ⟨by simp [hp], hc.2.1, hc.2.2⟩
  | branch cs val => exact ⟨hp, rfl, hc⟩
  | hashRef h => exact (hc : False).elim

/-- Deletion keeps the shape class of a tree, the canonical one included. -/
theorem shaped_pdelete {canon : Bool} (m : Node) (k : Nibbles) (hm : Shaped canon m) :
    Shaped canon (pdelete m k).1 := by
  induction m generalizing k with
  | blank => trivial
  | leaf p w =>
    simp only [pdelete]
    split
    · trivial
    · exact hm
  | ext p c ih =>
    simp only [pdelete]
    split
    · split
      · exact shaped_mergeExt p _ hm.1 (ih (k.drop p.length) hm.2.2)
      · exact hm
    · exact hm
  | branch cs val ih =>
    cases k with
    | nil =>
      cases val with
      | none => exact hm
      | some x => exact shaped_pcollapse cs none hm.1 (by simp)
    | cons a k =>
      simp only [pdelete]
      split
      · refine shaped_pcollapse _ val ?_ hm.2.1
        intro i
        by_cases h : i = a
        · subst h; simpa using ih i k (hm.1 i)
        · simpa [Function.update_noteq h] using hm.1 i
      · exact hm
  | hashRef h => exact hm

theorem wf_pdelete (m : Node) (k : Nibbles) (hm : WF m) : WF (pdelete m k).1 :=
  shaped_pdelete m k hm

/-! ## Uniqueness of the canonical form -/

theorem filter_eq_single : ∀ b : Nibble,
    (List.finRange 16).filter (fun a => decide (a = b)) = [b] := by decide

theorem populated_single (b : Nibble) (n : Node) (hn : n.isBlank = false) :
    populated (fun a => if a = b then n else .blank) = [b] := by
  unfold populated
  rw [← filter_eq_single b]
  apply List.filter_congr
  intro a _
  by_cases h : a = b
  · simp [h, hn]
  · simp [h, Node.isBlank]

theorem populated_eq_nil_iff (cs : Nibble → Node) :
    populated cs = [] ↔ ∀ i, cs i = .blank := by
  constructor
  · intro h i
    have : ¬ i ∈ populated cs := by rw [h]; simp
    rw [mem_populated] at this
    simpa [isBlank_eq_true_iff] using this
  · intro h
    unfold populated
    rw [List.filter_eq_nil_iff]
    intro a _
    simp [h a, Node.isBlank]

theorem pget_step (m : Node) (a : Nibble) (k : Nibbles) (hm : Canon m) :
    pget (step m a) k = pget m (a :: k) := by
  cases m with
  | blank => rfl
  | leaf p v =>
    cases p with
    | nil => simp [step, pget]
    | cons b p =>
      by_cases h : a = b
      · subst h; simp [step, pget]
      · have : ¬ b = a := fun e => h e.symm
        simp [step, pget, h, this]
  | ext p c =>
    cases p with
    | nil => exact absurd rfl hm.1
    | cons b p =>
      by_cases h : a = b
      · subst h; simp [step, pget, pget_wrapExt_eq, List.isPrefixOf]
      · have : ¬ b = a := fun e => h e.symm
        simp [step, pget, h, this, List.isPrefixOf]
  | branch cs val => rfl
  | hashRef h => rfl

theorem canon_step (m : Node) (a : Nibble) (hm : Canon m) : Canon (step m a) := by
  cases m with
  | blank => trivial
  | leaf p v =>
    cases p with
    | nil => trivial
    | cons b p =>
      simp only [step]
      split
      · exact hm
      · trivial
  | ext p c =>
    cases p with
    | nil => trivial
    | cons b p =>
      simp only [step]
      split
      · exact shaped_wrapExt _ _ hm.2.1 hm.2.2
      · trivial
  | branch cs val => exact hm.1 a
  | hashRef h => trivial

theorem weight_child (cs : Nibble → Node) (a : Nibble) :
    weight (cs a) ≤ ((List.finRange 16).map (fun i => weight (cs i))).sum := by
  apply List.single_le_sum
  · intro x _; exact Nat.zero_le x
  · exact List.mem_map.2 ⟨a, List.mem_finRange a, rfl⟩

theorem weight_wrapExt (p : Nibbles) (c : Node) : weight (wrapExt p c) ≤ 1 + p.length + weight c := by
  unfold wrapExt
  split
  · omega
  · simp [weight]

theorem weight_step (m : Node) (a : Nibble) :
    weight (step m a) < weight m ∨ (weight m = 0 ∧ step m a = .blank) := by
  cases m with
  | blank => right; exact ⟨rfl, rfl⟩
  | leaf p v =>
    left
    cases p with
    | nil => simp only [step, weight]; omega
    | cons b p =>
      simp only [step]
      split <;> (simp only [weight, List.length_cons]; omega)
  | ext p c =>
    left
    cases p with
    | nil => simp only [step, weight]; omega
    | cons b p =>
      simp only [step]
      split
      · have := weight_wrapExt p c
        simp only [weight, List.length_cons]; omega
      · simp only [weight, List.length_cons]; omega
  | branch cs val =>
    left
    have := weight_child cs a
    simp only [step, weight]; omega
  | hashRef h => right; exact ⟨rfl, rfl⟩

theorem rebuild_single (st : Nibble → Node) (b : Nibble) (hp : populated st = [b]) :
    rebuild none st = absorbNibble b (st b) (st b) := by
  simp only [rebuild, hp]

theorem rebuild_nil (val : Option Bytes) (st : Nibble → Node) (hp : populated st = []) :
    rebuild val st = match val with
      | none => .blank
      | some v => .leaf [] v := by
  cases val <;> simp only [rebuild, hp]

theorem canon_eq_rebuild (m : Node) (hm : Canon m) : m = rebuild (pget m []) (step m) := by
  cases m with
  | blank =>
    have : populated (step .blank) = [] := (populated_eq_nil_iff _).2 (fun i => rfl)
    rw [rebuild_nil _ _ this]; rfl
  | leaf p v =>
    cases p with
    | nil =>
      have : populated (step (.leaf [] v)) = [] := (populated_eq_nil_iff _).2 (fun i => rfl)
      rw [rebuild_nil _ _ this]; simp [pget]
    | cons b p =>
      have hs : step (.leaf (b :: p) v) = fun a => if a = b then .leaf p v else .blank := by
        funext a; simp [step]
      have : populated (step (.leaf (b :: p) v)) = [b] := by
        rw [hs]; exact populated_single b _ rfl
      have hv : pget (.leaf (b :: p) v) [] = none := by simp [pget]
      rw [hv, rebuild_single _ b this]
      simp [step, absorbNibble]
  | ext p c =>
    cases p with
    | nil => exact absurd rfl hm.1
    | cons b p =>
      have hs : step (.ext (b :: p) c) = fun a => if a = b then wrapExt p c else .blank := by
        funext a; simp [step]
      have : populated (step (.ext (b :: p) c)) = [b] := by
        rw [hs]; exact populated_single b _ (wrapExt_not_blank _ _ (isBlank_of_isBranch hm.2.1))
      have hv : pget (.ext (b :: p) c) [] = none := by simp [pget, List.isPrefixOf]
      rw [hv, rebuild_single _ b this]
      have hb : step (.ext (b :: p) c) b = wrapExt p c := by simp [step]
      rw [hb]
      have hc := hm.2.1
      cases c with
      | branch cs val =>
        unfold wrapExt
        split
        · next hp => subst hp; rfl
        · rfl
      | _ => simp [Node.isBranch] at hc
  | branch cs val =>
    have hs : step (.branch cs val) = cs := by funext a; rfl
    rw [hs]
    simp only [pget]
    rcases hm.2.2 with h | h
    · have h1 := h.2 rfl
      cases val with
      | none => simp at h
      | some v =>
        unfold rebuild
        match hp : populated cs, h1 with
        | _ :: _, _ => rfl
    · unfold rebuild
      match hp : populated cs, h with
      | _ :: _ :: _, _ => cases val <;> rfl
  | hashRef h => exact (hm : False).elim

theorem canon_unique_aux (n : Nat) : ∀ m1 m2 : Node, weight m1 + weight m2 ≤ n →
    Canon m1 → Canon m2 → (∀ k, pget m1 k = pget m2 k) → m1 = m2 := by
  induction n with
  | zero =>
    intro m1 m2 hw h1 h2 hg
    rw [canon_eq_rebuild m1 h1, canon_eq_rebuild m2 h2, hg []]
    congr 1
    funext a
    rcases weight_step m1 a with h | h
    · omega
    · rcases weight_step m2 a with h' | h'
      · omega
      · rw [h.2, h'.2]
  | succ n ih =>
    intro m1 m2 hw h1 h2 hg
    rw [canon_eq_rebuild m1 h1, canon_eq_rebuild m2 h2, hg []]
    congr 1
    funext a
    by_cases hz : weight (step m1 a) + weight (step m2 a) ≤ n
    · apply ih _ _ hz (canon_step m1 a h1) (canon_step m2 a h2)
      intro k
      rw [pget_step m1 a k h1, pget_step m2 a k h2, hg]
    · rcases weight_step m1 a with h | h <;> rcases weight_step m2 a with h' | h'
      · omega
      · rw [h'.2] at hz; simp only [weight] at hz; omega
      · rw [h.2] at hz; simp only [weight] at hz; omega
      · rw [h.2, h'.2]

/-- Two canonical trees with the same mapping are the same tree. -/
theorem canon_unique (m1 m2 : Node) (h1 : Canon m1) (h2 : Canon m2)
    (hg : ∀ k, pget m1 k = pget m2 k) : m1 = m2 :=
  canon_unique_aux _ m1 m2 (le_refl _) h1 h2 hg

/-! ## Codec round trips -/

theorem hiNibble_packByte (a b : Nibble) : hiNibble (packByte a b) = a := by
  apply Fin.ext; simp only [hiNibble, packByte]; omega

theorem loNibble_packByte (a b : Nibble) : loNibble (packByte a b) = b := by
  apply Fin.ext; simp only [hiNibble, loNibble, packByte]; omega

theorem packByte_hi_lo (b : Byte) : packByte (hiNibble b) (loNibble b) = b := by
  apply Fin.ext; simp only [hiNibble, loNibble, packByte]; omega

theorem fromNibbles_toNibbles (bs : Bytes) : fromNibbles (toNibbles bs) = some bs := by
  induction bs with
  | nil => rfl
  | cons b bs ih => simp [toNibbles, fromNibbles, ih, packByte_hi_lo]

theorem toNibbles_fromNibbles_aux (n : Nat) : ∀ p : Nibbles, p.length = 2 * n →
    ∃ bs, fromNibbles p = some bs ∧ toNibbles bs = p := by
  induction n with
  | zero =>
    intro p hp
    have : p = [] := List.length_eq_zero.1 (by omega)
    subst this
    exact ⟨[], rfl, rfl⟩
  | succ n ih =>
    intro p hp
    match p, hp with
    | a :: b :: rest, hp =>
      obtain ⟨bs, h1, h2⟩ := ih rest (by simp at hp; omega)
      exact ⟨packByte a b :: bs, by simp [fromNibbles, h1],
        by simp [toNibbles, h2, hiNibble_packByte, loNibble_packByte]⟩

theorem toNibbles_fromNibbles (p : Nibbles) (bs : Bytes) (h : fromNibbles p = some bs) :
    toNibbles bs = p := by
  induction bs generalizing p with
  | nil =>
    match p, h with
    | [], _ => rfl
    | a :: b :: rest, h =>
      simp only [fromNibbles, Option.map_eq_some'] at h
      obtain ⟨x, _, hx⟩ := h
      simp at hx
  | cons c bs ih =>
    match p, h with
    | [], h => simp [fromNibbles] at h
    | [_], h => simp [fromNibbles] at h
    | a :: b :: rest, h =>
      simp only [fromNibbles, Option.map_eq_some', List.cons.injEq] at h
      obtain ⟨x, hx, hc, hbs⟩ := h
      subst hbs
      rw [toNibbles, ih rest hx, ← hc, hiNibble_packByte, loNibble_packByte]

theorem toNibbles_injective : Function.Injective toNibbles := by
  intro a b h
  have h1 := fromNibbles_toNibbles a
  rw [h, fromNibbles_toNibbles] at h1
  exact (Option.some.inj h1).symm

theorem toNibbles_length (bs : Bytes) : (toNibbles bs).length = 2 * bs.length := by
  induction bs with
  | nil => rfl
  | cons b bs ih => simp [toNibbles, ih]; omega

theorem hexPrefixDecode_odd (f a : Nibble) (bs : Bytes) (h4 : f.val < 4) (h1 : f.val % 2 = 1) :
    hexPrefixDecode (packByte f a :: bs) = some (a :: toNibbles bs, decide (2 ≤ f.val)) := by
  have : ¬ 4 ≤ f.val := by omega
  simp [hexPrefixDecode, hiNibble_packByte, loNibble_packByte, this, h1]

theorem hexPrefixDecode_even (f : Nibble) (bs : Bytes) (h4 : f.val < 4) (h1 : f.val % 2 = 0) :
    hexPrefixDecode (packByte f 0 :: bs) = some (toNibbles bs, decide (2 ≤ f.val)) := by
  have h : ¬ 4 ≤ f.val := by omega
  have h' : ¬ f.val % 2 = 1 := by omega
  simp [hexPrefixDecode, hiNibble_packByte, loNibble_packByte, h, h']

theorem hexPrefixDecode_encode (p : Nibbles) (l : Bool) :
    hexPrefixDecode (hexPrefixEncode p l) = some (p, l) := by
  unfold hexPrefixEncode
  by_cases hodd : p.length % 2 = 1
  · simp only [hodd, if_true]
    match p, hodd with
    | a :: rest, hodd =>
      have hlen : rest.length = 2 * (rest.length / 2) := by simp at hodd; omega
      obtain ⟨bs, h1, h2⟩ := toNibbles_fromNibbles_aux _ rest hlen
      simp only [h1, Option.getD_some]
      cases l
      · rw [show ((if false = true then (2 : Nibble) else 0) + 1) = (1 : Nibble) from rfl,
          hexPrefixDecode_odd 1 a bs (by decide) (by decide), h2]
        rfl
      · rw [show ((if true = true then (2 : Nibble) else 0) + 1) = (3 : Nibble) from rfl,
          hexPrefixDecode_odd 3 a bs (by decide) (by decide), h2]
        rfl
  · simp only [hodd, if_false]
    have hlen : p.length = 2 * (p.length / 2) := by omega
    obtain ⟨bs, h1, h2⟩ := toNibbles_fromNibbles_aux _ p hlen
    simp only [h1, Option.getD_some]
    cases l
    · rw [show (if false = true then (2 : Nibble) else 0) = (0 : Nibble) from rfl,
        hexPrefixDecode_even 0 bs (by decide) (by decide), h2]
      rfl
    · rw [show (if true = true then (2 : Nibble) else 0) = (2 : Nibble) from rfl,
        hexPrefixDecode_even 2 bs (by decide) (by decide), h2]
      rfl

theorem unframeAux_one (b : Byte) (rest cur : Bytes) :
    unframeAux (1 :: b :: rest) cur = unframeAux rest (b :: cur) := by
  simp [unframeAux]

theorem unframeAux_frameElem (e : Bytes) (rest cur : Bytes) :
    unframeAux (frameElem e ++ rest) cur =
      (unframeAux rest []).map (fun es => (cur.reverse ++ e) :: es) := by
  induction e generalizing cur with
  | nil =>
    cases rest with
    | nil => simp [frameElem, unframeAux]
    | cons x xs => simp [frameElem, unframeAux]
  | cons b bs ih =>
    rw [frameElem, List.cons_append, List.cons_append, unframeAux_one, ih (b :: cur)]
    simp

theorem unframe_frame (es : List Bytes) : unframe (frame es) = some es := by
  unfold unframe
  induction es with
  | nil => simp [frame, unframeAux]
  | cons e es ih =>
    rw [frame, unframeAux_frameElem e (frame es) [], ih]
    simp

/-! ## Decoding of stored nodes -/

theorem decodeNode_leaf (digest : Bytes → Bytes) (p : Nibbles) (v : Bytes) :
    decodeNode (encodeNode digest (.leaf p v)) = some (.leaf p v) := by
  simp [decodeNode, encodeNode, unframe_frame, hexPrefixDecode_encode]

theorem decodeRef_refBytes (c : Node) (d : Bytes) (hc : Committed c) :
    decodeRef (refBytes c d) = c := by
  rcases hc with rfl | ⟨h, rfl, hne⟩
  · simp [refBytes, decodeRef]
  · simp [refBytes, decodeRef, hne]

theorem decodeNode_ext (digest : Bytes → Bytes) (p : Nibbles) (c : Node) (hc : Committed c) :
    decodeNode (encodeNode digest (.ext p c)) = some (.ext p c) := by
  simp [decodeNode, encodeNode, unframe_frame, hexPrefixDecode_encode, decodeRef_refBytes _ _ hc]

theorem decodeValue_getD (val : Option Bytes) (hval : val ≠ some []) :
    decodeValue (val.getD []) = val := by
  cases val with
  | none => simp [decodeValue]
  | some v =>
    have : v ≠ [] := fun h => hval (by rw [h])
    simp [decodeValue, this]

theorem decodeNode_branch (digest : Bytes → Bytes) (cs : Nibble → Node) (val : Option Bytes)
    (hcs : ∀ i, Committed (cs i)) (hval : val ≠ some []) :
    decodeNode (encodeNode digest (.branch cs val)) = some (.branch cs val) := by
  simp only [decodeNode, encodeNode, unframe_frame]
  generalize hf : (fun i => refBytes (cs i) (digest (encodeNode digest (cs i)))) = f
  have hlen : (List.ofFn f ++ [val.getD []]).length = 17 := by simp
  have hget : ∀ i : Nibble, (List.ofFn f ++ [val.getD []]).getD i.val [] = f i := by
    intro i
    have hi : i.val < (List.ofFn f).length := by simp
    rw [List.getD_eq_getElem?_getD, List.getElem?_append_left hi, List.getElem?_eq_getElem hi,
      List.getElem_ofFn]
    rfl
  have hget16 : (List.ofFn f ++ [val.getD []]).getD 16 [] = val.getD [] := by
    rw [List.getD_eq_getElem?_getD, List.getElem?_append_right (by simp)]
    simp
  generalize List.ofFn f ++ [val.getD []] = es at hlen hget hget16
  match es, hlen with
  | _ :: _ :: _ :: _, hlen =>
    simp only [hlen, if_true, Option.some.injEq, Node.branch.injEq]
    refine ⟨?_, ?_⟩
    · funext i
      rw [hget i, ← hf]
      exact decodeRef_refBytes _ _ (hcs i)
    · rw [hget16]; exact decodeValue_getD val hval

theorem decodeNode_kind (enc : Bytes) (n : Node) (h : decodeNode enc = some n) :
    n.isBlank = false ∧ n.isHashRef = false := by
  unfold decodeNode at h
  split at h
  · simp at h
  · split at h
    · split at h
      · simp at h
      · simp only [Option.some.injEq] at h; subst h; exact ⟨rfl, rfl⟩
      · simp only [Option.some.injEq] at h; subst h; exact ⟨rfl, rfl⟩
    · split at h
      · simp only [Option.some.injEq] at h; subst h; exact ⟨rfl, rfl⟩
      · simp at h

theorem resolveHash_kind (db : Store) (h : Bytes) (n : Node) (hr : resolveHash db h = .ok n) :
    n.isBlank = false ∧ n.isHashRef = false := by
  unfold resolveHash at hr
  split at hr
  · simp at hr
  · split at hr
    · simp at hr
    · next hd =>
      simp only [Except.ok.injEq] at hr
      subst hr
      exact decodeNode_kind _ _ hd

/-! ## Basic facts on the representation relation -/

theorem Rep.target_noRef {digest : Bytes → Bytes} {db : Store} {n m : Node} (h : Rep digest db n m) :
    NoRef m := by
  induction h with
  | blank => trivial
  | leaf p v => trivial
  | ext p _ ih => exact ih
  | branch val _ ih => exact ih
  | hashRef _ _ _ ih => exact ih

theorem Rep.kind {digest : Bytes → Bytes} {db : Store} {n m : Node} (h : Rep digest db n m) :
    n.isHashRef = false → (n.isBlank = m.isBlank ∧ n.isBranch = m.isBranch) := by
  cases h <;> simp [Node.isHashRef, Node.isBlank, Node.isBranch]

theorem Rep.isBlank {digest : Bytes → Bytes} {db : Store} {n m : Node} (h : Rep digest db n m) :
    n.isBlank = m.isBlank := by
  cases h with
  | hashRef hr hrep _ =>
    have hk := resolveHash_kind _ _ _ hr
    have := (hrep.kind hk.2).1
    rw [← this, hk.1]; rfl
  | _ => rfl

theorem Rep.populated {digest : Bytes → Bytes} {db : Store} {cs ms : Nibble → Node}
    (h : ∀ i, Rep digest db (cs i) (ms i)) : populated cs = populated ms := by
  unfold trie.populated
  apply List.filter_congr
  intro i _
  rw [(h i).isBlank]

theorem Rep.of_noRef (digest : Bytes → Bytes) (db : Store) (m : Node) (h : NoRef m) :
    Rep digest db m m := by
  induction m with
  | blank => exact .blank
  | leaf p v => exact .leaf p v
  | ext p c ih => exact .ext p (ih h)
  | branch cs val ih => exact .branch val (fun i => ih i (h i))
  | hashRef d => exact (h : False).elim

theorem Rep.refBytes {digest : Bytes → Bytes} {db : Store} {n m : Node}
    (h : Rep digest db n m) (hh : nodeHash digest n = nodeHash digest m) :
    refBytes n (digest (encodeNode digest n)) = refBytes m (digest (encodeNode digest m)) := by
  cases h with
  | blank => rfl
  | leaf p v => rfl
  | ext p _ => exact hh
  | branch val _ => exact hh
  | hashRef hr hrep hm =>
    have hk := resolveHash_kind _ _ _ hr
    have hnr := hrep.target_noRef
    have hb := (hrep.kind hk.2).1
    rw [hk.1] at hb
    cases m with
    | blank => simp [Node.isBlank] at hb
    | hashRef d => exact (hnr : False).elim
    | leaf p v => exact hm.symm
    | ext p c => exact hm.symm
    | branch cs val => exact hm.symm

theorem Rep.hash {digest : Bytes → Bytes} {db : Store} {n m : Node} (h : Rep digest db n m) :
    nodeHash digest n = nodeHash digest m := by
  induction h with
  | blank => rfl
  | leaf p v => rfl
  | @ext p c m hc ih =>
    simp only [nodeHash, encodeNode]
    rw [hc.refBytes ih]
  | @branch cs ms val hcs ih =>
    simp only [nodeHash, encodeNode]
    have : (fun i => trie.refBytes (cs i) (digest (encodeNode digest (cs i)))) =
        (fun i => trie.refBytes (ms i) (digest (encodeNode digest (ms i)))) := by
      funext i; exact (hcs i).refBytes (ih i)
    rw [this]
  | hashRef _ _ hm _ => simp only [nodeHash]; exact hm.symm

/-! ## The engine on partly committed graphs simulates the reference semantics -/

theorem length_drop_of_isPrefixOf (p k : Nibbles) (hp : p ≠ []) (h : p.isPrefixOf k = true) :
    (k.drop p.length).length + 1 ≤ k.length := by
  obtain ⟨r, rfl⟩ := (isPrefixOf_eq_true_iff p k).1 h
  have : 0 < p.length := List.length_pos.2 hp
  simp only [List.drop_left, List.length_append]; omega

theorem get_sim {digest : Bytes → Bytes} {db : Store} {n m : Node}
    (h : Rep digest db n m) (hwf : WF m) :
    ∀ (k : Nibbles) (fuel : Nat),
      2 * k.length + 1 + (if n.isHashRef = true then 1 else 0) ≤ fuel →
      get db fuel n k = .ok (pget m k) := by
  induction h with
  | blank =>
    intro k fuel hf
    obtain ⟨f, rfl⟩ : ∃ f, fuel = f + 1 := ⟨fuel - 1, by omega⟩
    rfl
  | leaf p v =>
    intro k fuel hf
    obtain ⟨f, rfl⟩ : ∃ f, fuel = f + 1 := ⟨fuel - 1, by omega⟩
    rfl
  | @ext p c m' hc ih =>
    intro k fuel hf
    obtain ⟨f, rfl⟩ : ∃ f, fuel = f + 1 := ⟨fuel - 1, by omega⟩
    simp only [get, pget]
    by_cases hpre : p.isPrefixOf k = true
    · have := length_drop_of_isPrefixOf p k hwf.1 hpre
      simp only [hpre, if_true]
      apply ih hwf.2.2
      simp only [Node.isHashRef] at hf
      split <;> omega
    · simp [hpre]
  | @branch cs ms val hcs ih =>
    intro k fuel hf
    obtain ⟨f, rfl⟩ : ∃ f, fuel = f + 1 := ⟨fuel - 1, by omega⟩
    cases k with
    | nil => rfl
    | cons a k =>
      simp only [get, pget]
      apply ih a (hwf.1 a)
      simp only [Node.isHashRef, List.length_cons] at hf
      split <;> omega
  | @hashRef d n' m' hr hrep hm ih =>
    intro k fuel hf
    obtain ⟨f, rfl⟩ : ∃ f, fuel = f + 1 := ⟨fuel - 1, by omega⟩
    simp only [get, hr]
    apply ih hwf
    have hk := resolveHash_kind _ _ _ hr
    simp only [Node.isHashRef, if_true] at hf
    simp only [hk.2]
    simp; omega

theorem Rep.update {digest : Bytes → Bytes} {db : Store} {cs ms : Nibble → Node} {c m : Node}
    (hcs : ∀ i, Rep digest db (cs i) (ms i)) (hc : Rep digest db c m) (a : Nibble) :
    ∀ i, Rep digest db (Function.update cs a c i) (Function.update ms a m i) := by
  intro i
  by_cases h : i = a
  · subst h; simpa using hc
  · simpa [Function.update_noteq h] using hcs i

theorem Rep.wrapExt {digest : Bytes → Bytes} {db : Store} {n m : Node} (s : Nibbles)
    (h : Rep digest db n m) : Rep digest db (wrapExt s n) (wrapExt s m) := by
  unfold trie.wrapExt
  split
  · exact h
  · exact .ext s h

theorem Rep.placeLeaf {digest : Bytes → Bytes} {db : Store} {cs ms : Nibble → Node}
    (hcs : ∀ i, Rep digest db (cs i) (ms i)) (val : Option Bytes) (suffix : Nibbles) (v : Bytes) :
    Rep digest db (placeLeaf cs val suffix v) (placeLeaf ms val suffix v) := by
  cases suffix with
  | nil => exact .branch _ hcs
  | cons a r => exact .branch _ (Rep.update hcs (.leaf r v) a)

theorem Rep.splitExt {digest : Bytes → Bytes} {db : Store} {c m : Node} (s : Nibbles) (a : Nibble)
    (pr kr : Nibbles) (v : Bytes) (h : Rep digest db c m) :
    Rep digest db (splitExt s a pr c kr v) (splitExt s a pr m kr v) := by
  unfold trie.splitExt
  apply Rep.wrapExt
  apply Rep.placeLeaf
  exact Rep.update (fun _ => .blank) (Rep.wrapExt pr h) a

theorem length_of_splitShared (p k : Nibbles) (hp : p ≠ [])
    (h : (splitShared p k).2.1 = []) : (splitShared p k).2.2.length + 1 ≤ k.length := by
  obtain ⟨h1, h2⟩ := splitShared_append p k
  rw [h, List.append_nil] at h1
  have : 0 < p.length := List.length_pos.2 hp
  have e : k.length = (splitShared p k).1.length + (splitShared p k).2.2.length := by
    conv_lhs => rw [h2]
    simp
  rw [← h1] at e
  omega

theorem insert_sim {digest : Bytes → Bytes} {db : Store} {n m : Node}
    (h : Rep digest db n m) (hwf : WF m) (v : Bytes) (hv : v ≠ []) :
    ∀ (k : Nibbles) (fuel : Nat),
      2 * k.length + 1 + (if n.isHashRef = true then 1 else 0) ≤ fuel →
      ∃ n', insert db fuel n k v = .ok n' ∧ Rep digest db n' (pinsert m k v) := by
  induction h with
  | blank =>
    intro k fuel hf
    obtain ⟨f, rfl⟩ : ∃ f, fuel = f + 1 := ⟨fuel - 1, by omega⟩
    exact ⟨_, rfl, .leaf k v⟩
  | leaf p w =>
    intro k fuel hf
    obtain ⟨f, rfl⟩ : ∃ f, fuel = f + 1 := ⟨fuel - 1, by omega⟩
    exact ⟨_, rfl, Rep.of_noRef _ _ _ (shaped_splitLeaf false p w k v hwf hv).noRef⟩
  | @ext p c m' hc ih =>
    intro k fuel hf
    obtain ⟨f, rfl⟩ : ∃ f, fuel = f + 1 := ⟨fuel - 1, by omega⟩
    have hlen := length_of_splitShared p k hwf.1
    simp only [insert, pinsert]
    generalize splitShared p k = t at hlen
    obtain ⟨s, pr, kr⟩ := t
    cases pr with
    | nil =>
      have hlen' := hlen rfl
      simp only at hlen'
      obtain ⟨c', h1, h2⟩ := ih hwf.2.2 kr f (by
        simp only [Node.isHashRef] at hf
        split <;> omega)
      exact ⟨_, by simp only [h1], .ext p h2⟩
    | cons a pr' => exact ⟨_, rfl, Rep.splitExt s a pr' kr v hc⟩
  | @branch cs ms val hcs ih =>
    intro k fuel hf
    obtain ⟨f, rfl⟩ : ∃ f, fuel = f + 1 := ⟨fuel - 1, by omega⟩
    cases k with
    | nil => exact ⟨_, rfl, .branch _ hcs⟩
    | cons a k =>
      obtain ⟨c', h1, h2⟩ := ih a (hwf.1 a) k f (by
        simp only [Node.isHashRef, List.length_cons] at hf
        split <;> omega)
      exact ⟨_, by simp only [insert, h1], .branch _ (Rep.update hcs h2 a)⟩
  | @hashRef d n' m' hr hrep hm ih =>
    intro k fuel hf
    obtain ⟨f, rfl⟩ : ∃ f, fuel = f + 1 := ⟨fuel - 1, by omega⟩
    have hk := resolveHash_kind _ _ _ hr
    obtain ⟨c', h1, h2⟩ := ih hwf k f (by
      simp only [Node.isHashRef, if_true] at hf
      simp only [hk.2]; simp; omega)
    exact ⟨_, by simp only [insert, hr, h1], h2⟩

theorem Rep.mergeExt {digest : Bytes → Bytes} {db : Store} {c m : Node} (p : Nibbles)
    (h : Rep digest db c m) (hc : c.isHashRef = false) :
    Rep digest db (mergeExt p c) (mergeExt p m) := by
  cases h with
  | blank => exact .blank
  | leaf q v => exact .leaf _ _
  | ext q hq => exact .ext _ hq
  | branch val hcs => exact .ext p (.branch val hcs)
  | hashRef _ _ _ => simp [Node.isHashRef] at hc

theorem mergeExt_not_hashRef (p : Nibbles) (c : Node) : (mergeExt p c).isHashRef = false := by
  cases c <;> rfl

theorem resolveNode_sim {digest : Bytes → Bytes} {db : Store} {c m : Node}
    (h : Rep digest db c m) :
    ∃ c0, resolveNode db c = .ok c0 ∧ Rep digest db c0 m ∧ c0.isHashRef = false := by
  cases h with
  | blank => exact ⟨_, rfl, .blank, rfl⟩
  | leaf q v => exact ⟨_, rfl, .leaf _ _, rfl⟩
  | ext q hq => exact ⟨_, rfl, .ext _ hq, rfl⟩
  | branch val hcs => exact ⟨_, rfl, .branch val hcs, rfl⟩
  | hashRef hr hrep _ => exact ⟨_, hr, hrep, (resolveHash_kind _ _ _ hr).2⟩

theorem Rep.absorbNibble {digest : Bytes → Bytes} {db : Store} {c c0 m : Node} (i : Nibble)
    (h : Rep digest db c m) (h0 : Rep digest db c0 m) (hc0 : c0.isHashRef = false) :
    Rep digest db (absorbNibble i c c0) (absorbNibble i m m) ∧
      (trie.absorbNibble i c c0).isHashRef = false := by
  cases h0 with
  | blank => exact ⟨.ext _ h, rfl⟩
  | leaf q v => exact ⟨.leaf _ _, rfl⟩
  | ext q hq => exact ⟨.ext _ hq, rfl⟩
  | branch val hcs => exact ⟨.ext _ h, rfl⟩
  | hashRef _ _ _ => simp [Node.isHashRef] at hc0

theorem collapse_sim {digest : Bytes → Bytes} {db : Store} {cs ms : Nibble → Node}
    (hcs : ∀ i, Rep digest db (cs i) (ms i)) (val : Option Bytes) :
    ∃ n', collapseBranch db cs val = .ok n' ∧ Rep digest db n' (pcollapse ms val) ∧
      n'.isHashRef = false := by
  unfold collapseBranch pcollapse
  rw [Rep.populated hcs]
  cases val with
  | some x =>
    match populated ms with
    | [] => exact ⟨_, rfl, .leaf _ _, rfl⟩
    | _ :: _ => exact ⟨_, rfl, .branch _ hcs, rfl⟩
  | none =>
    match populated ms with
    | [] => exact ⟨_, rfl, .blank, rfl⟩
    | [i] =>
      obtain ⟨c0, h1, h2, h3⟩ := resolveNode_sim (hcs i)
      have := Rep.absorbNibble i (hcs i) h2 h3
      exact ⟨_, by simp only [h1], this.1, this.2⟩
    | _ :: _ :: _ => exact ⟨_, rfl, .branch _ hcs, rfl⟩

theorem delete_sim {digest : Bytes → Bytes} {db : Store} {n m : Node}
    (h : Rep digest db n m) (hwf : WF m) :
    ∀ (k : Nibbles) (fuel : Nat),
      2 * k.length + 1 + (if n.isHashRef = true then 1 else 0) ≤ fuel →
      ∃ n', delete db fuel n k = .ok (n', (pdelete m k).2) ∧ Rep digest db n' (pdelete m k).1 ∧
        ((pdelete m k).2 = true → n'.isHashRef = false) := by
  induction h with
  | blank =>
    intro k fuel hf
    obtain ⟨f, rfl⟩ : ∃ f, fuel = f + 1 := ⟨fuel - 1, by omega⟩
    exact ⟨_, rfl, .blank, fun _ => rfl⟩
  | leaf p w =>
    intro k fuel hf
    obtain ⟨f, rfl⟩ : ∃ f, fuel = f + 1 := ⟨fuel - 1, by omega⟩
    simp only [delete, pdelete]
    by_cases hpk : p = k
    · simp only [hpk, if_true]; exact ⟨_, rfl, .blank, fun _ => rfl⟩
    · simp only [hpk, if_false]; exact ⟨_, rfl, .leaf _ _, fun _ => rfl⟩
  | @ext p c m' hc ih =>
    intro k fuel hf
    obtain ⟨f, rfl⟩ : ∃ f, fuel = f + 1 := ⟨fuel - 1, by omega⟩
    simp only [delete, pdelete]
    by_cases hpre : p.isPrefixOf k = true
    · have := length_drop_of_isPrefixOf p k hwf.1 hpre
      simp only [hpre, if_true]
      obtain ⟨c', h1, h2, h3⟩ := ih hwf.2.2 (k.drop p.length) f (by
        simp only [Node.isHashRef] at hf
        split <;> omega)
      simp only [h1]
      cases hfound : (pdelete m' (k.drop p.length)).2 with
      | false => exact ⟨_, rfl, .ext p hc, fun _ => rfl⟩
      | true =>
        exact ⟨_, rfl, Rep.mergeExt p h2 (h3 hfound), fun _ => mergeExt_not_hashRef _ _⟩
    · simp only [hpre]
      exact ⟨_, rfl, .ext p hc, fun _ => rfl⟩
  | @branch cs ms val hcs ih =>
    intro k fuel hf
    obtain ⟨f, rfl⟩ : ∃ f, fuel = f + 1 := ⟨fuel - 1, by omega⟩
    cases k with
    | nil =>
      cases val with
      | none => exact ⟨_, rfl, .branch _ hcs, fun _ => rfl⟩
      | some x =>
        obtain ⟨n', h1, h2, h3⟩ := collapse_sim hcs none
        exact ⟨n', by simp only [delete, h1, pdelete], h2, fun _ => h3⟩
    | cons a k =>
      obtain ⟨c', h1, h2, h3⟩ := ih a (hwf.1 a) k f (by
        simp only [Node.isHashRef, List.length_cons] at hf
        split <;> omega)
      simp only [delete, pdelete, h1]
      cases hfound : (pdelete (ms a) k).2 with
      | false => exact ⟨_, rfl, .branch _ hcs, fun _ => rfl⟩
      | true =>
        obtain ⟨n', h4, h5, h6⟩ := collapse_sim (Rep.update hcs h2 a) val
        exact ⟨n', by simp only [if_true, h4], h5, fun _ => h6⟩
  | @hashRef d n' m' hr hrep hm ih =>
    intro k fuel hf
    obtain ⟨f, rfl⟩ : ∃ f, fuel = f + 1 := ⟨fuel - 1, by omega⟩
    have hk := resolveHash_kind _ _ _ hr
    obtain ⟨c', h1, h2, h3⟩ := ih hwf k f (by
      simp only [Node.isHashRef, if_true] at hf
      simp only [hk.2]; simp; omega)
    simp only [delete, hr, h1]
    cases hfound : (pdelete m' k).2 with
    | false =>
      refine ⟨_, rfl, ?_, fun h => by simp at h⟩
      rw [(pdelete_spec m' k).2.1 hfound]
      exact .hashRef hr hrep hm
    | true => exact ⟨_, rfl, h2, fun _ => h3 hfound⟩

/-! ## Commit -/

theorem Store.get_put (db : Store) (h enc h' : Bytes) :
    (db.put h enc).get h' = if h = h' then some enc else db.get h' := by
  simp [Store.get, Store.put, assocGet]

theorem Store.le_refl (db : Store) : Store.le db db := fun _ _ h => h

theorem Store.le_trans {a b c : Store} (h1 : Store.le a b) (h2 : Store.le b c) : Store.le a c :=
  fun h e hg => h2 h e (h1 h e hg)

theorem assocGet_mem {k v : Bytes} {l : List (Bytes × Bytes)} (h : assocGet k l = some v) :
    (k, v) ∈ l := by
  induction l with
  | nil => simp [assocGet] at h
  | cons e l ih =>
    obtain ⟨k', v'⟩ := e
    simp only [assocGet] at h
    split at h
    · next heq =>
      simp only [Option.some.injEq] at h
      rw [heq, h]
      exact List.mem_cons_self _ _
    · exact List.mem_cons_of_mem _ (ih h)

/-- A store whose blobs have no colliding digests has none in an earlier state
of it either. -/
theorem CollisionFree.of_suffix {digest : Bytes → Bytes} {db db' : Store}
    (hs : db.nodes <:+ db'.nodes) (h : CollisionFree digest db') : CollisionFree digest db :=
  fun e1 h1 e2 h2 => h e1 (hs.subset h1) e2 (hs.subset h2)

theorem collisionFree_empty (digest : Bytes → Bytes) : CollisionFree digest Store.empty := by
  intro e1 h1
  simp [Store.empty] at h1

theorem Store.le_put {digest : Bytes → Bytes} {db : Store} (enc : Bytes)
    (hcf : CollisionFree digest (db.put (digest enc) enc))
    (hok : StoreOK digest db) : Store.le db (db.put (digest enc) enc) := by
  intro h e hg
  rw [Store.get_put]
  split
  · next heq =>
    have hk := hok h e hg
    have hmem : (h, e) ∈ (db.put (digest enc) enc).nodes :=
      List.mem_cons_of_mem _ (assocGet_mem hg)
    have hnew : (digest enc, enc) ∈ (db.put (digest enc) enc).nodes :=
      List.mem_cons_self _ _
    have := hcf _ hnew _ hmem (by rw [← hk, heq])
    simp only at this
    rw [this]
  · exact hg

theorem StoreOK.put {digest : Bytes → Bytes} {db : Store} (hok : StoreOK digest db)
    (enc : Bytes) : StoreOK digest (db.put (digest enc) enc) := by
  intro h e hg
  rw [Store.get_put] at hg
  split at hg
  · next heq => simp only [Option.some.injEq] at hg; rw [← heq, hg]
  · exact hok h e hg

theorem resolveHash_mono {db db' : Store} (hle : Store.le db db') {h : Bytes} {n : Node}
    (hr : resolveHash db h = .ok n) : resolveHash db' h = .ok n := by
  unfold resolveHash at hr ⊢
  split at hr
  · simp at hr
  · next enc hg => rw [hle _ _ hg]; exact hr

theorem Rep.mono {digest : Bytes → Bytes} {db db' : Store} (hle : Store.le db db') {n m : Node}
    (h : Rep digest db n m) : Rep digest db' n m := by
  induction h with
  | blank => exact .blank
  | leaf p v => exact .leaf p v
  | ext p _ ih => exact .ext p ih
  | branch val _ ih => exact .branch val ih
  | hashRef hr _ hm ih => exact .hashRef (resolveHash_mono hle hr) ih hm

theorem nodeHash_ne_nil {digest : Bytes → Bytes} (hne : ∀ x, digest x ≠ []) (m : Node)
    (hm : NoRef m) : nodeHash digest m ≠ [] := by
  cases m with
  | hashRef d => exact (hm : False).elim
  | _ => exact hne _

theorem Rep.committed_hashRef {digest : Bytes → Bytes} (hne : ∀ x, digest x ≠ []) {db : Store}
    {h : Bytes} {m : Node} (hr : Rep digest db (.hashRef h) m) : Committed (.hashRef h) := by
  cases hr with
  | hashRef _ hrep hm =>
    exact Or.inr ⟨h, rfl, by rw [← hm]; exact nodeHash_ne_nil hne m hrep.target_noRef⟩

/-- Storing a node whose children are committed yields a reference that
represents the same tree. -/
theorem storeNode_ok {digest : Bytes → Bytes}
    (hne : ∀ x, digest x ≠ []) {db : Store} (hok : StoreOK digest db) {s m : Node}
    (hrep : Rep digest db s m) (hs : s.isHashRef = false)
    (hdec : decodeNode (encodeNode digest s) = some s)
    (hcf : CollisionFree digest (storeNode digest s db).2) :
    CommitOK digest db m (storeNode digest s db) := by
  have hle := Store.le_put (encodeNode digest s) hcf hok
  refine ⟨hok.put _, hle, ?_, Or.inr ⟨_, rfl, hne _⟩, rfl⟩
  refine .hashRef ?_ (hrep.mono hle) ?_
  · simp [resolveHash, storeNode, Store.get_put, hdec]
  · rw [← hrep.hash]
    cases s <;> first | rfl | simp [Node.isHashRef] at hs

theorem storeNode_suffix (digest : Bytes → Bytes) (s : Node) (db : Store) :
    db.nodes <:+ (storeNode digest s db).2.nodes :=
  List.suffix_cons _ _

theorem commitFold_suffix (digest : Bytes → Bytes) (cs : Nibble → Node)
    (ih : ∀ i db, db.nodes <:+ (commitNode digest (cs i) db).2.nodes) (l : List Nibble) :
    ∀ acc : (Nibble → Node) × Store,
      acc.2.nodes <:+ (l.foldl (fun (acc : (Nibble → Node) × Store) i =>
        ((Function.update acc.1 i (commitNode digest (cs i) acc.2).1),
          (commitNode digest (cs i) acc.2).2)) acc).2.nodes := by
  induction l with
  | nil => intro acc; exact List.suffix_refl _
  | cons j l ihl =>
    intro acc
    rw [List.foldl_cons]
    exact (ih j acc.2).trans
      (ihl (Function.update acc.1 j (commitNode digest (cs j) acc.2).1,
        (commitNode digest (cs j) acc.2).2))

/-- A commit only adds blobs to the store. -/
theorem commitNode_suffix (digest : Bytes → Bytes) (n : Node) :
    ∀ db : Store, db.nodes <:+ (commitNode digest n db).2.nodes := by
  induction n with
  | blank => intro db; exact List.suffix_refl _
  | hashRef h => intro db; exact List.suffix_refl _
  | leaf p v => intro db; exact storeNode_suffix _ _ _
  | ext p c ih =>
    intro db
    simp only [commitNode]
    exact (ih db).trans (storeNode_suffix _ _ _)
  | branch cs val ih =>
    intro db
    simp only [commitNode]
    exact (commitFold_suffix digest cs ih (List.finRange 16) (cs, db)).trans
      (storeNode_suffix _ _ _)

theorem commitNode_ok {digest : Bytes → Bytes}
    (hne : ∀ x, digest x ≠ []) (n : Node) :
    ∀ (db : Store) (m : Node), StoreOK digest db → Rep digest db n m → WF m →
      CollisionFree digest (commitNode digest n db).2 →
      CommitOK digest db m (commitNode digest n db) := by
  induction n with
  | blank =>
    intro db m hok hrep _ _
    exact ⟨hok, Store.le_refl _, hrep, Or.inl rfl, rfl⟩
  | hashRef h =>
    intro db m hok hrep _ _
    exact ⟨hok, Store.le_refl _, hrep, hrep.committed_hashRef hne, rfl⟩
  | leaf p v =>
    intro db m hok hrep _ hcf
    exact storeNode_ok hne hok hrep rfl (decodeNode_leaf digest p v) hcf
  | ext p c ih =>
    intro db m hok hrep hwf hcf
    cases hrep with
    | @ext _ _ m' hc =>
      simp only [commitNode] at hcf
      obtain ⟨h1, h2, h3, h4, h5⟩ := ih db m' hok hc hwf.2.2
        (hcf.of_suffix (storeNode_suffix _ _ _))
      simp only [commitNode]
      obtain ⟨g1, g2, g3, g4, g5⟩ := storeNode_ok hne h1 (Rep.ext p h3) rfl
        (decodeNode_ext digest p _ h4) hcf
      exact ⟨g1, Store.le_trans h2 g2, g3, g4, g5.trans h5⟩
  | branch cs val ih =>
    intro db m hok hrep hwf hcf
    cases hrep with
    | @branch _ ms _ hcs =>
      simp only [commitNode] at hcf
      simp only [commitNode]
      have key : ∀ (l : List Nibble) (acc : (Nibble → Node) × Store) (D : Nibble → Prop),
          StoreOK digest acc.2 → Store.le db acc.2 → acc.2.preimages = db.preimages →
          (∀ i, Rep digest acc.2 (acc.1 i) (ms i)) →
          (∀ i, D i → Committed (acc.1 i)) →
          CollisionFree digest (l.foldl (fun (acc : (Nibble → Node) × Store) i =>
              ((Function.update acc.1 i (commitNode digest (cs i) acc.2).1),
                (commitNode digest (cs i) acc.2).2)) acc).2 →
          let r := l.foldl (fun (acc : (Nibble → Node) × Store) i =>
              ((Function.update acc.1 i (commitNode digest (cs i) acc.2).1),
                (commitNode digest (cs i) acc.2).2)) acc
          StoreOK digest r.2 ∧ Store.le db r.2 ∧ r.2.preimages = db.preimages ∧
            (∀ i, Rep digest r.2 (r.1 i) (ms i)) ∧
            (∀ i, (D i ∨ i ∈ l) → Committed (r.1 i)) := by
        intro l
        induction l with
        | nil =>
          intro acc D a1 a2 a3 a4 a5 _
          exact ⟨a1, a2, a3, a4, fun i hi => a5 i (by simpa using hi)⟩
        | cons j l ihl =>
          intro acc D a1 a2 a3 a4 a5 a6
          rw [List.foldl_cons] at a6
          obtain ⟨h1, h2, h3, h4, h5⟩ :=
            ih j acc.2 (ms j) a1 ((hcs j).mono a2) (hwf.1 j)
              (a6.of_suffix (commitFold_suffix digest cs
                (fun i db => commitNode_suffix digest (cs i) db) l
                (Function.update acc.1 j (commitNode digest (cs j) acc.2).1,
                  (commitNode digest (cs j) acc.2).2)))
          simp only [List.foldl_cons]
          have := ihl (Function.update acc.1 j (commitNode digest (cs j) acc.2).1,
              (commitNode digest (cs j) acc.2).2) (fun i => D i ∨ i = j)
            h1 (Store.le_trans a2 h2) (h5.trans a3)
            (by
              intro i
              by_cases hij : i = j
              · subst hij; simpa using h3
              · simpa [Function.update_noteq hij] using (a4 i).mono h2)
            (by
              intro i hi
              by_cases hij : i = j
              · subst hij; simpa using h4
              · rcases hi with hi | hi
                · simpa [Function.update_noteq hij] using a5 i hi
                · exact absurd hi hij)
            a6
          obtain ⟨b1, b2, b3, b4, b5⟩ := this
          refine ⟨b1, b2, b3, b4, ?_⟩
          intro i hi
          apply b5
          rcases hi with hi | hi
          · exact Or.inl (Or.inl hi)
          · rcases List.mem_cons.1 hi with hi | hi
            · exact Or.inl (Or.inr hi)
            · exact Or.inr hi
      obtain ⟨b1, b2, b3, b4, b5⟩ := key (List.finRange 16) (cs, db) (fun _ => False) hok
        (Store.le_refl _) rfl hcs (fun _ h => h.elim)
        (hcf.of_suffix (storeNode_suffix _ _ _))
      obtain ⟨g1, g2, g3, g4, g5⟩ := storeNode_ok hne b1 (Rep.branch val b4) rfl
        (decodeNode_branch digest _ val (fun i => b5 i (Or.inr (List.mem_finRange i))) hwf.2.1)
        hcf
      exact ⟨g1, Store.le_trans b2 g2, g3, g4, g5.trans b3⟩

/-! ## More fuel never changes a result -/

theorem get_mono (db : Store) : ∀ (f : Nat) (n : Node) (k : Nibbles) (r : Option Bytes),
    get db f n k = .ok r → ∀ f', f ≤ f' → get db f' n k = .ok r := by
  intro f
  induction f with
  | zero => intro n k r h; simp [get] at h
  | succ f ih =>
    intro n k r h f' hf
    obtain ⟨g, rfl⟩ : ∃ g, f' = g + 1 := ⟨f' - 1, by omega⟩
    have hg : f ≤ g := by omega
    cases n with
    | blank => exact h
    | leaf p v => exact h
    | ext p c =>
      simp only [get] at h ⊢
      split
      · next hp => rw [if_pos hp] at h; exact ih _ _ _ h g hg
      · next hp => rw [if_neg hp] at h; exact h
    | branch cs val =>
      cases k with
      | nil => exact h
      | cons a k => simp only [get] at h ⊢; exact ih _ _ _ h g hg
    | hashRef d =>
      simp only [get] at h ⊢
      cases hr : resolveHash db d with
      | error e => rw [hr] at h; simp at h
      | ok n' => rw [hr] at h; simp only at h ⊢; exact ih _ _ _ h g hg

theorem insert_mono (db : Store) : ∀ (f : Nat) (n : Node) (k : Nibbles) (v : Bytes) (r : Node),
    insert db f n k v = .ok r → ∀ f', f ≤ f' → insert db f' n k v = .ok r := by
  intro f
  induction f with
  | zero => intro n k v r h; simp [insert] at h
  | succ f ih =>
    intro n k v r h f' hf
    obtain ⟨g, rfl⟩ : ∃ g, f' = g + 1 := ⟨f' - 1, by omega⟩
    have hg : f ≤ g := by omega
    cases n with
    | blank => exact h
    | leaf p w => exact h
    | ext p c =>
      simp only [insert] at h ⊢
      generalize splitShared p k = t at h ⊢
      obtain ⟨s, pr, kr⟩ := t
      cases pr with
      | nil =>
        simp only at h ⊢
        cases hi : insert db f c kr v with
        | error e => rw [hi] at h; simp at h
        | ok c' => rw [hi] at h; rw [ih _ _ _ _ hi g hg]; exact h
      | cons a pr' => exact h
    | branch cs val =>
      cases k with
      | nil => exact h
      | cons a k =>
        simp only [insert] at h ⊢
        cases hi : insert db f (cs a) k v with
        | error e => rw [hi] at h; simp at h
        | ok c' => rw [hi] at h; rw [ih _ _ _ _ hi g hg]; exact h
    | hashRef d =>
      simp only [insert] at h ⊢
      cases hr : resolveHash db d with
      | error e => rw [hr] at h; simp at h
      | ok n' => rw [hr] at h; simp only at h ⊢; exact ih _ _ _ _ h g hg

theorem delete_mono (db : Store) : ∀ (f : Nat) (n : Node) (k : Nibbles) (r : Node × Bool),
    delete db f n k = .ok r → ∀ f', f ≤ f' → delete db f' n k = .ok r := by
  intro f
  induction f with
  | zero => intro n k r h; simp [delete] at h
  | succ f ih =>
    intro n k r h f' hf
    obtain ⟨g, rfl⟩ : ∃ g, f' = g + 1 := ⟨f' - 1, by omega⟩
    have hg : f ≤ g := by omega
    cases n with
    | blank => exact h
    | leaf p w => exact h
    | ext p c =>
      simp only [delete] at h ⊢
      split
      · next hp =>
        rw [if_pos hp] at h
        cases hi : delete db f c (k.drop p.length) with
        | error e => rw [hi] at h; simp at h
        | ok c' => rw [hi] at h; rw [ih _ _ _ hi g hg]; exact h
      · next hp => rw [if_neg hp] at h; exact h
    | branch cs val =>
      cases k with
      | nil => exact h
      | cons a k =>
        simp only [delete] at h ⊢
        cases hi : delete db f (cs a) k with
        | error e => rw [hi] at h; simp at h
        | ok c' => rw [hi] at h; rw [ih _ _ _ hi g hg]; exact h
    | hashRef d =>
      simp only [delete] at h ⊢
      cases hr : resolveHash db d with
      | error e => rw [hr] at h; simp at h
      | ok n' =>
        rw [hr] at h; simp only at h ⊢
        cases hi : delete db f n' k with
        | error e => rw [hi] at h; simp at h
        | ok c' => rw [hi] at h; rw [ih _ _ _ hi g hg]; exact h

/-! ## Trie states and the trees they hold -/

theorem byteKeys_pinsert (m : Node) (kb v : Bytes) (hm : NoRef m) (hb : ByteKeys m) :
    ByteKeys (pinsert m (toNibbles kb) v) := by
  intro k w h
  rw [pget_pinsert m _ v k hm] at h
  split at h
  · next hk => exact ⟨kb, hk⟩
  · exact hb k w h

theorem byteKeys_pdelete (m : Node) (k : Nibbles) (hb : ByteKeys m) :
    ByteKeys (pdelete m k).1 := by
  intro k' w h
  rw [(pdelete_spec m k).2.2 k'] at h
  split at h
  · simp at h
  · exact hb k' w h

theorem pget_pupdate (m : Node) (k : Nibbles) (v : Bytes) (k' : Nibbles) (hm : NoRef m) :
    pget (pupdate m k v) k' =
      if k' = k then (if v = [] then none else some v) else pget m k' := by
  unfold pupdate
  by_cases hv : v = []
  · simp only [hv, if_true]; exact (pdelete_spec m k).2.2 k'
  · simp only [hv, if_false]; exact pget_pinsert m k v k' hm

theorem shaped_pupdate {canon : Bool} (m : Node) (k : Nibbles) (v : Bytes)
    (hm : Shaped canon m) : Shaped canon (pupdate m k v) := by
  unfold pupdate
  split
  · exact shaped_pdelete m k hm
  · next hv => exact shaped_pinsert m k v hv hm

theorem wf_pupdate (m : Node) (k : Nibbles) (v : Bytes) (hm : WF m) : WF (pupdate m k v) :=
  shaped_pupdate m k v hm

theorem byteKeys_pupdate (m : Node) (kb v : Bytes) (hm : NoRef m) (hb : ByteKeys m) :
    ByteKeys (pupdate m (toNibbles kb) v) := by
  unfold pupdate
  split
  · exact byteKeys_pdelete m _ hb
  · exact byteKeys_pinsert m kb v hm hb

theorem fuel_ok (key : Bytes) (fuel : Nat) (n : Node) (h : 4 * key.length + 2 ≤ fuel) :
    2 * (toNibbles key).length + 1 + (if n.isHashRef = true then 1 else 0) ≤ fuel := by
  rw [toNibbles_length]; split <;> omega

theorem denotes_new (digest : Bytes → Bytes) : Denotes digest newEmpty .blank := by
  refine ⟨?_, .blank, trivial, ?_⟩
  · intro h e hg; simp [New, Store.empty, Store.get, assocGet] at hg
  · intro k v h; simp [pget] at h

theorem denotes_get {digest : Bytes → Bytes} {t : Trie} {m : Node} (h : Denotes digest t m)
    (key : Bytes) (fuel : Nat) (hf : 4 * key.length + 2 ≤ fuel) :
    t.Get fuel key = .ok (pget m (toNibbles key)) :=
  get_sim h.2.1 h.2.2.1 _ _ (fuel_ok key fuel _ hf)

theorem denotes_get_of_ok {digest : Bytes → Bytes} {t : Trie} {m : Node} (h : Denotes digest t m)
    (key : Bytes) (fuel : Nat) (r : Option Bytes) (hr : t.Get fuel key = .ok r) :
    r = pget m (toNibbles key) := by
  have h1 := get_mono _ _ _ _ _ hr (max fuel (4 * key.length + 2)) (le_max_left _ _)
  have h2 := denotes_get h key (max fuel (4 * key.length + 2)) (le_max_right _ _)
  unfold Trie.Get at h2
  rw [h1] at h2
  exact Except.ok.inj h2

theorem denotes_delete {digest : Bytes → Bytes} {t : Trie} {m : Node} (h : Denotes digest t m)
    (key : Bytes) (fuel : Nat) (hf : 4 * key.length + 2 ≤ fuel) :
    ∃ t', t.Delete fuel key = .ok (t', (pdelete m (toNibbles key)).2) ∧
      Denotes digest t' (pdelete m (toNibbles key)).1 ∧ t'.db = t.db := by
  obtain ⟨n', h1, h2, _⟩ := delete_sim h.2.1 h.2.2.1 _ _ (fuel_ok key fuel _ hf)
  refine ⟨⟨n', t.db⟩, by simp only [Trie.Delete, h1], ⟨h.1, h2, ?_, ?_⟩, rfl⟩
  · exact wf_pdelete _ _ h.2.2.1
  · exact byteKeys_pdelete _ _ h.2.2.2

theorem denotes_delete_of_ok {digest : Bytes → Bytes} {t : Trie} {m : Node}
    (h : Denotes digest t m) (key : Bytes) (fuel : Nat) (t' : Trie) (found : Bool)
    (hr : t.Delete fuel key = .ok (t', found)) :
    Denotes digest t' (pdelete m (toNibbles key)).1 ∧ found = (pdelete m (toNibbles key)).2 ∧
      t'.db = t.db := by
  obtain ⟨t'', h1, h2, h3⟩ :=
    denotes_delete h key (max fuel (4 * key.length + 2)) (le_max_right _ _)
  unfold Trie.Delete at hr h1
  cases hd : delete t.db fuel t.root (toNibbles key) with
  | error e => rw [hd] at hr; simp at hr
  | ok r =>
    have hm := delete_mono _ _ _ _ _ hd (max fuel (4 * key.length + 2)) (le_max_left _ _)
    rw [hd] at hr
    rw [hm] at h1
    simp only [Except.ok.injEq, Prod.mk.injEq] at hr h1
    rw [← hr.1, ← hr.2, h1.1, h1.2]
    exact ⟨h2, rfl, h3⟩

theorem denotes_update {digest : Bytes → Bytes} {t : Trie} {m : Node} (h : Denotes digest t m)
    (key value : Bytes) (fuel : Nat) (hf : 4 * key.length + 2 ≤ fuel) :
    ∃ t', t.Update fuel key value = .ok t' ∧
      Denotes digest t' (pupdate m (toNibbles key) value) ∧ t'.db = t.db := by
  unfold Trie.Update pupdate
  by_cases hv : value = []
  · obtain ⟨t', h1, h2, h3⟩ := denotes_delete h key fuel hf
    exact ⟨t', by simp only [hv, if_true, h1], by simpa only [hv, if_true] using h2, h3⟩
  · obtain ⟨n', h1, h2⟩ := insert_sim h.2.1 h.2.2.1 value hv _ _ (fuel_ok key fuel _ hf)
    refine ⟨⟨n', t.db⟩, by simp only [hv, if_false, h1], ?_, rfl⟩
    simp only [hv, if_false]
    exact ⟨h.1, h2, shaped_pinsert _ _ _ hv h.2.2.1,
      byteKeys_pinsert _ _ _ h.2.2.1.noRef h.2.2.2⟩

theorem denotes_update_of_ok {digest : Bytes → Bytes} {t : Trie} {m : Node}
    (h : Denotes digest t m) (key value : Bytes) (fuel : Nat) (t' : Trie)
    (hr : t.Update fuel key value = .ok t') :
    Denotes digest t' (pupdate m (toNibbles key) value) ∧ t'.db = t.db := by
  by_cases hv : value = []
  · unfold Trie.Update at hr
    simp only [hv, if_true] at hr
    cases hd : t.Delete fuel key with
    | error e => rw [hd] at hr; simp at hr
    | ok r =>
      obtain ⟨r1, r2⟩ := r
      rw [hd] at hr
      simp only [Except.ok.injEq] at hr
      subst hr
      have := denotes_delete_of_ok h key fuel _ _ hd
      unfold pupdate
      simp only [hv, if_true]
      exact ⟨this.1, this.2.2⟩
  · obtain ⟨t'', h1, h2, h3⟩ :=
      denotes_update h key value (max fuel (4 * key.length + 2)) (le_max_right _ _)
    unfold Trie.Update at hr h1
    simp only [hv, if_false] at hr h1
    cases hd : insert t.db fuel t.root (toNibbles key) value with
    | error e => rw [hd] at hr; simp at hr
    | ok r =>
      have hm := insert_mono _ _ _ _ _ _ hd (max fuel (4 * key.length + 2)) (le_max_left _ _)
      rw [hd] at hr
      rw [hm] at h1
      simp only [Except.ok.injEq] at hr h1
      rw [← hr, h1]
      exact ⟨h2, h3⟩

theorem denotes_hash {digest : Bytes → Bytes} {t : Trie} {m : Node} (h : Denotes digest t m) :
    t.Hash digest = nodeHash digest m := h.2.1.hash

theorem denotes_commit {digest : Bytes → Bytes}
    (hne : ∀ x, digest x ≠ []) {t : Trie} {m : Node} (h : Denotes digest t m)
    (hcf : CollisionFree digest (t.Commit digest).2.db) :
    Denotes digest (t.Commit digest).2 m ∧ (t.Commit digest).1 = nodeHash digest m ∧
      Committed (t.Commit digest).2.root := by
  obtain ⟨h1, _, h3, h4, _⟩ := commitNode_ok hne t.root t.db m h.1 h.2.1 h.2.2.1 hcf
  exact ⟨⟨h1, h3, h.2.2.1, h.2.2.2⟩, h3.hash, h4⟩

/-- Every trie state reachable by the API whose store holds no two blobs with
the same digest holds a tree in canonical form. -/
theorem reachable_denotes {digest : Bytes → Bytes}
    (hne : ∀ x, digest x ≠ []) {t : Trie} (h : Reachable digest t)
    (hcf : CollisionFree digest t.db) : ∃ m, Denotes digest t m ∧ Canon m := by
  induction h with
  | new => exact ⟨_, denotes_new digest, trivial⟩
  | update fuel key value hr hu ih =>
    have hdb : ∀ m, Denotes digest _ m → _ := fun m hm =>
      (denotes_update_of_ok hm key value fuel _ hu)
    rename_i t0 t1
    by_cases hv : value = []
    · have hdb0 : t1.db = t0.db := by
        unfold Trie.Update at hu
        simp only [hv, if_true] at hu
        unfold Trie.Delete at hu
        cases hd : delete t0.db fuel t0.root (toNibbles key) with
        | error e => rw [hd] at hu; simp at hu
        | ok r =>
          rw [hd] at hu
          simp only [Except.ok.injEq] at hu
          rw [← hu]
      obtain ⟨m, hm, hc⟩ := ih (hdb0 ▸ hcf)
      exact ⟨_, (hdb m hm).1, shaped_pupdate _ _ _ hc⟩
    · have hdb0 : t1.db = t0.db := by
        unfold Trie.Update at hu
        simp only [hv, if_false] at hu
        cases hd : insert t0.db fuel t0.root (toNibbles key) value with
        | error e => rw [hd] at hu; simp at hu
        | ok r =>
          rw [hd] at hu
          simp only [Except.ok.injEq] at hu
          rw [← hu]
      obtain ⟨m, hm, hc⟩ := ih (hdb0 ▸ hcf)
      exact ⟨_, (hdb m hm).1, shaped_pupdate _ _ _ hc⟩
  | delete fuel key found hr hd ih =>
    rename_i t0 t1
    have hdb0 : t1.db = t0.db := by
      unfold Trie.Delete at hd
      cases hd0 : delete t0.db fuel t0.root (toNibbles key) with
      | error e => rw [hd0] at hd; simp at hd
      | ok r =>
        rw [hd0] at hd
        simp only [Except.ok.injEq, Prod.mk.injEq] at hd
        rw [← hd.1]
    obtain ⟨m, hm, hc⟩ := ih (hdb0 ▸ hcf)
    exact ⟨_, (denotes_delete_of_ok hm key fuel _ _ hd).1, shaped_pdelete _ _ hc⟩
  | commit hr ih =>
    rename_i t0
    have hcf0 : CollisionFree digest t0.db :=
      hcf.of_suffix (commitNode_suffix digest t0.root t0.db)
    obtain ⟨m, hm, hc⟩ := ih hcf0
    exact ⟨m, (denotes_commit hne hm hcf).1, hc⟩

/-! ## Operation sequences -/

theorem wf_papplyOps (ops : List Op) : ∀ m, WF m → WF (papplyOps m ops) := by
  induction ops with
  | nil => intro m h; exact h
  | cons op ops ih =>
    intro m h
    cases op with
    | update k v => exact ih _ (wf_pupdate m _ v h)
    | delete k => exact ih _ (wf_pdelete m _ h)

theorem pget_papplyOps (ops : List Op) : ∀ (m : Node), WF m → ∀ k : Bytes,
    pget (papplyOps m ops) (toNibbles k) = written (fun x => pget m (toNibbles x)) ops k := by
  induction ops with
  | nil => intro m _ k; rfl
  | cons op ops ih =>
    intro m hm k
    cases op with
    | update k' v =>
      simp only [papplyOps, written]
      rw [ih _ (wf_pupdate m _ v hm) k]
      congr 1
      funext x
      rw [pget_pupdate m _ v _ hm.noRef]
      simp only [toNibbles_injective.eq_iff]
    | delete k' =>
      simp only [papplyOps, written]
      rw [ih _ (wf_pdelete m _ hm) k]
      congr 1
      funext x
      rw [(pdelete_spec m _).2.2]
      simp only [toNibbles_injective.eq_iff]

theorem denotes_applyOps (digest : Bytes → Bytes) (ops : List Op) (fuel : Nat)
    (hf : ∀ op ∈ ops, 4 * op.key.length + 2 ≤ fuel) :
    ∀ (t : Trie) (m : Node), Denotes digest t m →
      ∃ t', applyOps fuel t ops = .ok t' ∧ Denotes digest t' (papplyOps m ops) ∧ t'.db = t.db := by
  induction ops with
  | nil => intro t m h; exact ⟨t, rfl, h, rfl⟩
  | cons op ops ih =>
    intro t m h
    have hop := hf op (List.mem_cons_self _ _)
    have hops : ∀ op' ∈ ops, 4 * op'.key.length + 2 ≤ fuel :=
      fun op' h' => hf op' (List.mem_cons_of_mem _ h')
    cases op with
    | update k v =>
      obtain ⟨t1, h1, h2, h3⟩ := denotes_update h k v fuel hop
      obtain ⟨t2, g1, g2, g3⟩ := ih hops t1 _ h2
      exact ⟨t2, by simp only [applyOps, applyOp, h1, g1], g2, g3.trans h3⟩
    | delete k =>
      obtain ⟨t1, h1, h2, h3⟩ := denotes_delete h k fuel hop
      obtain ⟨t2, g1, g2, g3⟩ := ih hops t1 _ h2
      exact ⟨t2, by simp only [applyOps, applyOp, h1, g1], g2, g3.trans h3⟩

theorem denotes_putPreimage {digest : Bytes → Bytes} {root : Node} {db : Store} {m : Node}
    (h : Denotes digest ⟨root, db⟩ m) (hk k : Bytes) :
    Denotes digest ⟨root, db.putPreimage hk k⟩ m :=
  ⟨fun x e hg => h.1 x e hg,
    @Rep.mono digest db (db.putPreimage hk k) (fun _ _ hg => hg) root m h.2.1, h.2.2.1, h.2.2.2⟩

theorem denotes_applyOpsSecure (digest : Bytes → Bytes) (ops : List Op) (fuel : Nat)
    (hf : ∀ op ∈ ops, 4 * (digest op.key).length + 2 ≤ fuel) :
    ∀ (s : SecureTrie) (m : Node), Denotes digest s.trie m →
      ∃ s', applyOpsSecure digest fuel s ops = .ok s' ∧
        Denotes digest s'.trie (papplyOps m (ops.map (secureOp digest))) := by
  induction ops with
  | nil => intro s m h; exact ⟨s, rfl, h⟩
  | cons op ops ih =>
    intro s m h
    have hop := hf op (List.mem_cons_self _ _)
    have hops : ∀ op' ∈ ops, 4 * (digest op'.key).length + 2 ≤ fuel :=
      fun op' h' => hf op' (List.mem_cons_of_mem _ h')
    cases op with
    | update k v =>
      obtain ⟨t1, h1, h2, _⟩ := denotes_update h (digest k) v fuel hop
      obtain ⟨s2, g1, g2⟩ := ih hops ⟨⟨t1.root, t1.db.putPreimage (digest k) k⟩⟩ _
        (denotes_putPreimage h2 _ _)
      exact ⟨s2, by simp only [applyOpsSecure, applyOpSecure, SecureTrie.Update, h1, g1], g2⟩
    | delete k =>
      obtain ⟨t1, h1, h2, _⟩ := denotes_delete h (digest k) fuel hop
      obtain ⟨s2, g1, g2⟩ := ih hops ⟨t1⟩ _ h2
      exact ⟨s2, by simp only [applyOpsSecure, applyOpSecure, SecureTrie.Delete, h1, g1], g2⟩

/-- The mapping of the digest keys, read at the digest of `k`, is the mapping of
the original keys read at `k`, when no key of the operations collides with `k`
under the digest. -/
theorem written_secure {digest : Bytes → Bytes} (k : Bytes)
    (ops : List Op) (hk : ∀ op ∈ ops, digest op.key = digest k → op.key = k) :
    ∀ (base : Bytes → Option Bytes) (base' : Bytes → Option Bytes),
      base' (digest k) = base k →
      written base' (ops.map (secureOp digest)) (digest k) = written base ops k := by
  induction ops with
  | nil => intro base base' hb; exact hb
  | cons op ops ih =>
    intro base base' hb
    have hop := hk op (List.mem_cons_self _ _)
    have hops : ∀ op' ∈ ops, digest op'.key = digest k → op'.key = k :=
      fun op' h' => hk op' (List.mem_cons_of_mem _ h')
    cases op with
    | update k' v =>
      simp only [List.map_cons, secureOp, written]
      apply ih hops
      simp only [Op.key] at hop
      by_cases e : k = k'
      · subst e; simp
      · have : ¬ digest k = digest k' := fun h => e (hop h.symm).symm
        simp only [e, this, if_false, hb]
    | delete k' =>
      simp only [List.map_cons, secureOp, written]
      apply ih hops
      simp only [Op.key] at hop
      by_cases e : k = k'
      · subst e; simp
      · have : ¬ digest k = digest k' := fun h => e (hop h.symm).symm
        simp only [e, this, if_false, hb]

/-! ## The digest returned by commit is the dry hash -/

theorem refBytes_committed (digest : Bytes → Bytes) (c : Node) (d : Bytes) :
    refBytes (if c.isBlank = true then .blank else .hashRef (nodeHash digest c)) d =
      refBytes c (digest (encodeNode digest c)) := by
  cases c <;> rfl

theorem commitNode_root (digest : Bytes → Bytes) (n : Node) : ∀ db : Store,
    (commitNode digest n db).1 =
      if n.isBlank = true then .blank else .hashRef (nodeHash digest n) := by
  induction n with
  | blank => intro db; rfl
  | hashRef h => intro db; rfl
  | leaf p v => intro db; rfl
  | ext p c ih =>
    intro db
    simp only [commitNode, storeNode, Node.isBlank, nodeHash, encodeNode]
    rw [ih db, refBytes_committed]
    rfl
  | branch cs val ih =>
    intro db
    simp only [commitNode, storeNode, Node.isBlank, nodeHash, encodeNode]
    have key : ∀ (l : List Nibble) (acc : (Nibble → Node) × Store),
        (∀ i, refBytes (acc.1 i) (digest (encodeNode digest (acc.1 i))) =
          refBytes (cs i) (digest (encodeNode digest (cs i)))) →
        ∀ i, refBytes ((l.foldl (fun (acc : (Nibble → Node) × Store) i =>
              ((Function.update acc.1 i (commitNode digest (cs i) acc.2).1),
                (commitNode digest (cs i) acc.2).2)) acc).1 i)
            (digest (encodeNode digest ((l.foldl (fun (acc : (Nibble → Node) × Store) i =>
              ((Function.update acc.1 i (commitNode digest (cs i) acc.2).1),
                (commitNode digest (cs i) acc.2).2)) acc).1 i))) =
          refBytes (cs i) (digest (encodeNode digest (cs i))) := by
      intro l
      induction l with
      | nil => intro acc h; exact h
      | cons j l ihl =>
        intro acc h
        simp only [List.foldl_cons]
        apply ihl
        intro i
        by_cases hij : i = j
        · subst hij
          simp only [Function.update_same]
          rw [ih i acc.2, refBytes_committed]
        · simp only [Function.update_noteq hij]
          exact h i
    have := key (List.finRange 16) (cs, db) (fun _ => rfl)
    simp only [Bool.false_eq_true, if_false, Node.hashRef.injEq]
    congr 3
    exact congrArg List.ofFn (funext this)

theorem commit_digest_eq_hash (digest : Bytes → Bytes) (t : Trie) :
    (t.Commit digest).1 = t.Hash digest := by
  simp only [Trie.Commit, Trie.Hash, commitNode_root]
  cases t.root <;> rfl

theorem commit_commit (digest : Bytes → Bytes) (t : Trie) :
    (t.Commit digest).2.Commit digest = ((t.Commit digest).1, (t.Commit digest).2) := by
  have h := commitNode_root digest t.root t.db
  simp only [Trie.Commit]
  generalize commitNode digest t.root t.db = r at h
  obtain ⟨r1, r2⟩ := r
  simp only at h ⊢
  rw [h]
  split <;> rfl

/-! ## Stored values are never empty -/

theorem pget_ne_nil (m : Node) (hm : WF m) : ∀ k v, pget m k = some v → v ≠ [] := by
  induction m with
  | blank => intro k v h; simp [pget] at h
  | leaf p w =>
    intro k v h
    simp only [pget] at h
    split at h
    · simp only [Option.some.injEq] at h; subst h; exact hm
    · simp at h
  | ext p c ih =>
    intro k v h
    simp only [pget] at h
    split at h
    · exact ih hm.2.2 _ _ h
    · simp at h
  | branch cs val ih =>
    intro k v h
    cases k with
    | nil =>
      simp only [pget] at h
      subst h
      intro hv
      exact hm.2.1 (by rw [hv])
    | cons a k => exact ih a (hm.1 a) _ _ h
  | hashRef d => exact (hm : False).elim

/-! ## Insertions of distinct keys -/

theorem pdelete_absent (m : Node) (k : Nibbles) (h : pget m k = none) : (pdelete m k).1 = m :=
  (pdelete_spec m k).2.1 (by rw [(pdelete_spec m k).1, h]; rfl)

theorem canon_insertions (kvs : List (Bytes × Bytes)) : ∀ (m : Node), Canon m →
    (kvs.map Prod.fst).Nodup → (∀ kv ∈ kvs, pget m (toNibbles kv.1) = none) →
    Canon (papplyOps m (insertions kvs)) := by
  induction kvs with
  | nil => intro m h _ _; exact h
  | cons kv kvs ih =>
    intro m hm hnd habs
    simp only [List.map_cons, List.nodup_cons] at hnd
    simp only [insertions, List.map_cons, papplyOps]
    have hnoref := hm.noRef
    apply ih _ _ hnd.2
    · intro kv' hkv'
      rw [pget_pupdate _ _ _ _ hnoref]
      have hne : kv'.1 ≠ kv.1 := by
        intro e
        exact hnd.1 (e ▸ List.mem_map_of_mem Prod.fst hkv')
      simp only [toNibbles_injective.eq_iff, hne, if_false]
      exact habs kv' (List.mem_cons_of_mem _ hkv')
    · unfold pupdate
      split
      · rw [pdelete_absent _ _ (habs kv (List.mem_cons_self _ _))]; exact hm
      · next hv => exact shaped_pinsert _ _ _ hv hm

theorem written_insertions_aux (kvs : List (Bytes × Bytes)) (hnd : (kvs.map Prod.fst).Nodup)
    (k v : Bytes) : ∀ base : Bytes → Option Bytes,
    (written base (insertions kvs) k = some v ↔
      (((k, v) ∈ kvs ∧ v ≠ []) ∨ (k ∉ kvs.map Prod.fst ∧ base k = some v))) := by
  induction kvs with
  | nil => intro base; simp [insertions, written]
  | cons kv kvs ih =>
    intro base
    obtain ⟨k0, v0⟩ := kv
    simp only [List.map_cons, List.nodup_cons] at hnd
    simp only [insertions, List.map_cons, written]
    have := ih hnd.2 (fun x => if x = k0 then (if v0 = [] then none else some v0) else base x)
    simp only [insertions] at this
    rw [this]
    by_cases hk : k = k0
    · subst hk
      have h1 : (k, v) ∉ kvs := fun h => hnd.1 (List.mem_map_of_mem Prod.fst h)
      simp only [h1, false_and, false_or, hnd.1, not_false_eq_true, true_and, if_true,
        List.mem_cons, Prod.mk.injEq, or_false, List.mem_map, true_or, not_true_eq_false]
      by_cases hv0 : v0 = []
      · subst hv0
        simp only [if_true]
        constructor
        · intro h; simp at h
        · rintro ⟨h, hne⟩; exact absurd h hne
      · simp only [hv0, if_false, Option.some.injEq]
        constructor
        · intro h; subst h; exact ⟨rfl, hv0⟩
        · rintro ⟨h, _⟩; exact h.symm
    · simp [hk]

theorem written_insertions (kvs : List (Bytes × Bytes)) (hnd : (kvs.map Prod.fst).Nodup)
    (k v : Bytes) :
    written (fun _ => none) (insertions kvs) k = some v ↔ ((k, v) ∈ kvs ∧ v ≠ []) := by
  rw [written_insertions_aux kvs hnd k v]
  simp

theorem written_eq (ops : List Op) : ∀ (base : Bytes → Option Bytes) (k : Bytes),
    written base ops k =
      match ops.reverse.find? (fun op => decide (op.key = k)) with
      | some (.update _ v) => if v = [] then none else some v
      | some (.delete _) => none
      | none => base k := by
  induction ops with
  | nil => intro base k; rfl
  | cons op ops ih =>
    intro base k
    cases op with
    | update k' v =>
      rw [written, ih, List.reverse_cons, List.find?_append]
      cases hfind : List.find? (fun op => decide (op.key = k)) ops.reverse with
      | some o => cases o <;> rfl
      | none =>
        by_cases hk : k = k'
        · subst hk; simp [Op.key]
        · have : ¬ k' = k := fun e => hk e.symm
          simp [Op.key, hk, this]
    | delete k' =>
      rw [written, ih, List.reverse_cons, List.find?_append]
      cases hfind : List.find? (fun op => decide (op.key = k)) ops.reverse with
      | some o => cases o <;> rfl
      | none =>
        by_cases hk : k = k'
        · subst hk; simp [Op.key]
        · have : ¬ k' = k := fun e => hk e.symm
          simp [Op.key, hk, this]

theorem written_none_eq_lastWrite (ops : List Op) (k : Bytes) :
    written (fun _ => none) ops k = lastWrite ops k := by
  rw [written_eq, lastWrite]
  cases List.find? (fun op => decide (op.key = k)) ops.reverse with
  | none => rfl
  | some o => cases o <;> rfl

theorem tagDigest_ne_nil (x : Bytes) : tagDigest x ≠ [] := by simp [tagDigest]

theorem polyDigest_length (x : Bytes) : (polyDigest x).length = 32 := by
  simp [polyDigest, lowBytes]

/-- The digest of fixed length is never the empty marker. -/
theorem polyDigest_ne_nil (x : Bytes) : polyDigest x ≠ [] := by
  intro h
  have := polyDigest_length x
  rw [h] at this
  simp at this

/-! ## Deleting a key just inserted -/

theorem update_noChildren_eq (a : Nibble) (n : Node) :
    Function.update noChildren a n = fun i => if i = a then n else .blank := by
  funext i
  by_cases h : i = a
  · subst h; simp
  · simp [Function.update_noteq h, h, noChildren]

theorem populated_update_noChildren (a : Nibble) (n : Node) (hn : n.isBlank = false) :
    populated (Function.update noChildren a n) = [a] := by
  rw [update_noChildren_eq]; exact populated_single a n hn

theorem pcollapse_single (a : Nibble) (n : Node) (hn : n.isBlank = false) :
    pcollapse (Function.update noChildren a n) none = absorbNibble a n n := by
  simp only [pcollapse, populated_update_noChildren a n hn, Function.update_same]

/-- Inserting a key that a canonical tree does not hold, with a non-empty value,
and deleting it again gives the tree back: deletion collapses the structure to
the canonical form of the remaining mapping. -/
theorem pdelete_pinsert (m : Node) (hm : Canon m) (k : Nibbles) (v : Bytes) (hv : v ≠ [])
    (habs : pget m k = none) : (pdelete (pinsert m k v) k).1 = m := by
  apply canon_unique _ _ (shaped_pdelete _ _ (shaped_pinsert m k v hv hm)) hm
  intro q
  rw [(pdelete_spec _ _).2.2, pget_pinsert _ _ _ _ hm.noRef]
  by_cases hq : q = k
  · simp [hq, habs]
  · simp [hq]

theorem toNibbles_append (a b : Bytes) : toNibbles (a ++ b) = toNibbles a ++ toNibbles b := by
  induction a with
  | nil => rfl
  | cons x a ih => simp [toNibbles, ih]

theorem toNibbles_split (kb k : Bytes) (q r : Nibbles) (hq : q = toNibbles kb)
    (h : toNibbles k = q ++ r) : ∃ rb, k = kb ++ rb ∧ r = toNibbles rb := by
  subst hq
  have hlen : r.length = 2 * (k.length - kb.length) := by
    have := congrArg List.length h
    simp only [List.length_append, toNibbles_length] at this
    omega
  obtain ⟨rb, _, h2⟩ := toNibbles_fromNibbles_aux _ r hlen
  refine ⟨rb, ?_, h2.symm⟩
  apply toNibbles_injective
  rw [toNibbles_append, h, h2]

/-! ## The iterator -/

theorem Emits.cons_none {db : Store} {f : Frame} {rest st : List Frame}
    {out : List (Nibbles × Bytes)} {cost : Nat}
    (h : advance db (f :: rest) = .ok (none, st)) (h' : Emits db st out cost) :
    Emits db (f :: rest) out (cost + 1) := by
  have := Emits.move h h'
  simpa using this

theorem branch_emits {db : Store} {cs ms : Nibble → Node}
    (val : Option Bytes) (path : Nibbles)
    (ih : ∀ (i : Nibble) (path : Nibbles) (rest : List Frame) (out : List (Nibbles × Bytes))
      (c : Nat), Emits db rest out c →
      ∃ c', Emits db (⟨cs i, path, 0⟩ :: rest) (entries (ms i) path ++ out) c')
    (rest : List Frame) (out : List (Nibbles × Bytes)) (c : Nat) (hrest : Emits db rest out c) :
    ∀ (d i : Nat), i + d = 16 →
      ∃ c', Emits db (⟨.branch cs val, path, i + 1⟩ :: rest)
        (((List.finRange 16).drop i).flatMap (fun x => entries (ms x) (path ++ [x])) ++ out) c' := by
  intro d
  induction d with
  | zero =>
    intro i hi
    have hi' : i = 16 := by omega
    subst hi'
    refine ⟨c + 1, ?_⟩
    have : ((List.finRange 16).drop 16) = [] := by
      apply List.drop_eq_nil_of_le; simp
    rw [this]
    exact Emits.cons_none (by simp [advance]) hrest
  | succ d ihd =>
    intro i hi
    have hlt : i < 16 := by omega
    obtain ⟨c1, h1⟩ := ihd (i + 1) (by omega)
    obtain ⟨c2, h2⟩ := ih ⟨i, hlt⟩ (path ++ [⟨i, hlt⟩]) _ _ c1 h1
    refine ⟨c2 + 1, ?_⟩
    have hd : (List.finRange 16).drop i = ⟨i, hlt⟩ :: (List.finRange 16).drop (i + 1) := by
      rw [List.drop_eq_getElem_cons (by simpa using hlt)]
      simp
    rw [hd, List.flatMap_cons, List.append_assoc]
    exact Emits.cons_none (by simp [advance, hlt]) h2

theorem tree_emits {digest : Bytes → Bytes} {db : Store} {n m : Node}
    (h : Rep digest db n m) :
    ∀ (path : Nibbles) (rest : List Frame) (out : List (Nibbles × Bytes)) (c : Nat),
      Emits db rest out c →
      ∃ c', Emits db (⟨n, path, 0⟩ :: rest) (entries m path ++ out) c' := by
  induction h with
  | blank =>
    intro path rest out c hrest
    exact ⟨c + 1, Emits.cons_none (by simp [advance]) hrest⟩
  | leaf p v =>
    intro path rest out c hrest
    refine ⟨c + 1, ?_⟩
    have := @Emits.move db ⟨.leaf p v, path, 0⟩ rest rest (some (path ++ p, v)) out c
      (by simp [advance]) hrest
    simpa [entries] using this
  | @ext p c' m' hc ih =>
    intro path rest out c hrest
    obtain ⟨c1, h1⟩ := ih (path ++ p) rest out c hrest
    exact ⟨c1 + 1, Emits.cons_none (by simp [advance]) h1⟩
  | @branch cs ms val hcs ih =>
    intro path rest out c hrest
    obtain ⟨c1, h1⟩ := branch_emits val path ih rest out c hrest 16 0 (by omega)
    refine ⟨c1 + 1, ?_⟩
    have := @Emits.move db ⟨.branch cs val, path, 0⟩ rest _ (val.map (fun v => (path, v))) _ c1
      (by simp [advance]) h1
    simp only [entries]
    cases val with
    | none => simpa using this
    | some v => simpa using this
  | @hashRef d n' m' hr hrep hm ih =>
    intro path rest out c hrest
    obtain ⟨c1, h1⟩ := ih path rest out c hrest
    exact ⟨c1 + 1, Emits.cons_none (by simp [advance, hr]) h1⟩

/-! ## `Next` follows the traversal -/

theorem next_of_emits_nil {db : Store} {st : List Frame} {out : List (Nibbles × Bytes)} {c : Nat}
    (h : Emits db st out c) (hout : out = []) :
    ∀ (key value : Bytes) (fuel : Nat), c < fuel →
      ∃ it', Iterator.Next fuel ⟨db, st, key, value⟩ = .ok (false, it') := by
  induction h with
  | done =>
    intro key value fuel hf
    obtain ⟨f, rfl⟩ : ∃ f, fuel = f + 1 := ⟨fuel - 1, by omega⟩
    exact ⟨_, rfl⟩
  | @move f rest st e out cost hadv hrest ih =>
    intro key value fuel hf
    obtain ⟨g, rfl⟩ : ∃ g, fuel = g + 1 := ⟨fuel - 1, by omega⟩
    cases e with
    | some x => simp at hout
    | none =>
      obtain ⟨it', h'⟩ := ih (by simpa using hout) key value g (by omega)
      exact ⟨it', by simp only [Iterator.Next, hadv]; exact h'⟩

theorem next_of_emits_cons {db : Store} {st : List Frame} {out : List (Nibbles × Bytes)} {c : Nat}
    (h : Emits db st out c) :
    ∀ (k : Nibbles) (v : Bytes) (out' : List (Nibbles × Bytes)), out = (k, v) :: out' →
    ∀ (kb : Bytes), fromNibbles k = some kb →
    ∀ (key value : Bytes) (fuel : Nat), c < fuel →
      ∃ st' c', Iterator.Next fuel ⟨db, st, key, value⟩ = .ok (true, ⟨db, st', kb, v⟩) ∧
        c' ≤ c ∧ Emits db st' out' c' := by
  induction h with
  | done => intro k v out' hout; simp at hout
  | @move f rest st e out cost hadv hrest ih =>
    intro k v out' hout kb hkb key value fuel hf
    obtain ⟨g, rfl⟩ : ∃ g, fuel = g + 1 := ⟨fuel - 1, by omega⟩
    cases e with
    | some x =>
      obtain ⟨xk, xv⟩ := x
      simp only [Option.toList, List.singleton_append, List.cons.injEq, Prod.mk.injEq] at hout
      obtain ⟨⟨rfl, rfl⟩, rfl⟩ := hout
      exact ⟨st, cost, by simp only [Iterator.Next, hadv, hkb], by omega, hrest⟩
    | none =>
      obtain ⟨st', c', h1, h2, h3⟩ := ih k v out' (by simpa using hout) kb hkb key value g
        (by omega)
      exact ⟨st', c', by simp only [Iterator.Next, hadv]; exact h1, by omega, h3⟩

theorem collect_of_emits {db : Store} (out : List (Nibbles × Bytes)) :
    ∀ (st : List Frame) (c : Nat), Emits db st out c →
    (∀ e ∈ out, ∃ kb, fromNibbles e.1 = some kb) →
    ∀ (key value : Bytes) (fuel n : Nat), c < fuel → out.length < n →
      Iterator.collect fuel n ⟨db, st, key, value⟩ = .ok (out.map packEntry) := by
  induction out with
  | nil =>
    intro st c h _ key value fuel n hf hn
    obtain ⟨n', rfl⟩ : ∃ n', n = n' + 1 := ⟨n - 1, by omega⟩
    obtain ⟨it', h'⟩ := next_of_emits_nil h rfl key value fuel hf
    simp only [Iterator.collect, h', List.map_nil]
  | cons e out ih =>
    intro st c h hkeys key value fuel n hf hn
    obtain ⟨n', rfl⟩ : ∃ n', n = n' + 1 := ⟨n - 1, by omega⟩
    obtain ⟨k, v⟩ := e
    obtain ⟨kb, hkb⟩ := hkeys (k, v) (List.mem_cons_self _ _)
    obtain ⟨st', c', h1, h2, h3⟩ := next_of_emits_cons h k v out rfl kb hkb key value fuel hf
    have h4 := ih st' c' h3 (fun e he => hkeys e (List.mem_cons_of_mem _ he)) kb v fuel n'
      (by omega) (by simp only [List.length_cons] at hn; omega)
    simp only [Iterator.collect, h1, h4, List.map_cons, packEntry, hkb, Option.getD_some]

/-! ## The in-order listing -/

theorem mem_entries (m : Node) : ∀ (pre k : Nibbles) (v : Bytes),
    (k, v) ∈ entries m pre ↔ ∃ r, k = pre ++ r ∧ pget m r = some v := by
  induction m with
  | blank => intro pre k v; simp [entries, pget]
  | hashRef d => intro pre k v; simp [entries, pget]
  | leaf p w =>
    intro pre k v
    simp only [entries, List.mem_singleton, Prod.mk.injEq, pget]
    constructor
    · rintro ⟨rfl, rfl⟩; exact ⟨p, rfl, by simp⟩
    · rintro ⟨r, rfl, h⟩
      split at h
      · next hp => subst hp; simp only [Option.some.injEq] at h; exact ⟨rfl, h.symm⟩
      · simp at h
  | ext p c ih =>
    intro pre k v
    simp only [entries, ih, pget]
    constructor
    · rintro ⟨r, rfl, h⟩
      exact ⟨p ++ r, by simp, by simpa [isPrefixOf_append_self] using h⟩
    · rintro ⟨r, rfl, h⟩
      split at h
      · next hp =>
        obtain ⟨r', rfl⟩ := (isPrefixOf_eq_true_iff p r).1 hp
        exact ⟨r', by simp, by simpa using h⟩
      · simp at h
  | branch cs val ih =>
    intro pre k v
    simp only [entries, List.mem_append, List.mem_flatMap, ih]
    constructor
    · rintro (h | ⟨i, _, r, rfl, h⟩)
      · cases val with
        | none => simp at h
        | some x =>
          simp only [List.mem_singleton, Prod.mk.injEq] at h
          exact ⟨[], by simp [h.1], by simp [pget, h.2]⟩
      · exact ⟨i :: r, by simp, by simpa [pget] using h⟩
    · rintro ⟨r, rfl, h⟩
      cases r with
      | nil =>
        left
        simp only [pget] at h
        subst h
        simp
      | cons i r =>
        right
        exact ⟨i, List.mem_finRange i, r, by simp, by simpa [pget] using h⟩

theorem lt_append_cons (pre : Nibbles) (i : Nibble) (r : Nibbles) :
    List.Lex (· < ·) pre (pre ++ i :: r) := by
  induction pre with
  | nil => exact List.Lex.nil
  | cons a pre ih => exact List.Lex.cons ih

theorem append_lt_append (pre : Nibbles) (i j : Nibble) (r r' : Nibbles) (h : i < j) :
    List.Lex (· < ·) (pre ++ i :: r) (pre ++ j :: r') := by
  induction pre with
  | nil => exact List.Lex.rel h
  | cons a pre ih => exact List.Lex.cons ih

theorem entries_sorted (m : Node) : ∀ pre : Nibbles,
    (entries m pre).Pairwise (fun a b => List.Lex (· < ·) a.1 b.1) := by
  induction m with
  | blank => intro pre; simp [entries]
  | hashRef d => intro pre; simp [entries]
  | leaf p w => intro pre; simp [entries]
  | ext p c ih => intro pre; exact ih _
  | branch cs val ih =>
    intro pre
    simp only [entries]
    rw [List.pairwise_append]
    refine ⟨?_, ?_, ?_⟩
    · cases val <;> simp
    · rw [List.pairwise_flatMap]
      refine ⟨fun i _ => ih i _, ?_⟩
      apply (List.pairwise_lt_finRange 16).imp
      intro i j hij x hx y hy
      obtain ⟨xk, xv⟩ := x
      obtain ⟨yk, yv⟩ := y
      obtain ⟨r, rfl, _⟩ := (mem_entries _ _ _ _).1 hx
      obtain ⟨r', rfl, _⟩ := (mem_entries _ _ _ _).1 hy
      simp only [List.append_assoc, List.singleton_append]
      exact append_lt_append pre i j r r' hij
    · intro x hx y hy
      cases val with
      | none => simp at hx
      | some w =>
        simp only [List.mem_singleton] at hx
        subst hx
        obtain ⟨yk, yv⟩ := y
        simp only [List.mem_flatMap] at hy
        obtain ⟨i, _, hy⟩ := hy
        obtain ⟨r', rfl, _⟩ := (mem_entries _ _ _ _).1 hy
        simp only [List.append_assoc, List.singleton_append]
        exact lt_append_cons pre i r'

theorem byte_lt_iff (x y : Byte) :
    x < y ↔ hiNibble x < hiNibble y ∨ (hiNibble x = hiNibble y ∧ loNibble x < loNibble y) := by
  simp only [Fin.lt_def, hiNibble, loNibble, Fin.mk.injEq]
  omega

theorem byte_eq_iff (x y : Byte) :
    x = y ↔ hiNibble x = hiNibble y ∧ loNibble x = loNibble y := by
  simp only [Fin.ext_iff, hiNibble, loNibble]
  omega

theorem lt_of_toNibbles_lt : ∀ (a b : Bytes),
    List.Lex (· < ·) (toNibbles a) (toNibbles b) → List.Lex (· < ·) a b := by
  intro a
  induction a with
  | nil =>
    intro b h
    cases b with
    | nil => simp only [toNibbles] at h; cases h
    | cons y b => exact List.Lex.nil
  | cons x a ih =>
    intro b h
    cases b with
    | nil => simp only [toNibbles] at h; cases h
    | cons y b =>
      simp only [toNibbles] at h
      generalize hx1 : hiNibble x = x1 at h
      generalize hx2 : loNibble x = x2 at h
      generalize hy1 : hiNibble y = y1 at h
      generalize hy2 : loNibble y = y2 at h
      cases h with
      | rel hlt => exact List.Lex.rel ((byte_lt_iff x y).2 (Or.inl (by rw [hx1, hy1]; exact hlt)))
      | cons h3 =>
        cases h3 with
        | rel hlt =>
          exact List.Lex.rel ((byte_lt_iff x y).2 (Or.inr ⟨by rw [hx1, hy1], by rw [hx2, hy2]; exact hlt⟩))
        | cons g3 =>
          have hxy : x = y := (byte_eq_iff x y).2 ⟨by rw [hx1, hy1], by rw [hx2, hy2]⟩
          subst hxy
          exact List.Lex.cons (ih b g3)

/-! ## Iterating a trie state -/

theorem lex_irrefl : ∀ a : Bytes, ¬ List.Lex (· < ·) a a := by
  intro a
  induction a with
  | nil => intro h; cases h
  | cons x a ih =>
    intro h
    cases h with
    | cons h' => exact ih h'
    | rel h' => exact lt_irrefl _ h'

theorem packEntry_of_bytes (kb v : Bytes) : packEntry (toNibbles kb, v) = (kb, v) := by
  simp [packEntry, fromNibbles_toNibbles]

/-- The pairs a complete run of the iterator produces on a trie state holding
the tree `m`. -/
theorem collect_denotes {digest : Bytes → Bytes} {t : Trie} {m : Node}
    (h : Denotes digest t m) :
    ∃ N, ∀ fuel n, N < fuel → N < n →
      Iterator.collect fuel n (NewIterator t) = .ok ((entries m []).map packEntry) := by
  obtain ⟨c, hc⟩ := tree_emits h.2.1 [] [] [] 0 Emits.done
  rw [List.append_nil] at hc
  refine ⟨max c (entries m []).length, ?_⟩
  intro fuel n hf hn
  apply collect_of_emits _ _ c hc
  · intro e he
    obtain ⟨k, v⟩ := e
    obtain ⟨r, hr, hg⟩ := (mem_entries m [] k v).1 he
    simp only [List.nil_append] at hr
    subst hr
    obtain ⟨kb, rfl⟩ := h.2.2.2 k v hg
    exact ⟨kb, fromNibbles_toNibbles kb⟩
  · exact lt_of_le_of_lt (le_max_left _ _) hf
  · exact lt_of_le_of_lt (le_max_right _ _) hn

theorem mem_collected {m : Node} (hb : ByteKeys m) (kb v : Bytes) :
    (kb, v) ∈ (entries m []).map packEntry ↔ pget m (toNibbles kb) = some v := by
  simp only [List.mem_map]
  constructor
  · rintro ⟨⟨k, w⟩, he, hp⟩
    obtain ⟨r, hr, hg⟩ := (mem_entries m [] k w).1 he
    simp only [List.nil_append] at hr
    subst hr
    obtain ⟨kb', rfl⟩ := hb k w hg
    rw [packEntry_of_bytes] at hp
    simp only [Prod.mk.injEq] at hp
    rw [← hp.1, ← hp.2]; exact hg
  · intro hg
    exact ⟨(toNibbles kb, v), (mem_entries m [] _ _).2 ⟨_, rfl, hg⟩, packEntry_of_bytes kb v⟩

theorem collected_sorted {m : Node} (hb : ByteKeys m) :
    (((entries m []).map packEntry).map Prod.fst).Pairwise (List.Lex (· < ·)) := by
  rw [List.map_map, List.pairwise_map]
  apply (entries_sorted m []).imp_of_mem
  intro a b ha hb' hlt
  obtain ⟨ka, va⟩ := a
  obtain ⟨kb, vb⟩ := b
  obtain ⟨r, hr, hg⟩ := (mem_entries m [] ka va).1 ha
  obtain ⟨r', hr', hg'⟩ := (mem_entries m [] kb vb).1 hb'
  simp only [List.nil_append] at hr hr'
  subst hr hr'
  obtain ⟨x, rfl⟩ := hb ka va hg
  obtain ⟨y, rfl⟩ := hb kb vb hg'
  simp only [Function.comp, packEntry_of_bytes]
  exact lt_of_toNibbles_lt x y hlt

theorem nodup_of_sorted (l : List Bytes) (h : l.Pairwise (List.Lex (· < ·))) : l.Nodup := by
  refine List.Pairwise.imp ?_ h
  intro a b hlt e
  subst e
  exact lex_irrefl _ hlt

theorem pget_insertions_perm (kvs1 kvs2 : List (Bytes × Bytes)) (hperm : kvs1.Perm kvs2)
    (hnd : (kvs1.map Prod.fst).Nodup) (k : Nibbles) :
    pget (papplyOps .blank (insertions kvs1)) k = pget (papplyOps .blank (insertions kvs2)) k := by
  have hnd2 : (kvs2.map Prod.fst).Nodup := (hperm.map Prod.fst).nodup_iff.1 hnd
  have hwf : WF .blank := trivial
  have hb : ByteKeys .blank := by intro k v h; simp [pget] at h
  have hbk : ∀ kvs : List (Bytes × Bytes), ByteKeys (papplyOps .blank (insertions kvs)) := by
    intro kvs
    have := (denotes_applyOps id (insertions kvs)
      ((kvs.map (fun kv => 4 * kv.1.length + 2)).sum) ?_ _ _ (denotes_new id))
    · obtain ⟨_, _, h, _⟩ := this; exact h.2.2.2
    · intro op hop
      simp only [insertions, List.mem_map] at hop
      obtain ⟨kv, hkv, rfl⟩ := hop
      exact List.single_le_sum (by intro x _; exact Nat.zero_le x) _
        (List.mem_map.2 ⟨kv, hkv, rfl⟩)
  by_cases hk : ∃ kb, k = toNibbles kb
  · obtain ⟨kb, rfl⟩ := hk
    rw [pget_papplyOps _ _ hwf, pget_papplyOps _ _ hwf]
    apply Option.ext
    intro v
    have e1 := written_insertions kvs1 hnd kb v
    have e2 := written_insertions kvs2 hnd2 kb v
    simp only [pget] at e1 e2 ⊢
    rw [Option.mem_def, Option.mem_def, e1, e2, hperm.mem_iff]
  · have n1 : pget (papplyOps .blank (insertions kvs1)) k = none := by
      cases h : pget (papplyOps .blank (insertions kvs1)) k with
      | none => rfl
      | some v => exact absurd (hbk kvs1 k v h) hk
    have n2 : pget (papplyOps .blank (insertions kvs2)) k = none := by
      cases h : pget (papplyOps .blank (insertions kvs2)) k with
      | none => rfl
      | some v => exact absurd (hbk kvs2 k v h) hk
    rw [n1, n2]

/-! ## Reachable states and the sample trie -/

theorem reachable_applyOps {digest : Bytes → Bytes} (fuel : Nat) (ops : List Op) :
    ∀ t t' : Trie, Reachable digest t → applyOps fuel t ops = .ok t' → Reachable digest t' := by
  induction ops with
  | nil =>
    intro t t' hr h
    simp only [applyOps, Except.ok.injEq] at h
    exact h ▸ hr
  | cons op ops ih =>
    intro t t' hr h
    simp only [applyOps] at h
    cases h1 : applyOp fuel t op with
    | error e => rw [h1] at h; simp at h
    | ok t1 =>
      rw [h1] at h
      refine ih t1 t' ?_ h
      cases op with
      | update k v => exact Reachable.update fuel k v hr h1
      | delete k =>
        simp only [applyOp] at h1
        cases h2 : t.Delete fuel k with
        | error e => rw [h2] at h1; simp at h1
        | ok r =>
          obtain ⟨t2, found⟩ := r
          rw [h2] at h1
          simp only [Except.ok.injEq] at h1
          exact h1 ▸ Reachable.delete fuel k found hr h2

/-- The sample trie is a state that the calls of the tests reach. -/
theorem sampleTrie_reachable : Reachable polyDigest sampleTrie := by
  unfold sampleTrie
  cases h : applyOps 200 newEmpty (insertions sampleVals) with
  | error e =>
    have hok : (match applyOps 200 newEmpty (insertions sampleVals) with
      | .ok _ => true
      | .error _ => false) = true := by decide
    rw [h] at hok
    simp at hok
  | ok t => exact Reachable.commit (reachable_applyOps 200 _ _ _ Reachable.new h)

/-- The digest of fixed length has no collision among the blobs of the sample
trie. -/
theorem sampleTrie_collisionFree : CollisionFree polyDigest sampleTrie.db := by
  decide

set_option maxRecDepth 20000 in
/-- The digest of fixed length has no collision among the blobs that committing
the table of `TestIterator` writes. -/
theorem iteratorVals_collisionFree (t : Trie)
    (h : applyOps 200 newEmpty
      (insertions (iteratorVals.map (fun kv => (bytesOf kv.1, bytesOf kv.2)))) = .ok t) :
    CollisionFree polyDigest (t.Commit polyDigest).2.db := by
  have key : (match applyOps 200 newEmpty
      (insertions (iteratorVals.map (fun kv => (bytesOf kv.1, bytesOf kv.2)))) with
    | .ok t => decide (CollisionFree polyDigest (t.Commit polyDigest).2.db)
    | .error _ => false) = true := by decide
  rw [h] at key
  simpa using key

/-- Two trie states that hold canonical trees and answer every `Get` alike hold
the same tree. -/
theorem denotes_eq_of_get {digest : Bytes → Bytes} {t t' : Trie} {m m' : Node}
    (h : Denotes digest t m) (hc : Canon m) (h' : Denotes digest t' m') (hc' : Canon m')
    (hget : ∀ k', t'.Get (4 * k'.length + 2) k' = t.Get (4 * k'.length + 2) k') : m' = m := by
  apply canon_unique _ _ hc' hc
  intro q
  by_cases hq : ∃ kb : Bytes, q = toNibbles kb
  · obtain ⟨kb, rfl⟩ := hq
    have := hget kb
    rw [denotes_get h' kb _ (le_refl _), denotes_get h kb _ (le_refl _)] at this
    exact Except.ok.inj this
  · have n1 : pget m q = none := by
      cases hg : pget m q with
      | none => rfl
      | some v => exact absurd (h.2.2.2 q v hg) hq
    have n2 : pget m' q = none := by
      cases hg : pget m' q with
      | none => rfl
      | some v => exact absurd (h'.2.2.2 q v hg) hq
    rw [n1, n2]

/-! ## The claims -/

/-- C1: for every finite set of distinct keys with non-empty values inserted
with `Update` into an empty trie and then committed, iterating with
`NewIterator`/`Next` until `Next` returns `false` yields exactly the inserted
(key, value) pairs, each exactly once: the produced list is a permutation of the
inserted list.  The digest is never empty and has no collision among the node
encodings that the commit writes to the store. -/
theorem iterator_yields_inserted (digest : Bytes → Bytes) (kvs : List (Bytes × Bytes))
    (fuel : Nat) (hne : ∀ x, digest x ≠ [])
    (hcf : ∀ t, applyOps fuel newEmpty (insertions kvs) = .ok t →
      CollisionFree digest (t.Commit digest).2.db)
    (hnd : (kvs.map Prod.fst).Nodup) (hvals : ∀ kv ∈ kvs, kv.2 ≠ [])
    (hfuel : ∀ kv ∈ kvs, 4 * kv.1.length + 2 ≤ fuel) :
    ∃ t, applyOps fuel newEmpty (insertions kvs) = .ok t ∧
      ∃ N L, L.Perm kvs ∧ ∀ f n, N < f → N < n →
        Iterator.collect f n (NewIterator (t.Commit digest).2) = .ok L := by
  have hops : ∀ op ∈ insertions kvs, 4 * op.key.length + 2 ≤ fuel := by
    intro op hop
    simp only [insertions, List.mem_map] at hop
    obtain ⟨kv, hkv, rfl⟩ := hop
    exact hfuel kv hkv
  obtain ⟨t, h1, d1, _⟩ := denotes_applyOps digest (insertions kvs) fuel hops _ _
    (denotes_new digest)
  have dc := (denotes_commit hne d1 (hcf t h1)).1
  obtain ⟨N, hN⟩ := collect_denotes dc
  refine ⟨t, h1, N, _, ?_, hN⟩
  have hsorted := collected_sorted dc.2.2.2
  have hnodupL : ((entries (papplyOps .blank (insertions kvs)) []).map packEntry).Nodup :=
    List.Nodup.of_map _ (nodup_of_sorted _ hsorted)
  rw [List.perm_ext_iff_of_nodup hnodupL (List.Nodup.of_map _ hnd)]
  rintro ⟨kb, v⟩
  rw [mem_collected dc.2.2.2, pget_papplyOps _ _ (show WF .blank from trivial)]
  have := written_insertions kvs hnd kb v
  simp only [pget] at this ⊢
  rw [this]
  exact ⟨fun h => h.1, fun h => ⟨h, hvals _ h⟩⟩

/-- C1 at the table of `TestIterator`, with the digest of fixed length. -/
theorem iterator_yields_inserted_witness :
    (∀ x, polyDigest x ≠ []) ∧
    (∀ t, applyOps 200 newEmpty
        (insertions (iteratorVals.map (fun kv => (bytesOf kv.1, bytesOf kv.2)))) = .ok t →
      CollisionFree polyDigest (t.Commit polyDigest).2.db) ∧
    ((iteratorVals.map (fun kv => (bytesOf kv.1, bytesOf kv.2))).map Prod.fst).Nodup ∧
    (∀ kv ∈ iteratorVals.map (fun kv => (bytesOf kv.1, bytesOf kv.2)), kv.2 ≠ []) ∧
    (∀ kv ∈ iteratorVals.map (fun kv => (bytesOf kv.1, bytesOf kv.2)),
      4 * kv.1.length + 2 ≤ 200) ∧
    ∃ t, applyOps 200 newEmpty
        (insertions (iteratorVals.map (fun kv => (bytesOf kv.1, bytesOf kv.2)))) = .ok t ∧
      ∃ N L, L.Perm (iteratorVals.map (fun kv => (bytesOf kv.1, bytesOf kv.2))) ∧
        ∀ f n, N < f → N < n →
          Iterator.collect f n (NewIterator (t.Commit polyDigest).2) = .ok L :=
  ⟨polyDigest_ne_nil, iteratorVals_collisionFree, by decide, by decide, by decide,
    iterator_yields_inserted polyDigest
      (iteratorVals.map (fun kv => (bytesOf kv.1, bytesOf kv.2)))
      200 polyDigest_ne_nil iteratorVals_collisionFree (by decide) (by decide) (by decide)⟩

/-- C2: for every key `k` and every non-empty value `v`, after `Update(k, v)` on
an empty secure trie, `GetKey(digest(k))` returns exactly `k`. -/
theorem secure_getKey_after_update (digest : Bytes → Bytes) (db : Store) (k v : Bytes)
    (fuel : Nat) (hv : v ≠ []) (hf : 0 < fuel) :
    ∃ s, (NewSecure db).Update digest fuel k v = .ok s ∧ s.GetKey (digest k) = some k := by
  obtain ⟨f, rfl⟩ : ∃ f, fuel = f + 1 := ⟨fuel - 1, by omega⟩
  refine ⟨⟨⟨.leaf (toNibbles (digest k)) v, db.putPreimage (digest k) k⟩⟩, ?_, ?_⟩
  · simp [SecureTrie.Update, NewSecure, New, Trie.Update, hv, insert]
  · simp [SecureTrie.GetKey, Store.getPreimage, Store.putPreimage, assocGet]

theorem secure_getKey_after_update_witness :
    bytesOf "bar" ≠ [] ∧ 0 < 1 ∧
    ∃ s, newEmptySecure.Update tagDigest 1 (bytesOf "foo") (bytesOf "bar") = .ok s ∧
      s.GetKey (tagDigest (bytesOf "foo")) = some (bytesOf "foo") :=
  ⟨by decide, by decide,
    secure_getKey_after_update tagDigest Store.empty (bytesOf "foo") (bytesOf "bar") 1
      (by decide) (by decide)⟩

/-- C3: for every sequence of Update/Delete operations applied to an empty trie,
plain or secure, and every key `k`, `Get(k)` returns the value of the most
recent `Update(k, v)` when `v` is non-empty and no `Delete(k)` followed it, and
absent otherwise; a further `Update(k, v)` with non-empty `v` makes `Get(k)`
return `v`.  For the secure trie no key of the operations may have the digest
of `k` without being `k`. -/
theorem get_returns_last_write (digest : Bytes → Bytes) (ops : List Op) (k : Bytes) (fuel : Nat)
    (hops : ∀ op ∈ ops, 4 * op.key.length + 2 ≤ fuel ∧ 4 * (digest op.key).length + 2 ≤ fuel)
    (hk : 4 * k.length + 2 ≤ fuel ∧ 4 * (digest k).length + 2 ≤ fuel) :
    (∃ t, applyOps fuel newEmpty ops = .ok t ∧
        t.Get fuel k = .ok (lastWrite ops k) ∧
        ∀ v, v ≠ [] → ∃ t', t.Update fuel k v = .ok t' ∧ t'.Get fuel k = .ok (some v)) ∧
    ((∀ op ∈ ops, digest op.key = digest k → op.key = k) →
      ∃ s, applyOpsSecure digest fuel newEmptySecure ops = .ok s ∧
        s.Get digest fuel k = .ok (lastWrite ops k) ∧
        ∀ v, v ≠ [] → ∃ s', s.Update digest fuel k v = .ok s' ∧
          s'.Get digest fuel k = .ok (some v)) := by
  constructor
  · obtain ⟨t, h1, h2, _⟩ := denotes_applyOps digest ops fuel
      (fun op h => (hops op h).1) _ _ (denotes_new digest)
    refine ⟨t, h1, ?_, ?_⟩
    · rw [denotes_get h2 k fuel hk.1, pget_papplyOps ops .blank (show WF .blank from trivial) k,
        ← written_none_eq_lastWrite]
      rfl
    · intro v hv
      obtain ⟨t', g1, g2, _⟩ := denotes_update h2 k v fuel hk.1
      refine ⟨t', g1, ?_⟩
      rw [denotes_get g2 k fuel hk.1, pget_pupdate _ _ _ _ h2.2.2.1.noRef]
      simp [hv]
  · intro hcol
    obtain ⟨s, h1, h2⟩ := denotes_applyOpsSecure digest ops fuel
      (fun op h => (hops op h).2) newEmptySecure _ (denotes_new digest)
    refine ⟨s, h1, ?_, ?_⟩
    · unfold SecureTrie.Get
      rw [denotes_get h2 (digest k) fuel hk.2,
        pget_papplyOps _ .blank (show WF .blank from trivial) (digest k),
        ← written_none_eq_lastWrite]
      exact congrArg Except.ok
        (written_secure k ops hcol (fun _ => none) (fun x => pget .blank (toNibbles x)) rfl)
    · intro v hv
      obtain ⟨t', g1, g2, _⟩ := denotes_update h2 (digest k) v fuel hk.2
      refine ⟨⟨⟨t'.root, t'.db.putPreimage (digest k) k⟩⟩,
        by simp only [SecureTrie.Update, g1], ?_⟩
      unfold SecureTrie.Get
      rw [denotes_get (denotes_putPreimage g2 _ _) (digest k) fuel hk.2,
        pget_pupdate _ _ _ _ h2.2.2.1.noRef]
      simp [hv]

/-- C3 at the operations of `TestSecureDelete` and the key `dog`, with the digest
of fixed length: the plain and the secure trie both return `puppy`. -/
theorem get_returns_last_write_witness :
    (∀ op ∈ testOps secureDeleteVals,
      4 * op.key.length + 2 ≤ 200 ∧ 4 * (polyDigest op.key).length + 2 ≤ 200) ∧
    (4 * (bytesOf "dog").length + 2 ≤ 200 ∧
      4 * (polyDigest (bytesOf "dog")).length + 2 ≤ 200) ∧
    (∀ op ∈ testOps secureDeleteVals,
      polyDigest op.key = polyDigest (bytesOf "dog") → op.key = bytesOf "dog") ∧
    lastWrite (testOps secureDeleteVals) (bytesOf "dog") = some (bytesOf "puppy") ∧
    (∃ t, applyOps 200 newEmpty (testOps secureDeleteVals) = .ok t ∧
        t.Get 200 (bytesOf "dog") = .ok (lastWrite (testOps secureDeleteVals) (bytesOf "dog")) ∧
        ∀ v, v ≠ [] → ∃ t', t.Update 200 (bytesOf "dog") v = .ok t' ∧
          t'.Get 200 (bytesOf "dog") = .ok (some v)) ∧
    (∃ s, applyOpsSecure polyDigest 200 newEmptySecure (testOps secureDeleteVals)
          = .ok s ∧
        s.Get polyDigest 200 (bytesOf "dog") =
          .ok (lastWrite (testOps secureDeleteVals) (bytesOf "dog")) ∧
        ∀ v, v ≠ [] → ∃ s', s.Update polyDigest 200 (bytesOf "dog") v = .ok s' ∧
          s'.Get polyDigest 200 (bytesOf "dog") = .ok (some v)) :=
  ⟨by decide, by decide, by decide, by decide,
    (get_returns_last_write polyDigest (testOps secureDeleteVals) (bytesOf "dog") 200
      (by decide) (by decide)).1,
    (get_returns_last_write polyDigest (testOps secureDeleteVals) (bytesOf "dog") 200
      (by decide) (by decide)).2 (by decide)⟩

/-- C4: for every reachable trie state `T` and every key `k` not present in
`T`, inserting `k` with a non-empty value and then deleting `k` yields a trie in
which `Get(k)` is absent, every key maps as in `T`, and the root hash is the
root hash of `T`: deletion collapses the structure back to the canonical form of
the remaining mapping.  The digest is never empty and has no collision among the
node encodings in the store of `T`. -/
theorem insert_then_delete_restores (digest : Bytes → Bytes) (t : Trie) (k v : Bytes)
    (fuel : Nat) (hne : ∀ x, digest x ≠ [])
    (hr : Reachable digest t) (hcf : CollisionFree digest t.db)
    (hv : v ≠ []) (hf : 4 * k.length + 2 ≤ fuel)
    (habsent : t.Get fuel k = .ok none) :
    ∃ t1 t2, t.Update fuel k v = .ok t1 ∧ t1.Delete fuel k = .ok (t2, true) ∧
      t2.Get fuel k = .ok none ∧
      (∀ f k', 4 * k'.length + 2 ≤ f → t2.Get f k' = t.Get f k') ∧
      t2.Hash digest = t.Hash digest := by
  obtain ⟨m, hm, hc⟩ := reachable_denotes hne hr hcf
  have hnoref := hm.2.2.1.noRef
  have habs : pget m (toNibbles k) = none := by
    rw [denotes_get hm k fuel hf] at habsent
    exact Except.ok.inj habsent
  obtain ⟨t1, h1, d1, _⟩ := denotes_update hm k v fuel hf
  have e1 : pupdate m (toNibbles k) v = pinsert m (toNibbles k) v := by
    simp only [pupdate, hv, if_false]
  rw [e1] at d1
  obtain ⟨t2, h2, d2, _⟩ := denotes_delete d1 k fuel hf
  have hfound : (pdelete (pinsert m (toNibbles k) v) (toNibbles k)).2 = true := by
    rw [(pdelete_spec _ _).1, pget_pinsert _ _ _ _ hnoref]; simp
  rw [hfound] at h2
  rw [pdelete_pinsert m hc (toNibbles k) v hv habs] at d2
  refine ⟨t1, t2, h1, h2, ?_, ?_, ?_⟩
  · rw [denotes_get d2 k fuel hf, habs]
  · intro f k' hf'
    rw [denotes_get d2 k' f hf', denotes_get hm k' f hf']
  · rw [denotes_hash d2, denotes_hash hm]

/-- C4 at the committed sample trie, with the digest of fixed length: `doge` is
not a key of it, `do` and `dog` are beginnings of `doge`, and inserting and
deleting `doge` leaves the root hash as it was. -/
theorem insert_then_delete_restores_witness :
    (∀ x, polyDigest x ≠ []) ∧ Reachable polyDigest sampleTrie ∧
    CollisionFree polyDigest sampleTrie.db ∧ bytesOf "coin" ≠ [] ∧
    4 * (bytesOf "doge").length + 2 ≤ 200 ∧
    sampleTrie.Get 200 (bytesOf "doge") = .ok none ∧
    ∃ t1 t2, sampleTrie.Update 200 (bytesOf "doge") (bytesOf "coin") = .ok t1 ∧
      t1.Delete 200 (bytesOf "doge") = .ok (t2, true) ∧
      t2.Get 200 (bytesOf "doge") = .ok none ∧
      (∀ f k', 4 * k'.length + 2 ≤ f → t2.Get f k' = sampleTrie.Get f k') ∧
      t2.Hash polyDigest = sampleTrie.Hash polyDigest :=
  ⟨polyDigest_ne_nil, sampleTrie_reachable, sampleTrie_collisionFree, by decide, by decide,
    by rfl,
    insert_then_delete_restores polyDigest sampleTrie (bytesOf "doge") (bytesOf "coin") 200
      polyDigest_ne_nil sampleTrie_reachable sampleTrie_collisionFree (by decide) (by decide)
      (by rfl)⟩

/-- C5: for every finite set of (key, value) pairs with distinct keys and every
two orderings of those insertions into an empty trie, the root hash after
committing is the same for both orderings. -/
theorem root_order_independent (digest : Bytes → Bytes) (kvs1 kvs2 : List (Bytes × Bytes))
    (fuel : Nat) (hperm : kvs1.Perm kvs2) (hnd : (kvs1.map Prod.fst).Nodup)
    (hf : ∀ kv ∈ kvs1, 4 * kv.1.length + 2 ≤ fuel) :
    ∃ t1 t2, applyOps fuel newEmpty (insertions kvs1) = .ok t1 ∧
      applyOps fuel newEmpty (insertions kvs2) = .ok t2 ∧
      (t1.Commit digest).1 = (t2.Commit digest).1 := by
  have hnd2 : (kvs2.map Prod.fst).Nodup := (hperm.map Prod.fst).nodup_iff.1 hnd
  have hf1 : ∀ op ∈ insertions kvs1, 4 * op.key.length + 2 ≤ fuel := by
    intro op hop
    simp only [insertions, List.mem_map] at hop
    obtain ⟨kv, hkv, rfl⟩ := hop
    exact hf kv hkv
  have hf2 : ∀ op ∈ insertions kvs2, 4 * op.key.length + 2 ≤ fuel := by
    intro op hop
    simp only [insertions, List.mem_map] at hop
    obtain ⟨kv, hkv, rfl⟩ := hop
    exact hf kv (hperm.mem_iff.2 hkv)
  obtain ⟨t1, h1, d1, _⟩ := denotes_applyOps digest _ fuel hf1 _ _ (denotes_new digest)
  obtain ⟨t2, h2, d2, _⟩ := denotes_applyOps digest _ fuel hf2 _ _ (denotes_new digest)
  refine ⟨t1, t2, h1, h2, ?_⟩
  rw [commit_digest_eq_hash, commit_digest_eq_hash, denotes_hash d1, denotes_hash d2]
  have c1 := canon_insertions kvs1 .blank trivial hnd (fun _ _ => rfl)
  have c2 := canon_insertions kvs2 .blank trivial hnd2 (fun _ _ => rfl)
  rw [canon_unique _ _ c1 c2 (pget_insertions_perm kvs1 kvs2 hperm hnd)]

theorem root_order_independent_witness :
    List.Perm [(bytesOf "do", bytesOf "verb"), (bytesOf "dog", bytesOf "puppy")]
      [(bytesOf "dog", bytesOf "puppy"), (bytesOf "do", bytesOf "verb")] ∧
    ([(bytesOf "do", bytesOf "verb"), (bytesOf "dog", bytesOf "puppy")].map Prod.fst).Nodup ∧
    (∀ kv ∈ [(bytesOf "do", bytesOf "verb"), (bytesOf "dog", bytesOf "puppy")],
      4 * kv.1.length + 2 ≤ 100) ∧
    (∃ t1 t2,
      applyOps 100 newEmpty
        (insertions [(bytesOf "do", bytesOf "verb"), (bytesOf "dog", bytesOf "puppy")]) = .ok t1 ∧
      applyOps 100 newEmpty
        (insertions [(bytesOf "dog", bytesOf "puppy"), (bytesOf "do", bytesOf "verb")]) = .ok t2 ∧
      (t1.Commit tagDigest).1 = (t2.Commit tagDigest).1) :=
  ⟨List.Perm.swap _ _ _, by decide, by decide,
    root_order_independent tagDigest
      [(bytesOf "do", bytesOf "verb"), (bytesOf "dog", bytesOf "puppy")]
      [(bytesOf "dog", bytesOf "puppy"), (bytesOf "do", bytesOf "verb")] 100
      (List.Perm.swap _ _ _) (by decide) (by decide)⟩

/-- C7: for every trie state, calling `Commit` twice with no mutation in between
returns the same root digest both times, and the second call leaves the trie's
root, its store and hence its key/value mapping unchanged. -/
theorem commit_twice_same (digest : Bytes → Bytes) (t : Trie) :
    ((t.Commit digest).2.Commit digest).1 = (t.Commit digest).1 ∧
    ((t.Commit digest).2.Commit digest).2 = (t.Commit digest).2 ∧
    ((t.Commit digest).2.Commit digest).2.root = (t.Commit digest).2.root ∧
    ∀ fuel k, ((t.Commit digest).2.Commit digest).2.Get fuel k = (t.Commit digest).2.Get fuel k := by
  rw [commit_commit]
  exact ⟨rfl, rfl, rfl, fun _ _ => rfl⟩

/-- C8: for every reachable trie, the keys produced by successive `Next` calls
on one iterator are strictly ascending in byte-lexicographic order, and the
sequence is finite: after finitely many calls `Next` returns `false`.  The
digest is never empty and has no collision among the node encodings in the
store of the trie. -/
theorem iterator_ascending_finite (digest : Bytes → Bytes) (t : Trie)
    (hne : ∀ x, digest x ≠ [])
    (hr : Reachable digest t) (hcf : CollisionFree digest t.db) :
    ∃ N L, (L.map Prod.fst).Pairwise (List.Lex (· < ·)) ∧ ∀ f n, N < f → N < n →
      Iterator.collect f n (NewIterator t) = .ok L := by
  obtain ⟨m, hm, _⟩ := reachable_denotes hne hr hcf
  obtain ⟨N, hN⟩ := collect_denotes hm
  exact ⟨N, _, collected_sorted hm.2.2.2, hN⟩

/-- C8 at the committed sample trie, with the digest of fixed length: the
iterator yields `do`, `dog` and `horse`, in this order, and then stops. -/
theorem iterator_ascending_finite_witness :
    (∀ x, polyDigest x ≠ []) ∧ Reachable polyDigest sampleTrie ∧
    CollisionFree polyDigest sampleTrie.db ∧
    Iterator.collect 200 200 (NewIterator sampleTrie) = .ok sampleVals ∧
    ∃ N L, (L.map Prod.fst).Pairwise (List.Lex (· < ·)) ∧ ∀ f n, N < f → N < n →
      Iterator.collect f n (NewIterator sampleTrie) = .ok L :=
  ⟨polyDigest_ne_nil, sampleTrie_reachable, sampleTrie_collisionFree, by rfl,
    iterator_ascending_finite polyDigest sampleTrie polyDigest_ne_nil sampleTrie_reachable
      sampleTrie_collisionFree⟩

/-- C9: for every reachable trie state and every key `k`, `Update(k, empty)` and
`Delete(k)` produce the same mapping and the same root hash.  Afterwards `Get(k)`
is absent and every other key maps as before; the key was found exactly when it
had a value; no `Get` returns a present-but-empty value, before or after; and
`Delete(k)` on any other reachable state with the same mapping, whatever its
history, gives the root hash that `Update(k, empty)` gives here.  The digest is
never empty and has no collision among the node encodings in the stores. -/
theorem update_empty_is_delete (digest : Bytes → Bytes) (t : Trie) (k : Bytes) (fuel : Nat)
    (hne : ∀ x, digest x ≠ [])
    (hr : Reachable digest t) (hcf : CollisionFree digest t.db)
    (hf : 4 * k.length + 2 ≤ fuel) :
    ∃ t1 t2 found, t.Update fuel k [] = .ok t1 ∧ t.Delete fuel k = .ok (t2, found) ∧
      t1.Hash digest = t2.Hash digest ∧ (∀ f k', t1.Get f k' = t2.Get f k') ∧
      t1.Get fuel k = .ok none ∧
      (∀ f k', 4 * k'.length + 2 ≤ f → k' ≠ k → t1.Get f k' = t.Get f k') ∧
      (found = true ↔ ∃ v, t.Get fuel k = .ok (some v)) ∧
      (∀ f k', t1.Get f k' ≠ .ok (some [])) ∧ (∀ f k', t.Get f k' ≠ .ok (some [])) ∧
      (∀ t' : Trie, Reachable digest t' → CollisionFree digest t'.db →
        (∀ k', t'.Get (4 * k'.length + 2) k' = t.Get (4 * k'.length + 2) k') →
        ∃ t2' found', t'.Delete fuel k = .ok (t2', found') ∧
          t2'.Hash digest = t1.Hash digest ∧ found' = found) := by
  obtain ⟨m, hm, hc⟩ := reachable_denotes hne hr hcf
  obtain ⟨t1, h1, h2, _⟩ := denotes_delete hm k fuel hf
  have hne1 : ∀ (t' : Trie) (m' : Node), Denotes digest t' m' →
      ∀ f k', t'.Get f k' ≠ .ok (some []) := by
    intro t' m' hd f k' hg
    have := denotes_get_of_ok hd k' f _ hg
    exact pget_ne_nil m' hd.2.2.1 _ _ this.symm rfl
  refine ⟨t1, t1, _, ?_, h1, rfl, fun _ _ => rfl, ?_, ?_, ?_, hne1 _ _ h2, hne1 _ _ hm, ?_⟩
  · simp only [Trie.Update, if_true, h1]
  · rw [denotes_get h2 k fuel hf, (pdelete_spec m _).2.2]
    simp
  · intro f k' hf' hk'
    rw [denotes_get h2 k' f hf', denotes_get hm k' f hf', (pdelete_spec m _).2.2]
    have : toNibbles k' ≠ toNibbles k := fun e => hk' (toNibbles_injective e)
    simp [this]
  · rw [(pdelete_spec m _).1, denotes_get hm k fuel hf]
    cases pget m (toNibbles k) <;> simp
  · intro t' hr' hcf' hget
    obtain ⟨m', hm', hc'⟩ := reachable_denotes hne hr' hcf'
    have hmm : m' = m := denotes_eq_of_get hm hc hm' hc' hget
    subst hmm
    obtain ⟨t2', g1, g2, _⟩ := denotes_delete hm' k fuel hf
    exact ⟨t2', _, g1, by rw [denotes_hash g2, denotes_hash h2], rfl⟩

/-- C9 at the committed sample trie, with the digest of fixed length and the key
`dog`, which the trie holds: the value `puppy` is gone afterwards. -/
theorem update_empty_is_delete_witness :
    (∀ x, polyDigest x ≠ []) ∧ Reachable polyDigest sampleTrie ∧
    CollisionFree polyDigest sampleTrie.db ∧ 4 * (bytesOf "dog").length + 2 ≤ 200 ∧
    sampleTrie.Get 200 (bytesOf "dog") = .ok (some (bytesOf "puppy")) ∧
    ∃ t1 t2 found, sampleTrie.Update 200 (bytesOf "dog") [] = .ok t1 ∧
      sampleTrie.Delete 200 (bytesOf "dog") = .ok (t2, found) ∧
      t1.Hash polyDigest = t2.Hash polyDigest ∧ (∀ f k', t1.Get f k' = t2.Get f k') ∧
      t1.Get 200 (bytesOf "dog") = .ok none ∧
      (∀ f k', 4 * k'.length + 2 ≤ f → k' ≠ bytesOf "dog" →
        t1.Get f k' = sampleTrie.Get f k') ∧
      (found = true ↔ ∃ v, sampleTrie.Get 200 (bytesOf "dog") = .ok (some v)) ∧
      (∀ f k', t1.Get f k' ≠ .ok (some [])) ∧
      (∀ f k', sampleTrie.Get f k' ≠ .ok (some [])) ∧
      (∀ t' : Trie, Reachable polyDigest t' → CollisionFree polyDigest t'.db →
        (∀ k', t'.Get (4 * k'.length + 2) k' = sampleTrie.Get (4 * k'.length + 2) k') →
        ∃ t2' found', t'.Delete 200 (bytesOf "dog") = .ok (t2', found') ∧
          t2'.Hash polyDigest = t1.Hash polyDigest ∧ found' = found) :=
  ⟨polyDigest_ne_nil, sampleTrie_reachable, sampleTrie_collisionFree, by decide, by rfl,
    update_empty_is_delete polyDigest sampleTrie (bytesOf "dog") 200
      polyDigest_ne_nil sampleTrie_reachable sampleTrie_collisionFree (by decide)⟩

/-- C10, as stated, fails: the literal passed to `common.HexToHash` in
`TestSecureDelete` does not have 65 characters. -/
theorem secureDeleteExpected_length_ne_65 : secureDeleteExpected.length ≠ 65 := by decide

/-- C10 (amended): the literal reference root digest used as the expected value
in the secure-trie deletion test is a string of exactly 64 hexadecimal
characters, the length of a 32-byte digest. -/
theorem secureDeleteExpected_is_64_hex :
    secureDeleteExpected.length = 64 ∧
    secureDeleteExpected.toList.all (fun c => c.isDigit || ('a' ≤ c && c ≤ 'f')) = true := by
  decide

end trie

/-! ## Go maps -/

namespace gomap

variable {V : Type}

theorem Map.get_make (k : String) : (Map.make : Map V).get k = none := rfl

theorem lookup_map_replace (l : List (String × V)) (k k2 : String) (v : V) :
    List.lookup k2 (l.map (fun e => if e.1 = k then (k, v) else e)) =
      if k2 = k then (List.lookup k l).map (fun _ => v) else List.lookup k2 l := by
  induction l with
  | nil => simp
  | cons e l ih =>
    obtain ⟨a, b⟩ := e
    by_cases hak : a = k
    · subst hak
      by_cases h2 : k2 = a
      · subst h2; simp [List.lookup_cons]
      · have h3 : (k2 == a) = false := by simpa using h2
        simp [List.lookup_cons, h3, ih, h2]
    · by_cases h2 : k2 = k
      · subst h2
        have h3 : (k2 == a) = false := by
          simpa using fun h => hak h.symm
        simp [List.lookup_cons, h3, ih, hak]
      · by_cases h4 : k2 = a
        · subst h4; simp [List.lookup_cons, hak]
        · have h3 : (k2 == a) = false := by simpa using h4
          simp [List.lookup_cons, h3, ih, hak, h2]

theorem lookup_append_single (l : List (String × V)) (k k2 : String) (v : V) :
    List.lookup k2 (l ++ [(k, v)]) =
      match List.lookup k2 l with
      | some w => some w
      | none => if k2 = k then some v else none := by
  induction l with
  | nil =>
    by_cases h : k2 = k
    · subst h; simp [List.lookup_cons]
    · have h3 : (k2 == k) = false := by simpa using h
      simp [List.lookup_cons, h3, h]
  | cons e l ih =>
    obtain ⟨a, b⟩ := e
    by_cases h : k2 = a
    · subst h; simp [List.lookup_cons]
    · have h3 : (k2 == a) = false := by simpa using h
      simp [List.lookup_cons, h3, ih]

/-- Reading a map after an assignment. -/
theorem Map.get_set (m : Map V) (k k2 : String) (v : V) :
    (m.set k v).get k2 = if k2 = k then some v else m.get k2 := by
  unfold Map.set Map.get
  cases hl : List.lookup k m.entries with
  | none =>
    simp only [Option.isSome_none, Bool.false_eq_true, if_false, lookup_append_single]
    by_cases h : k2 = k
    · subst h; simp [hl]
    · simp only [h, if_false]
      cases List.lookup k2 m.entries <;> rfl
  | some w =>
    simp only [Option.isSome_some, if_true, lookup_map_replace, hl]
    by_cases h : k2 = k <;> simp [h]

end gomap

/-! ## The merged API -/

namespace api

open gomap shared

variable {V E : Type}

theorem register_methods_get (a : pbfcoinApi V E) (ms : List String)
    (init : Map (pbfcoinApi V E)) (k : String) :
    (ms.foldl (fun acc method => acc.set method a) init).get k =
      if k ∈ ms then some a else init.get k := by
  induction ms generalizing init with
  | nil => simp
  | cons m ms ih =>
    rw [List.foldl_cons, ih, Map.get_set]
    by_cases h1 : k ∈ ms
    · simp [h1]
    · by_cases h2 : k = m
      · simp [h2]
      · simp [h1, h2]

theorem merge_methods_get_of_not_listed (apis : List (pbfcoinApi V E)) (acc : MergedApi V E)
    (k : String) (h : ∀ a ∈ apis, k ∉ a.methods) :
    ((apis.foldl
      (fun mergedApi api =>
        { apis := mergedApi.apis.set api.Name api.ApiVersion
          methodsMap :=
            api.methods.foldl (fun ms method => ms.set method api) mergedApi.methodsMap })
      acc : MergedApi V E).methodsMap.get k) = acc.methodsMap.get k := by
  induction apis generalizing acc with
  | nil => rfl
  | cons a l ih =>
    rw [List.foldl_cons, ih _ (fun b hb => h b (List.mem_cons_of_mem _ hb))]
    simp only [register_methods_get]
    simp [h a (List.mem_cons_self _ _)]

theorem merge_methods_get_last (pre post : List (pbfcoinApi V E)) (api : pbfcoinApi V E)
    (acc : MergedApi V E) (k : String) (hk : k ∈ api.methods)
    (h : ∀ b ∈ post, k ∉ b.methods) :
    (((pre ++ api :: post).foldl
      (fun mergedApi api =>
        { apis := mergedApi.apis.set api.Name api.ApiVersion
          methodsMap :=
            api.methods.foldl (fun ms method => ms.set method api) mergedApi.methodsMap })
      acc : MergedApi V E).methodsMap.get k) = some api := by
  rw [List.foldl_append, List.foldl_cons, merge_methods_get_of_not_listed post _ k h]
  simp only [register_methods_get]
  simp [hk]

theorem merge_apis_get_of_not_named (apis : List (pbfcoinApi V E)) (acc : MergedApi V E)
    (name : String) (h : ∀ a ∈ apis, a.Name ≠ name) :
    ((apis.foldl
      (fun mergedApi api =>
        { apis := mergedApi.apis.set api.Name api.ApiVersion
          methodsMap :=
            api.methods.foldl (fun ms method => ms.set method api) mergedApi.methodsMap })
      acc : MergedApi V E).apis.get name) = acc.apis.get name := by
  induction apis generalizing acc with
  | nil => rfl
  | cons a l ih =>
    rw [List.foldl_cons, ih _ (fun b hb => h b (List.mem_cons_of_mem _ hb))]
    simp only [Map.get_set]
    have hne : ¬ name = a.Name := fun e => h a (List.mem_cons_self _ _) e.symm
    simp [hne]

theorem merge_apis_get_last (pre post : List (pbfcoinApi V E)) (api : pbfcoinApi V E)
    (acc : MergedApi V E) (h : ∀ b ∈ post, b.Name ≠ api.Name) :
    (((pre ++ api :: post).foldl
      (fun mergedApi api =>
        { apis := mergedApi.apis.set api.Name api.ApiVersion
          methodsMap :=
            api.methods.foldl (fun ms method => ms.set method api) mergedApi.methodsMap })
      acc : MergedApi V E).apis.get api.Name) = some api.ApiVersion := by
  rw [List.foldl_append, List.foldl_cons, merge_apis_get_of_not_named post _ _ h]
  simp [Map.get_set]

/-- Every list splits at the last element that satisfies a decidable property. -/
theorem exists_last_split {α : Type} (p : α → Prop) [DecidablePred p] (l : List α)
    (h : ∃ a ∈ l, p a) :
    ∃ pre a post, l = pre ++ a :: post ∧ p a ∧ ∀ b ∈ post, ¬ p b := by
  induction l with
  | nil => simp at h
  | cons x l ih =>
    by_cases hl : ∃ a ∈ l, p a
    · obtain ⟨pre, a, post, he, hp, hq⟩ := ih hl
      exact ⟨x :: pre, a, post, by simp [he], hp, hq⟩
    · obtain ⟨a, ha, hp⟩ := h
      rcases List.mem_cons.mp ha with rfl | ha
      · exact ⟨[], a, l, rfl, hp, fun b hb hpb => hl ⟨b, hb, hpb⟩⟩
      · exact absurd ⟨a, ha, hp⟩ hl

/-- The slice that `methods` returns: as many empty strings as the map has keys, followed by
the keys in the order visited. -/
theorem MergedApi.methods_eq (self : MergedApi V E) (order : List String) :
    self.methods order = List.replicate self.methodsMap.len "" ++ order := by
  unfold MergedApi.methods
  generalize List.replicate self.methodsMap.len "" = init
  induction order generalizing init with
  | nil => simp
  | cons m ms ih => rw [List.foldl_cons, ih]; simp

/-- With the keys visited once each, `methods` returns twice as many entries as there are
keys. -/
theorem MergedApi.methods_length (self : MergedApi V E) (order : List String)
    (h : order.Perm self.methodsMap.keys) :
    (self.methods order).length = 2 * self.methodsMap.len := by
  rw [MergedApi.methods_eq, List.length_append, List.length_replicate, h.length_eq]
  simp [Map.keys, Map.len]; omega

end api

/-! ## The API-string parser -/

namespace strings

/-- Trimming leaves nothing exactly when every character is white space. -/
theorem TrimSpace_length_eq_zero_iff (u : unicode.Tables) (s : String) :
    (TrimSpace u s).length = 0 ↔ ∀ c ∈ s.data, unicode.IsSpace u c = true := by
  unfold TrimSpace
  simp only [String.length, List.length_eq_zero, List.reverse_eq_nil_iff,
    List.dropWhile_eq_nil_iff]
  constructor
  · intro h c hc
    by_contra hsp
    -- the first character that is not white space survives both trims
    have hne : s.data.dropWhile (unicode.IsSpace u) ≠ [] := by
      intro hnil
      exact hsp (List.dropWhile_eq_nil_iff.mp hnil c hc)
    have hhead := List.head_dropWhile_not (unicode.IsSpace u) s.data hne
    have hmem : (s.data.dropWhile (unicode.IsSpace u)).head hne ∈
        (s.data.dropWhile (unicode.IsSpace u)).reverse :=
      List.mem_reverse.mpr (List.head_mem hne)
    have := h _ hmem
    simp [this] at hhead
  · intro h c hc
    have hc2 : c ∈ s.data.dropWhile (unicode.IsSpace u) := List.mem_reverse.mp hc
    exact h c ((List.dropWhile_sublist _).subset hc2)

end strings

namespace api

open shared

/-- The `switch` takes the `default` case exactly on the strings other than the ten names. -/
theorem ParseApiString.switch_eq_none_iff (name : String) :
    ParseApiString.switch name = none ↔
      name ∉ ["admin", "db", "pbf", "debug", "miner", "net", "shh", "txpool", "personal",
        "web3"] := by
  unfold ParseApiString.switch AdminApiName DebugApiName DbApiName pbfApiName MinerApiName
    NetApiName ShhApiName TxPoolApiName PersonalApiName Web3ApiName
  split_ifs <;> simp_all

/-- The API that the `switch` builds for one of the six names whose API type is among the
sources reports that name. -/
theorem ParseApiString.switch_Name (other : Api → String) (name : String) (a : Api)
    (h : ParseApiString.switch name = some a)
    (hn : name ∈ ["db", "pbf", "miner", "net", "txpool", "web3"]) :
    a.Name other = name := by
  simp only [List.mem_cons, List.mem_singleton, List.not_mem_nil, or_false] at hn
  rcases hn with rfl | rfl | rfl | rfl | rfl | rfl <;>
    · have h2 : some _ = some a := h
      cases h2
      rfl

theorem ParseApiString.loop_error_iff (u : unicode.Tables) (names : List String) :
    (∃ e, ParseApiString.loop u names = Except.error e) ↔
      ∃ name ∈ names,
        ParseApiString.switch (strings.ToLower u (strings.TrimSpace u name)) = none := by
  induction names with
  | nil => simp [ParseApiString.loop]
  | cons name names ih =>
    unfold ParseApiString.loop
    cases hs : ParseApiString.switch (strings.ToLower u (strings.TrimSpace u name)) with
    | none => simp [hs]
    | some a =>
      cases hl : ParseApiString.loop u names with
      | error e =>
        have := ih.mp ⟨e, hl⟩
        simp only [List.mem_cons, exists_eq_or_imp, hs]
        simpa using this
      | ok apis =>
        have hno : ¬ ∃ e, ParseApiString.loop u names = Except.error e := by
          rw [hl]; simp
        rw [ih] at hno
        simp only [List.mem_cons, exists_eq_or_imp, hs]
        simpa using hno

theorem ParseApiString.loop_ok (u : unicode.Tables) (names : List String) (apis : List Api)
    (h : ParseApiString.loop u names = Except.ok apis) :
    List.Forall₂
      (fun name a =>
        ParseApiString.switch (strings.ToLower u (strings.TrimSpace u name)) = some a)
      names apis := by
  induction names generalizing apis with
  | nil =>
    simp only [ParseApiString.loop, Except.ok.injEq] at h
    subst h
    exact List.Forall₂.nil
  | cons name names ih =>
    unfold ParseApiString.loop at h
    cases hs : ParseApiString.switch (strings.ToLower u (strings.TrimSpace u name)) with
    | none => simp [hs] at h
    | some a =>
      cases hl : ParseApiString.loop u names with
      | error e => simp [hs, hl] at h
      | ok rest =>
        simp only [hs, hl, Except.ok.injEq] at h
        subst h
        exact List.Forall₂.cons hs (ih rest hl)

end api

/-! ## The miner -/

namespace miner

theorem Miner.registerAgents_eq (self : Miner) (threads : Int) :
    self.registerAgents threads =
      { self with
        worker :=
          { self.worker with
            calls :=
              self.worker.calls ++ (List.range threads.toNat).map workerCall.register } } := by
  unfold Miner.registerAgents
  generalize List.range threads.toNat = l
  induction l generalizing self with
  | nil => simp
  | cons i l ih => rw [List.foldl_cons, ih]; simp

/-- A call of `Start` while `canStart` is 0 only records its arguments and sets
`shouldStart`. -/
theorem Miner.Start_of_canStart_zero (self : Miner) (coinbase : Address) (threads : Int)
    (h : self.canStart = 0) :
    self.Start coinbase threads =
      { self with
        shouldStart := 1
        threads := threads
        worker := { self.worker with coinbase := coinbase }
        coinbase := coinbase } := by
  simp [Miner.Start, h]

/-- A call of `Start` while `canStart` is not 0 starts the mining operation. -/
theorem Miner.Start_of_canStart_ne_zero (self : Miner) (coinbase : Address) (threads : Int)
    (h : self.canStart ≠ 0) :
    self.Start coinbase threads =
      { self with
        shouldStart := 1
        threads := threads
        coinbase := coinbase
        mining := 1
        worker :=
          { self.worker with
            coinbase := coinbase
            calls :=
              self.worker.calls ++ (List.range threads.toNat).map workerCall.register ++
                [workerCall.start, workerCall.commitNewWork] } } := by
  simp [Miner.Start, h, Miner.registerAgents_eq]

theorem Miner.update_done (d : Event) (events : List Event) (self : Miner)
    (hd : d = Event.DoneEvent ∨ d = Event.FailedEvent) :
    Miner.update (d :: events) self =
      if self.shouldStart = 1 then
        ({ self with canStart := 1, shouldStart := 0 } : Miner).Start self.coinbase self.threads
      else { self with canStart := 1, shouldStart := 0 } := by
  rcases hd with rfl | rfl <;> simp [Miner.update]

theorem Miner.update_start (events : List Event) (self : Miner) :
    Miner.update (Event.StartEvent :: events) self =
      Miner.update events
        (if ({ self with canStart := 0 } : Miner).Mining then
          { ({ self with canStart := 0 } : Miner).Stop with shouldStart := 1 }
        else { self with canStart := 0 }) := by
  simp [Miner.update]

/-- The loop does not end while only `StartEvent`s arrive. -/
theorem Miner.update_append (pre rest : List Event) (self : Miner)
    (hpre : ∀ e ∈ pre, e = Event.StartEvent) :
    Miner.update (pre ++ rest) self = Miner.update rest (Miner.update pre self) := by
  induction pre generalizing self with
  | nil => rfl
  | cons e pre ih =>
    have he : e = Event.StartEvent := hpre e (List.mem_cons_self _ _)
    subst he
    rw [List.cons_append, Miner.update_start, Miner.update_start]
    exact ih _ (fun x hx => hpre x (List.mem_cons_of_mem _ hx))

/-- A `StartEvent` changes nothing while `canStart` is 0 and no mining operation runs. -/
theorem Miner.update_idle (pre : List Event) (self : Miner)
    (hpre : ∀ e ∈ pre, e = Event.StartEvent) (hcan : self.canStart = 0)
    (hmin : self.mining ≤ 0) : Miner.update pre self = self := by
  induction pre with
  | nil => rfl
  | cons e pre ih =>
    have he : e = Event.StartEvent := hpre e (List.mem_cons_self _ _)
    subst he
    rw [Miner.update_start]
    have hself : ({ self with canStart := 0 } : Miner) = self := by
      cases self; simp_all
    have hm : self.Mining = false := by simp [Miner.Mining, hmin]
    rw [hself, hm]
    exact ih (fun x hx => hpre x (List.mem_cons_of_mem _ hx))

/-- A `StartEvent` that arrives before the loop has ended clears `canStart` and stops a
running mining operation. -/
theorem Miner.update_StartEvent_stops (self : Miner) (h : self.mining = 1) :
    (Miner.update [Event.StartEvent] self).canStart = 0 ∧
    (Miner.update [Event.StartEvent] self).mining = 0 ∧
    (Miner.update [Event.StartEvent] self).shouldStart = 1 := by
  simp [Miner.update, Miner.Mining, Miner.Stop, h]

end miner

/-! ## The command blocktest -/

namespace gpbf

theorem runAll_no_StartRPC (quote : String → String) (bt : List (String × BlockTest))
    (ecode : Int) : Effect.StartRPC ∉ (runAll quote bt ecode).1 := by
  induction bt generalizing ecode with
  | nil => simp [runAll]
  | cons e bt ih =>
    obtain ⟨name, test⟩ := e
    unfold runAll
    have := ih (if (runOneBlockTest test).2.isSome then 1 else ecode)
    cases h2 : (runOneBlockTest test).2 <;> cases h1 : (runOneBlockTest test).1 <;>
      simp_all

/-- The RPC server is started only when the command has three arguments. -/
theorem runBlockTest_StartRPC_only_with_three_args (quote : String → String)
    (LoadBlockTests : String → Except String (List (String × BlockTest)))
    (args : List String) (h : Effect.StartRPC ∈ runBlockTest quote LoadBlockTests args) :
    args.length = 3 := by
  rcases args with _ | ⟨file, _ | ⟨testname, _ | ⟨third, _ | ⟨fourth, rest⟩⟩⟩⟩
  · simp [runBlockTest, parseArgs] at h
  · simp only [runBlockTest, parseArgs] at h
    cases hl : LoadBlockTests file with
    | error e => simp [hl] at h
    | ok bt => simp [hl, runAll_no_StartRPC] at h
  · simp only [runBlockTest, parseArgs] at h
    cases hl : LoadBlockTests file with
    | error e => simp [hl] at h
    | ok bt =>
      simp only [hl] at h
      by_cases hn : testname = ""
      · simp [hn, runAll_no_StartRPC] at h
      · simp only [hn, if_false] at h
        cases hb : List.lookup testname bt with
        | none => simp [hb] at h
        | some test =>
          simp only [hb] at h
          cases hr : (runOneBlockTest test).2 <;> simp [hr] at h
  · rfl
  · simp [runBlockTest, parseArgs] at h

/-- With three arguments, a test that is found and passes makes the command start the RPC
server. -/
theorem runBlockTest_StartRPC_with_three_args (quote : String → String)
    (LoadBlockTests : String → Except String (List (String × BlockTest)))
    (file testname third : String) (bt : List (String × BlockTest)) (test : BlockTest)
    (hl : LoadBlockTests file = Except.ok bt) (hn : testname ≠ "")
    (hb : bt.lookup testname = some test) (hr : (runOneBlockTest test).2 = none) :
    Effect.StartRPC ∈ runBlockTest quote LoadBlockTests [file, testname, third] := by
  simp [runBlockTest, parseArgs, hl, hn, hb, hr]

end gpbf

/-! ## The runtime -/

namespace runtime

theorem setDefaults_DisableJit {S : Type} (m : Machine S) (cfg : Config) :
    (setDefaults m cfg).DisableJit = cfg.DisableJit := by
  obtain ⟨difficulty, _, _, blockNumber, time, gasLimit, gasPrice, value, _, _, hashFn⟩ := cfg
  cases difficulty <;> cases blockNumber <;> cases time <;> cases gasLimit <;>
    cases gasPrice <;> cases value <;> cases hashFn <;> rfl

end runtime

/-! ## The claims on the rpc packages and the miner -/

namespace api

open gomap shared

/-- C11 (defect in the code): for the merged API built from one API that lists the single
method `db_getString`, the map of methods has exactly that one key, yet `methods` returns two
entries, the first of which is the empty string. -/
theorem methods_of_single_api_has_blank_entry :
    (newMergedApi [sampleDb]).methodsMap.keys = ["db_getString"] ∧
    (newMergedApi [sampleDb]).methods ["db_getString"] = ["", "db_getString"] ∧
    ((newMergedApi [sampleDb]).methods ["db_getString"]).length = 2 ∧
    "" ∈ (newMergedApi [sampleDb]).methods ["db_getString"] := by
  decide

/-- C12: `Execute` of a merged API built by `newMergedApi`. For the method `modules` it
returns the map `apis` without an error, and that map holds under every name the version of
the last API with that name and holds no other name. For any other method it returns what
the `Execute` of the last API in constructor order that lists the method returns, and when no
API lists the method, a nil result with a `NotImplementedError` naming the method; when some
API lists the method there is such a last API. -/
theorem Execute_calls_last_listing_api {V E : Type} (apis : List (pbfcoinApi V E))
    (req : Request) :
    (req.method = "modules" →
      (newMergedApi apis).Execute req = (Result.apis (newMergedApi apis).apis.entries, none) ∧
      (∀ pre api post, apis = pre ++ api :: post → (∀ b ∈ post, b.Name ≠ api.Name) →
        (newMergedApi apis).apis.get api.Name = some api.ApiVersion) ∧
      (∀ name, (∀ a ∈ apis, a.Name ≠ name) → (newMergedApi apis).apis.get name = none)) ∧
    (req.method ≠ "modules" →
      (∀ pre api post, apis = pre ++ api :: post → req.method ∈ api.methods →
        (∀ b ∈ post, req.method ∉ b.methods) →
        (newMergedApi apis).Execute req = api.Execute req) ∧
      ((∀ a ∈ apis, req.method ∉ a.methods) →
        (newMergedApi apis).Execute req =
          (Result.nil, some (Error.NotImplementedError req.method))) ∧
      ((∃ a ∈ apis, req.method ∈ a.methods) →
        ∃ pre api post, apis = pre ++ api :: post ∧ req.method ∈ api.methods ∧
          (∀ b ∈ post, req.method ∉ b.methods) ∧
          (newMergedApi apis).Execute req = api.Execute req)) := by
  have hlast : req.method ≠ "modules" →
      ∀ pre api post, apis = pre ++ api :: post → req.method ∈ api.methods →
        (∀ b ∈ post, req.method ∉ b.methods) →
        (newMergedApi apis).Execute req = api.Execute req := by
    intro hm pre api post he hk hpost
    subst he
    have hget := merge_methods_get_last pre post api
      ({ apis := Map.make, methodsMap := Map.make } : MergedApi V E) req.method hk hpost
    simp only [MergedApi.Execute, MergedApi.handle, hm, if_false]
    unfold newMergedApi
    rw [hget]
  refine ⟨fun hm => ⟨?_, ?_, ?_⟩, fun hm => ⟨hlast hm, ?_, ?_⟩⟩
  · simp [MergedApi.Execute, MergedApi.handle, hm]
  · intro pre api post he hpost
    subst he
    exact merge_apis_get_last pre post api _ hpost
  · intro name hname
    exact merge_apis_get_of_not_named apis _ name hname
  · intro hnone
    have hget := merge_methods_get_of_not_listed apis
      ({ apis := Map.make, methodsMap := Map.make } : MergedApi V E) req.method hnone
    simp only [MergedApi.Execute, MergedApi.handle, hm, if_false]
    unfold newMergedApi
    rw [hget]
    rfl
  · intro hsome
    obtain ⟨pre, api, post, he, hk, hpost⟩ :=
      exists_last_split (fun a : pbfcoinApi V E => req.method ∈ a.methods) apis hsome
    exact ⟨pre, api, post, he, hk, hpost, hlast hm pre api post he hk hpost⟩

/-- C12 at a concrete input: `db_getString` is listed by both sample APIs, and the merged
API answers it with the answer of the later one. -/
theorem Execute_calls_last_listing_api_witness :
    (newMergedApi [sampleDb, sampleNet]).Execute ⟨"db_getString", ""⟩ =
      sampleNet.Execute ⟨"db_getString", ""⟩ :=
  ((Execute_calls_last_listing_api [sampleDb, sampleNet] ⟨"db_getString", ""⟩).2
    (by decide)).1 [sampleDb] sampleNet [] rfl (by decide) (by simp)

end api

namespace api

open shared

/-- C13: `ParseApiString` returns an error exactly when every character of the input is white
space (the empty input included) or some comma-separated element, trimmed and lower-cased, is
not one of the ten API names. It succeeds on `shared.AllApis` and fails on `merged` and on
`db,,net`. -/
theorem ParseApiString_error_iff (u : unicode.Tables) (apistr : String) :
    ((∃ e, ParseApiString u apistr = Except.error e) ↔
      ((∀ c ∈ apistr.data, unicode.IsSpace u c = true) ∨
        ∃ name ∈ strings.Split apistr ',',
          strings.ToLower u (strings.TrimSpace u name) ∉
            ["admin", "db", "pbf", "debug", "miner", "net", "shh", "txpool", "personal",
              "web3"])) ∧
    (∃ apis, ParseApiString u AllApis = Except.ok apis) ∧
    (∃ e, ParseApiString u "merged" = Except.error e) ∧
    (∃ e, ParseApiString u "db,,net" = Except.error e) := by
  refine ⟨?_, ⟨_, rfl⟩, ⟨_, rfl⟩, ⟨_, rfl⟩⟩
  unfold ParseApiString
  by_cases h0 : (strings.TrimSpace u apistr).length = 0
  · simp only [h0, if_true]
    constructor
    · intro _
      exact Or.inl ((strings.TrimSpace_length_eq_zero_iff u apistr).mp h0)
    · intro _
      exact ⟨_, rfl⟩
  · simp only [h0, if_false]
    rw [ParseApiString.loop_error_iff]
    have hsp : ¬ ∀ c ∈ apistr.data, unicode.IsSpace u c = true :=
      fun h => h0 ((strings.TrimSpace_length_eq_zero_iff u apistr).mpr h)
    constructor
    · rintro ⟨name, hmem, hnone⟩
      exact Or.inr ⟨name, hmem, (ParseApiString.switch_eq_none_iff _).mp hnone⟩
    · rintro (h | ⟨name, hmem, hnot⟩)
      · exact absurd h hsp
      · exact ⟨name, hmem, (ParseApiString.switch_eq_none_iff _).mpr hnot⟩

/-- C13 at a concrete input: the element `eth` of `db,eth` is not an API name, so the parser
returns an error. -/
theorem ParseApiString_error_iff_witness :
    ∃ e, ParseApiString unicode.asciiTables "db,eth" = Except.error e :=
  (ParseApiString_error_iff unicode.asciiTables "db,eth").1.mpr
    (Or.inr ⟨"eth", by decide, by decide⟩)

/-- C19: when `ParseApiString` succeeds it returns as many APIs as the input has
comma-separated elements, the API at each position is the one that the `switch` builds for
the element at that position, and wherever an element, trimmed and lower-cased, is one of
`db`, `pbf`, `miner`, `net`, `txpool` and `web3`, the API at the same position reports that
string as its `Name()`. -/
theorem ParseApiString_one_api_per_element (u : unicode.Tables) (other : Api → String)
    (apistr : String) (apis : List Api) (h : ParseApiString u apistr = Except.ok apis) :
    apis.length = (strings.Split apistr ',').length ∧
    ∀ (i : Nat) (name : String) (a : Api), (strings.Split apistr ',')[i]? = some name →
      apis[i]? = some a →
      ParseApiString.switch (strings.ToLower u (strings.TrimSpace u name)) = some a ∧
      (strings.ToLower u (strings.TrimSpace u name) ∈
          ["db", "pbf", "miner", "net", "txpool", "web3"] →
        a.Name other = strings.ToLower u (strings.TrimSpace u name)) := by
  unfold ParseApiString at h
  split_ifs at h
  have hall := ParseApiString.loop_ok u _ apis h
  refine ⟨hall.length_eq.symm, ?_⟩
  intro i name a hname ha
  have hi : i < (strings.Split apistr ',').length := by
    rcases Nat.lt_or_ge i (strings.Split apistr ',').length with hlt | hge
    · exact hlt
    · rw [List.getElem?_eq_none hge] at hname; cases hname
  have hj : i < apis.length := hall.length_eq ▸ hi
  have hrel := List.Forall₂.get hall hi hj
  rw [List.getElem?_eq_getElem hi] at hname
  rw [List.getElem?_eq_getElem hj] at ha
  cases hname
  cases ha
  exact ⟨hrel, fun hsix => ParseApiString.switch_Name other _ _ hrel hsix⟩

/-- C19 at a concrete input: the two elements of ` DB ,Net` give the db API and the net API,
in this order. -/
theorem ParseApiString_one_api_per_element_witness :
    ParseApiString unicode.asciiTables " DB ,Net" = Except.ok [Api.NewDbApi, Api.NewNetApi] ∧
    [Api.NewDbApi, Api.NewNetApi].length = (strings.Split " DB ,Net" ',').length ∧
    Api.Name (fun _ => "") Api.NewNetApi = "net" :=
  ⟨rfl,
    (ParseApiString_one_api_per_element unicode.asciiTables (fun _ => "") " DB ,Net"
      [Api.NewDbApi, Api.NewNetApi] rfl).1,
    ((ParseApiString_one_api_per_element unicode.asciiTables (fun _ => "") " DB ,Net"
      [Api.NewDbApi, Api.NewNetApi] rfl).2 1 "Net" Api.NewNetApi rfl rfl).2 (by decide)⟩

end api

namespace miner

/-- C14: with `params.MaximumExtraDataSize` a value that fits an unsigned 64-bit integer,
`SetExtra` returns an error exactly when the extra data is longer than that value; on an
error the miner, and with it the extra data of the worker, is unchanged, and on success the
extra data of the worker is the given bytes. -/
theorem SetExtra_error_iff (MaximumExtraDataSize : Int) (self : Miner) (extra : List Byte)
    (hmin : 0 ≤ MaximumExtraDataSize) (hmax : MaximumExtraDataSize < 2 ^ 64)
    (hlen : extra.length < 2 ^ 63) :
    ((self.SetExtra MaximumExtraDataSize extra).2.isSome = true ↔
      MaximumExtraDataSize < (extra.length : Int)) ∧
    ((self.SetExtra MaximumExtraDataSize extra).2.isSome = true →
      (self.SetExtra MaximumExtraDataSize extra).1 = self ∧
      (self.SetExtra MaximumExtraDataSize extra).1.worker.extra = self.worker.extra) ∧
    ((self.SetExtra MaximumExtraDataSize extra).2 = none →
      (self.SetExtra MaximumExtraDataSize extra).1.worker.extra = extra) := by
  have hlen2 : extra.length % 2 ^ 64 = extra.length := Nat.mod_eq_of_lt (by omega)
  have hu : (Uint64 MaximumExtraDataSize : Int) = MaximumExtraDataSize := by
    unfold Uint64
    have h1 : (MaximumExtraDataSize.natAbs : Int) = MaximumExtraDataSize :=
      Int.natAbs_of_nonneg hmin
    have h2 : MaximumExtraDataSize.natAbs < 2 ^ 64 := by omega
    rw [Nat.mod_eq_of_lt h2, h1]
  unfold Miner.SetExtra
  rw [hlen2]
  by_cases h : extra.length > Uint64 MaximumExtraDataSize
  · have h3 : MaximumExtraDataSize < (extra.length : Int) := by omega
    simp [h, h3]
  · have h3 : ¬ MaximumExtraDataSize < (extra.length : Int) := by omega
    simp [h, h3]

/-- C14 at a concrete input: with the limit 32, extra data of 33 bytes is refused. -/
theorem SetExtra_error_iff_witness :
    ((New idleWorker).SetExtra 32 (List.replicate 33 0)).2.isSome = true ∧
    ((New idleWorker).SetExtra 32 (List.replicate 33 0)).1 = New idleWorker :=
  ⟨(SetExtra_error_iff 32 (New idleWorker) (List.replicate 33 0) (by decide) (by decide)
      (by simp)).1.mpr (by simp),
   ((SetExtra_error_iff 32 (New idleWorker) (List.replicate 33 0) (by decide) (by decide)
      (by simp)).2.1 (by decide)).1⟩

/-- C17: let only `StartEvent`s arrive before the first `DoneEvent` or `FailedEvent`. Handling
that event stores 1 in `canStart` and 0 in `shouldStart` and then, when `shouldStart` was 1,
calls `Start` with the recorded coinbase and threads; `canStart` is 1 afterwards, and the
loop has ended: whatever events follow, `StartEvent`s included, the miner is the same as if
none had followed. -/
theorem update_is_one_shot (self : Miner) (pre post : List Event) (d : Event)
    (hpre : ∀ e ∈ pre, e = Event.StartEvent)
    (hd : d = Event.DoneEvent ∨ d = Event.FailedEvent) :
    Miner.update (pre ++ d :: post) self =
      (if (Miner.update pre self).shouldStart = 1 then
        ({ Miner.update pre self with canStart := 1, shouldStart := 0 } : Miner).Start
          (Miner.update pre self).coinbase (Miner.update pre self).threads
      else { Miner.update pre self with canStart := 1, shouldStart := 0 }) ∧
    (Miner.update (pre ++ d :: post) self).canStart = 1 ∧
    Miner.update (pre ++ d :: post) self = Miner.update (pre ++ [d]) self ∧
    (Miner.update (pre ++ d :: post) self).mining =
      (Miner.update (pre ++ [d]) self).mining := by
  have h1 := Miner.update_append pre (d :: post) self hpre
  have h2 := Miner.update_append pre [d] self hpre
  have h3 := Miner.update_done d post (Miner.update pre self) hd
  have h4 := Miner.update_done d [] (Miner.update pre self) hd
  have heq : Miner.update (pre ++ d :: post) self = Miner.update (pre ++ [d]) self := by
    rw [h1, h2, h3, h4]
  refine ⟨by rw [h1, h3], ?_, heq, by rw [heq]⟩
  rw [h1, h3]
  split_ifs with hs
  · rw [Miner.Start_of_canStart_ne_zero _ _ _ (by simp)]
  · rfl

/-- C17 at a concrete input: a miner that is mining receives `DoneEvent` and then
`StartEvent`; the `StartEvent` is not handled, so `canStart` stays 1 and the mining
operation keeps running. -/
theorem update_is_one_shot_witness :
    (Miner.update ([] ++ Event.DoneEvent :: [Event.StartEvent])
        ((New idleWorker).Start [] 1)).canStart = 1 ∧
    (Miner.update ([] ++ Event.DoneEvent :: [Event.StartEvent])
        ((New idleWorker).Start [] 1)).mining = 1 :=
  ⟨(update_is_one_shot ((New idleWorker).Start [] 1) [] [Event.StartEvent] Event.DoneEvent
      (by simp) (Or.inl rfl)).2.1,
   ((update_is_one_shot ((New idleWorker).Start [] 1) [] [Event.StartEvent] Event.DoneEvent
      (by simp) (Or.inl rfl)).2.2.2).trans (by decide)⟩

/-- C18: let `Start` be called while `canStart` is 0 and no mining operation runs. The call
records the coinbase and the threads, sets `shouldStart` to 1, makes no call on the worker
and leaves `mining` at 0. When afterwards only `StartEvent`s arrive before the next
`DoneEvent` or `FailedEvent`, handling that event calls `Start` with the recorded coinbase
and threads: `mining` becomes 1, one agent for each thread is registered and the worker is
started. When `Stop` is called in between, handling that event leaves `mining` at 0 and
makes no call on the worker. -/
theorem Start_during_sync_is_deferred (self : Miner) (coinbase : Address) (threads : Int)
    (pre mid post : List Event) (d : Event)
    (hcan : self.canStart = 0) (hmin : self.mining = 0)
    (hpre : ∀ e ∈ pre, e = Event.StartEvent) (hmid : ∀ e ∈ mid, e = Event.StartEvent)
    (hd : d = Event.DoneEvent ∨ d = Event.FailedEvent) :
    ((self.Start coinbase threads).coinbase = coinbase ∧
      (self.Start coinbase threads).worker.coinbase = coinbase ∧
      (self.Start coinbase threads).threads = threads ∧
      (self.Start coinbase threads).shouldStart = 1 ∧
      (self.Start coinbase threads).worker.calls = self.worker.calls ∧
      (self.Start coinbase threads).mining = 0 ∧
      (self.Start coinbase threads).canStart = 0) ∧
    (Miner.update (pre ++ d :: post) (self.Start coinbase threads) =
        ({ self.Start coinbase threads with canStart := 1, shouldStart := 0 } : Miner).Start
          coinbase threads ∧
      (Miner.update (pre ++ d :: post) (self.Start coinbase threads)).mining = 1 ∧
      (Miner.update (pre ++ d :: post) (self.Start coinbase threads)).worker.calls =
        self.worker.calls ++ (List.range threads.toNat).map workerCall.register ++
          [workerCall.start, workerCall.commitNewWork]) ∧
    ((Miner.update (mid ++ d :: post)
        (Miner.update pre (self.Start coinbase threads)).Stop).mining = 0 ∧
      (Miner.update (mid ++ d :: post)
        (Miner.update pre (self.Start coinbase threads)).Stop).worker.calls =
        self.worker.calls ++ [workerCall.stop]) := by
  have hS := Miner.Start_of_canStart_zero self coinbase threads hcan
  have hidle : Miner.update pre (self.Start coinbase threads) = self.Start coinbase threads :=
    Miner.update_idle pre _ hpre (by rw [hS]; exact hcan) (by rw [hS]; exact le_of_eq hmin)
  refine ⟨?_, ?_, ?_⟩
  · rw [hS]
    exact ⟨rfl, rfl, rfl, rfl, rfl, hmin, hcan⟩
  · have hrun : Miner.update (pre ++ d :: post) (self.Start coinbase threads) =
        ({ self.Start coinbase threads with canStart := 1, shouldStart := 0 } : Miner).Start
          coinbase threads := by
      rw [Miner.update_append pre _ _ hpre, hidle, Miner.update_done d post _ hd, hS]
      simp
    refine ⟨hrun, ?_, ?_⟩
    · rw [hrun, Miner.Start_of_canStart_ne_zero _ _ _ (by simp)]
    · rw [hrun, Miner.Start_of_canStart_ne_zero _ _ _ (by simp), hS]
  · rw [hidle]
    have hstop : Miner.update mid (self.Start coinbase threads).Stop =
        (self.Start coinbase threads).Stop :=
      Miner.update_idle mid _ hmid (by rw [hS]; exact hcan) (by simp [Miner.Stop])
    rw [Miner.update_append mid _ _ hmid, hstop, Miner.update_done d post _ hd, hS]
    simp [Miner.Stop]

/-- C18 at a concrete input: a new miner receives `StartEvent`, `Start` is called with one
thread, and `DoneEvent` arrives: the miner is mining with one agent registered. -/
theorem Start_during_sync_is_deferred_witness :
    (Miner.update ([] ++ Event.DoneEvent :: [])
        ((Miner.update [Event.StartEvent] (New idleWorker)).Start [1] 1)).mining = 1 ∧
    (Miner.update ([] ++ Event.DoneEvent :: [])
        ((Miner.update [Event.StartEvent] (New idleWorker)).Start [1] 1)).worker.calls =
      [workerCall.register 0, workerCall.start, workerCall.commitNewWork] :=
  ⟨(Start_during_sync_is_deferred (Miner.update [Event.StartEvent] (New idleWorker)) [1] 1
      [] [] [] Event.DoneEvent (by decide) (by decide) (by simp) (by simp) (Or.inl rfl)).2.1.2.1,
   (Start_during_sync_is_deferred (Miner.update [Event.StartEvent] (New idleWorker)) [1] 1
      [] [] [] Event.DoneEvent (by decide) (by decide) (by simp) (by simp)
      (Or.inl rfl)).2.1.2.2⟩

end miner

namespace runtime

/-- C15: for every code, input and configuration, nil included, and whatever the call of the
virtual machine returns and does to the three variables, `vm.Debug`, `vm.ForceJit` and
`vm.EnableJit` have after `Execute` the values they had before it. The call is made with
`vm.ForceJit` and `vm.EnableJit` equal to the negation of `DisableJit`: `Execute` does not
depend on what the call would do under other values. For a nil or zero configuration that
negation is `true`. -/
theorem Execute_restores_switches {S : Type} (m : Machine S) (code input : List Byte)
    (cfg : Option Config) (globals : vm.Switches) :
    (Execute m code input cfg globals).2 = globals ∧
    (∀ call2 : vm.Switches → Config → List Byte → List Byte →
        (List Byte × S × Option String) × vm.Switches,
      (∀ g c code2 input2, g.ForceJit = !(cfg.getD zeroConfig).DisableJit →
        g.EnableJit = !(cfg.getD zeroConfig).DisableJit →
        call2 g c code2 input2 = m.Call g c code2 input2) →
      Execute { m with Call := call2 } code input cfg globals =
        Execute m code input cfg globals) ∧
    ((cfg = none ∨ cfg = some zeroConfig) → (!(cfg.getD zeroConfig).DisableJit) = true) := by
  refine ⟨?_, ?_, ?_⟩
  · rfl
  · intro call2 h
    have hs : ∀ c : Config, setDefaults { m with Call := call2 } c = setDefaults m c :=
      fun _ => rfl
    cases cfg with
    | none =>
      unfold Execute
      simp only [hs]
      rw [h _ _ _ _ (by rw [setDefaults_DisableJit]; rfl)
        (by rw [setDefaults_DisableJit]; rfl)]
    | some c =>
      unfold Execute
      simp only [hs]
      rw [h _ _ _ _ (by rw [setDefaults_DisableJit]; rfl)
        (by rw [setDefaults_DisableJit]; rfl)]
  · rintro (h | h) <;> subst h <;> rfl

/-- C15 at a concrete input: the call fails with an error and inverts the three variables,
and after `Execute` with a nil configuration they have their old values. -/
theorem Execute_restores_switches_witness :
    (Execute failingMachine [] [] none
        { Debug := true, ForceJit := false, EnableJit := false }).2 =
      { Debug := true, ForceJit := false, EnableJit := false } ∧
    (Execute failingMachine [] [] none
        { Debug := true, ForceJit := false, EnableJit := false }).1.2.2 = some "out of gas" :=
  ⟨(Execute_restores_switches failingMachine [] [] none
      { Debug := true, ForceJit := false, EnableJit := false }).1, rfl⟩

end runtime

namespace gpbf

/-- C16, as stated, fails: the file holds the test `t`, which passes. With the two arguments
file and `t`, an accepted argument count, the command makes no call at all; with the file as
its only argument it runs the test, stops the node and exits with code 0. In neither case is
the RPC server started. -/
theorem runBlockTest_without_third_arg_starts_no_rpc :
    (parseArgs ["bt.json", "t"]).isSome = true ∧ (parseArgs ["bt.json"]).isSome = true ∧
    sampleLoader "bt.json" = Except.ok [("t", passingTest)] ∧
    (runOneBlockTest passingTest).2 = none ∧
    runBlockTest quoteAscii sampleLoader ["bt.json", "t"] = [] ∧
    runBlockTest quoteAscii sampleLoader ["bt.json"] =
      [Effect.Print "----------------- Running Block Test \x22t\x22\n", Effect.Stop,
        Effect.WaitForShutdown, Effect.Exit 0] ∧
    Effect.StartRPC ∉ runBlockTest quoteAscii sampleLoader ["bt.json", "t"] ∧
    Effect.StartRPC ∉ runBlockTest quoteAscii sampleLoader ["bt.json"] :=
  ⟨by decide, by decide, rfl, by decide, by decide, by decide, by decide, by decide⟩

/-- C16 (amended): whenever the block test file is loaded and the selected test passes, the
RPC server is started if the command has three arguments, the second a non-empty test name
of the file; the RPC server is started only when the command has three arguments, so with
one or two arguments it is not started. -/
theorem runBlockTest_starts_rpc_with_third_arg (quote : String → String)
    (LoadBlockTests : String → Except String (List (String × BlockTest))) :
    (∀ (file testname third : String) (bt : List (String × BlockTest)) (test : BlockTest),
      LoadBlockTests file = Except.ok bt → testname ≠ "" →
      bt.lookup testname = some test → (runOneBlockTest test).2 = none →
      runBlockTest quote LoadBlockTests [file, testname, third] =
        [Effect.Print "Block Test post state validated, starting RPC interface.\n",
          Effect.startpbf, Effect.StartRPC, Effect.WaitForShutdown]) ∧
    (∀ args : List String, Effect.StartRPC ∈ runBlockTest quote LoadBlockTests args →
      args.length = 3) ∧
    (∀ args : List String, args.length = 1 ∨ args.length = 2 →
      Effect.StartRPC ∉ runBlockTest quote LoadBlockTests args) := by
  refine ⟨?_, ?_, ?_⟩
  · intro file testname third bt test hl hn hb hr
    simp [runBlockTest, parseArgs, hl, hn, hb, hr]
  · intro args h
    exact runBlockTest_StartRPC_only_with_three_args quote LoadBlockTests args h
  · intro args hlen h
    have := runBlockTest_StartRPC_only_with_three_args quote LoadBlockTests args h
    omega

/-- C16 (amended) at a concrete input: with the arguments file, `t` and `rpc` the command
starts the RPC server. -/
theorem runBlockTest_starts_rpc_with_third_arg_witness :
    runBlockTest quoteAscii sampleLoader ["bt.json", "t", "rpc"] =
      [Effect.Print "Block Test post state validated, starting RPC interface.\n",
        Effect.startpbf, Effect.StartRPC, Effect.WaitForShutdown] :=
  (runBlockTest_starts_rpc_with_third_arg quoteAscii sampleLoader).1 "bt.json" "t" "rpc"
    [("t", passingTest)] passingTest rfl (by decide) rfl rfl

end gpbf
